import Mathlib

/-!
# Verification of the ShowsReorg reconciliation scripts

Shallow embedding of the three sync scripts of the repository
(`src/db/tvfiles_db.py`, `src/db/tvfiles_sonarr.py`, `src/db/tvfiles_plex.py`)
and proofs of the spec's testable properties about them.

Modelling conventions:
* each SQLite table is a `List` of row structures; the `INTEGER PRIMARY KEY`
  column is modelled by a `next…Id` counter in the database state;
* `INSERT OR IGNORE` on a table with a uniqueness constraint is modelled by an
  existence check on the constrained columns followed by an append;
* `UPDATE … WHERE col = ?` is modelled by a `List.map` touching every row that
  matches the predicate (exactly SQL semantics);
* `SELECT … WHERE removed_date IS NULL` followed by a Python loop over
  `fetchall()` is modelled by taking the snapshot list first and folding the
  per-row updates over it, as the scripts do;
* external inputs (filesystem walk results, Sonarr JSON, Plex XML) are the
  observation structures; a failed `stat` call is an observation whose
  `ctime` is `none`, matching the `except OSError` branch;
* timestamps (`utc_now()`) are opaque `String` parameters.
-/

set_option maxHeartbeats 1000000

namespace ShowsReorg

/-! ## Filesystem variant: `src/db/tvfiles_db.py` -/
/-- A row of the `files` table (`init_db`): `id INTEGER PRIMARY KEY`,
`filename`, `filepath`, nullable `creation_date`, `added_date NOT NULL`,
nullable `removed_date`, with `UNIQUE(filename, filepath)`. -/
structure FileRow where
  id : Nat
  filename : String
  filepath : String
  creation_date : Option String
  added_date : String
  removed_date : Option String
deriving DecidableEq

/-- The tvfiles SQLite database: `scans` (scan_date per run), `scan_dirs`
(dirname UNIQUE, first_added) and `files`.  `nextFileId` models the
auto-assigned primary key of `files`. -/
structure FsDB where
  scans : List String
  scan_dirs : List (String × String)
  files : List FileRow
  nextFileId : Nat
deriving DecidableEq

/-- One file yielded by the `os.walk` traversal inside `scan_directory`:
`filename` is `fname`, `rootPath` is the resolved `root_path`, and `ctime`
is the iso-formatted `st_ctime` — `none` models the `except OSError` branch
(stat failed). -/
structure FsObs where
  filename : String
  rootPath : String
  ctime : Option String
deriving DecidableEq

/-- Natural key of an observed file: the `(filename, filepath)` pair. -/
def fsKey (o : FsObs) : String × String := (o.filename, o.rootPath)

/-- Natural key of a stored file row. -/
def fileKey (r : FileRow) : String × String := (r.filename, r.filepath)

/-- `INSERT OR IGNORE INTO files …` (scan_directory lines 103-112).  The
returned `Bool` models `cur.rowcount > 0`. -/
def insertFsFile (db : FsDB) (now : String) (o : FsObs) : FsDB × Bool :=
  if db.files.any (fun r => fileKey r = fsKey o) then (db, false)
  else
    ({ db with
        files := db.files ++ [⟨db.nextFileId, o.filename, o.rootPath, o.ctime, now, none⟩],
        nextFileId := db.nextFileId + 1 }, true)

/-- The body of the per-file loop of `scan_directory`, accumulating
`(db, total_inserted, files processed)`.  (`file_count` is per-directory in
the script; the third component is the sum over all directories.) -/
def scanStep (now : String) (acc : FsDB × Nat × Nat) (o : FsObs) : FsDB × Nat × Nat :=
  let db' := insertFsFile acc.1 now o
  (db'.1, acc.2.1 + (if db'.2 then 1 else 0), acc.2.2 + 1)

/-- `scan_directory` (lines 83-122) over the flattened walk results. -/
def scan_directory (now : String) (obs : List FsObs) (db : FsDB) : FsDB × Nat × Nat :=
  obs.foldl (scanStep now) (db, 0, 0)

/-- `UPDATE files SET removed_date = ? WHERE id = ?` (lines 148-152). -/
def markRemovedById (now : String) (fs : List FileRow) (i : Nat) : List FileRow :=
  fs.map (fun r => if r.id = i then { r with removed_date := some now } else r)

/-- `update_directories` (lines 125-156): snapshot the active rows
(`removed_date IS NULL`), then for every snapshot row whose key is not among
the files currently on disk (`existing`), mark it removed.  Returns the new
database and the `removed` counter. -/
def update_directories (now : String) (existing : List (String × String)) (db : FsDB) :
    FsDB × Nat :=
  let activeRows := db.files.filter (fun r => r.removed_date = none)
  let files' := activeRows.foldl
    (fun fs q => if fileKey q ∈ existing then fs else markRemovedById now fs q.id) db.files
  let removedCount := (activeRows.filter (fun q => fileKey q ∉ existing)).length
  ({ db with files := files' }, removedCount)

/-- `record_scan` (lines 64-71): inserts one row into `scans`. -/
def record_scan (now : String) (db : FsDB) : FsDB :=
  { db with scans := db.scans ++ [now] }

/-- `record_dir` (lines 74-80): `INSERT OR IGNORE` into `scan_dirs`. -/
def record_dir (now dirname : String) (db : FsDB) : FsDB :=
  if db.scan_dirs.any (fun d => d.1 = dirname) then db
  else { db with scan_dirs := db.scan_dirs ++ [(dirname, now)] }

/-- One full filesystem pass (Streaming + Finalizing): `scan_directory`
followed by `update_directories`, where the `existing` set rebuilt by the
update walk sees the same files as the scan.  Returns
`(db, total_inserted, processed, removed)`. -/
def fsPass (nowScan nowUpd : String) (obs : List FsObs) (db : FsDB) :
    FsDB × Nat × Nat × Nat :=
  let s := scan_directory nowScan obs db
  let u := update_directories nowUpd (obs.map fsKey) s.1
  (u.1, s.2.1, s.2.2, u.2)

/-! ## Sonarr variant: `src/db/tvfiles_sonarr.py` -/
/-- A row of `sonarr_series`: `id INTEGER PRIMARY KEY`,
`sonarr_id INTEGER UNIQUE`, `title`, `path`. -/
structure SonarrSeriesRow where
  id : Nat
  sonarr_id : Nat
  title : String
  path : String
deriving DecidableEq

/-- A row of `sonarr_episodes`: `sonarr_id INTEGER UNIQUE`, foreign key
`series_id`, nullable season/episode numbers. -/
structure SonarrEpisodeRow where
  id : Nat
  sonarr_id : Nat
  series_id : Nat
  season_number : Option Int
  episode_number : Option Int
deriving DecidableEq

/-- A row of `sonarr_files`: `file_path TEXT UNIQUE`, foreign keys
`series_id` and nullable `episode_id`, plus the added/removed lifecycle. -/
structure SonarrFileRow where
  id : Nat
  file_path : String
  series_id : Nat
  episode_id : Option Nat
  added_date : String
  removed_date : Option String
deriving DecidableEq

/-- The Sonarr-side SQLite database with primary-key counters. -/
structure SonarrDB where
  series : List SonarrSeriesRow
  episodes : List SonarrEpisodeRow
  files : List SonarrFileRow
  nextSeriesId : Nat
  nextEpisodeId : Nat
  nextFileId : Nat
deriving DecidableEq

/-- One element of the `episode?seriesId=` JSON answer. -/
structure SonarrEpisodeObs where
  id : Nat
  seasonNumber : Option Int
  episodeNumber : Option Int
deriving DecidableEq

/-- One element of the `episodefile?seriesId=` JSON answer: `path` is already
resolved (`Path(ef["path"]).resolve()`); `episodeIds` is
`ef.get("episodeIds") or []`, so a missing or empty list is `[]`. -/
structure SonarrFileObs where
  path : String
  episodeIds : List Nat
deriving DecidableEq

/-- One element of the `series` JSON answer, together with the per-series
episode and episode-file answers fetched inside the loop. -/
structure SonarrSeriesObs where
  id : Nat
  title : String
  path : String
  episodes : List SonarrEpisodeObs
  episodeFiles : List SonarrFileObs
deriving DecidableEq

/-- The running state of one `sync_sonarr` pass: the database plus
`seen_files`, `total_files`, `resolved_episodes`, `unresolved_files`. -/
structure SonarrPass where
  db : SonarrDB
  seen : List String
  totalFiles : Nat
  resolvedEpisodes : Nat
  unresolvedFiles : Nat
deriving DecidableEq

/-- `INSERT OR IGNORE INTO sonarr_series …` (lines 97-101). -/
def insertSeries (db : SonarrDB) (sid : Nat) (title path : String) : SonarrDB :=
  if db.series.any (fun r => r.sonarr_id = sid) then db
  else { db with
    series := db.series ++ [⟨db.nextSeriesId, sid, title, path⟩],
    nextSeriesId := db.nextSeriesId + 1 }

/-- `SELECT id FROM sonarr_series WHERE sonarr_id = ?` then `fetchone()[0]`
(lines 103-107).  The preceding `INSERT OR IGNORE` guarantees a row exists,
so the default is never reached on the script's execution paths. -/
def findSeriesId (db : SonarrDB) (sid : Nat) : Nat :=
  ((db.series.find? (fun r => r.sonarr_id = sid)).map (fun r => r.id)).getD 0

/-- `INSERT OR IGNORE INTO sonarr_episodes …` (lines 131-140). -/
def insertEpisode (db : SonarrDB) (eid seriesId : Nat) (sn en : Option Int) : SonarrDB :=
  if db.episodes.any (fun r => r.sonarr_id = eid) then db
  else { db with
    episodes := db.episodes ++ [⟨db.nextEpisodeId, eid, seriesId, sn, en⟩],
    nextEpisodeId := db.nextEpisodeId + 1 }

/-- `SELECT id FROM sonarr_episodes WHERE sonarr_id = ?` (lines 142-146). -/
def findEpisodeId (db : SonarrDB) (eid : Nat) : Nat :=
  ((db.episodes.find? (fun r => r.sonarr_id = eid)).map (fun r => r.id)).getD 0

/-- `INSERT OR IGNORE INTO sonarr_files …` (lines 153-162). -/
def insertSonarrFile (db : SonarrDB) (p : String) (seriesId : Nat) (epId : Option Nat)
    (now : String) : SonarrDB :=
  if db.files.any (fun r => r.file_path = p) then db
  else { db with
    files := db.files ++ [⟨db.nextFileId, p, seriesId, epId, now, none⟩],
    nextFileId := db.nextFileId + 1 }

/-- `UPDATE sonarr_files SET removed_date = NULL WHERE file_path = ?`
(lines 164-168). -/
def clearSonarrRemoved (db : SonarrDB) (p : String) : SonarrDB :=
  { db with
    files := db.files.map fun r =>
      if r.file_path = p then { r with removed_date := none } else r }

/-- `episode_by_id = {e["id"]: e for e in episodes}` then `.get(eid)`: a dict
comprehension keeps the last occurrence of a duplicated id. -/
def lookupEpisodeObs (eps : List SonarrEpisodeObs) (eid : Nat) : Option SonarrEpisodeObs :=
  eps.reverse.find? (fun e => e.id = eid)

/-- Body of the `for ef in episode_files` loop (lines 120-168): record the
seen path, resolve `episodeIds[0]` through `episode_by_id` (counting
resolved/unresolved), insert-or-ignore the file row, and unconditionally
clear its `removed_date`. -/
def sonarrStepFile (now : String) (seriesDbId : Nat) (eps : List SonarrEpisodeObs)
    (st : SonarrPass) (ef : SonarrFileObs) : SonarrPass :=
  let st1 : SonarrPass :=
    { st with seen := st.seen ++ [ef.path], totalFiles := st.totalFiles + 1 }
  match ef.episodeIds with
  | [] =>
    let st2 := { st1 with unresolvedFiles := st1.unresolvedFiles + 1 }
    { st2 with db := clearSonarrRemoved (insertSonarrFile st2.db ef.path seriesDbId none now) ef.path }
  | eid :: _ =>
    match lookupEpisodeObs eps eid with
    | none =>
      let st2 := { st1 with unresolvedFiles := st1.unresolvedFiles + 1 }
      { st2 with db := clearSonarrRemoved (insertSonarrFile st2.db ef.path seriesDbId none now) ef.path }
    | some ep =>
      let db1 := insertEpisode st1.db ep.id seriesDbId ep.seasonNumber ep.episodeNumber
      let epDbId := findEpisodeId db1 ep.id
      let st2 := { st1 with db := db1, resolvedEpisodes := st1.resolvedEpisodes + 1 }
      { st2 with
        db := clearSonarrRemoved
          (insertSonarrFile st2.db ef.path seriesDbId (some epDbId) now) ef.path }

/-- Body of the `for series in series_list` loop (lines 91-168): upsert the
series, fetch its durable id, then process the series' episode files. -/
def sonarrStepSeries (now : String) (st : SonarrPass) (so : SonarrSeriesObs) : SonarrPass :=
  let db1 := insertSeries st.db so.id so.title so.path
  let sid := findSeriesId db1 so.id
  so.episodeFiles.foldl (sonarrStepFile now sid so.episodes) { st with db := db1 }

/-- The `# removed files` block (lines 170-181): snapshot the active paths,
then mark every path not in `seen_files` removed with the pass timestamp. -/
def sonarrFinalize (now : String) (seen : List String) (files : List SonarrFileRow) :
    List SonarrFileRow :=
  let active := (files.filter (fun r => r.removed_date = none)).map (fun r => r.file_path)
  active.foldl
    (fun fs p => if p ∈ seen then fs
      else fs.map (fun r => if r.file_path = p then { r with removed_date := some now } else r))
    files

/-- `sync_sonarr` (lines 79-188): stream every series, then finalize. -/
def sync_sonarr (now : String) (seriesList : List SonarrSeriesObs) (db : SonarrDB) :
    SonarrPass :=
  let st := seriesList.foldl (sonarrStepSeries now) ⟨db, [], 0, 0, 0⟩
  { st with db := { st.db with files := sonarrFinalize now st.seen st.db.files } }

/-- All file paths of one Sonarr observation set, in streaming order. -/
def sonarrObsPaths : List SonarrSeriesObs → List String
  | [] => []
  | so :: rest => so.episodeFiles.map (fun ef => ef.path) ++ sonarrObsPaths rest

/-! ## Plex variant: `src/db/tvfiles_plex.py` -/
/-- A row of `plex_series`: `plex_key TEXT UNIQUE`, `title`. -/
structure PlexSeriesRow where
  id : Nat
  plex_key : String
  title : String
deriving DecidableEq

/-- A row of `plex_episodes`: `plex_key TEXT UNIQUE`, foreign key
`series_id`, season/episode numbers (XML attributes, possibly absent). -/
structure PlexEpisodeRow where
  id : Nat
  plex_key : String
  series_id : Nat
  season_number : Option String
  episode_number : Option String
deriving DecidableEq

/-- A row of `plex_files`: `UNIQUE(filename, filepath)`, foreign keys
`series_id` and `episode_id` (always supplied by the script), plus the
added/removed lifecycle. -/
structure PlexFileRow where
  id : Nat
  filename : String
  filepath : String
  series_id : Nat
  episode_id : Nat
  added_date : String
  removed_date : Option String
deriving DecidableEq

/-- The Plex-side SQLite database with primary-key counters. -/
structure PlexDB where
  series : List PlexSeriesRow
  episodes : List PlexEpisodeRow
  files : List PlexFileRow
  nextSeriesId : Nat
  nextEpisodeId : Nat
  nextFileId : Nat
deriving DecidableEq

/-- One `Part` element: `part.get("file")` resolved and split into
`full_path.name` / `str(full_path.parent)`. -/
structure PlexPartObs where
  filename : String
  filepath : String
deriving DecidableEq

/-- One `Video` element of a season page: `key`, `index`, and its parts. -/
structure PlexEpisodeObs where
  key : String
  index : Option String
  parts : List PlexPartObs
deriving DecidableEq

/-- One `Directory` element of a show page: `index` and its episodes
(fetched via the season key). -/
structure PlexSeasonObs where
  index : Option String
  episodes : List PlexEpisodeObs
deriving DecidableEq

/-- One show `Directory` of a library section, with its seasons. -/
structure PlexShowObs where
  key : String
  title : String
  seasons : List PlexSeasonObs
deriving DecidableEq

/-- One TV library section with its shows. -/
structure PlexSectionObs where
  shows : List PlexShowObs
deriving DecidableEq

/-- The running state of one `sync_plex` pass: database, composite-key
`seen_files`, and `total_files`. -/
structure PlexPass where
  db : PlexDB
  seen : List (String × String)
  totalFiles : Nat
deriving DecidableEq

/-- Natural key of a stored Plex file row. -/
def plexFileKey (r : PlexFileRow) : String × String := (r.filename, r.filepath)

/-- Natural key of an observed part. -/
def plexPartKey (p : PlexPartObs) : String × String := (p.filename, p.filepath)

/-- `INSERT OR IGNORE INTO plex_series …` (lines 133-137). -/
def insertPlexSeries (db : PlexDB) (key title : String) : PlexDB :=
  if db.series.any (fun r => r.plex_key = key) then db
  else { db with
    series := db.series ++ [⟨db.nextSeriesId, key, title⟩],
    nextSeriesId := db.nextSeriesId + 1 }

/-- `SELECT id FROM plex_series WHERE plex_key = ?` (lines 139-143). -/
def findPlexSeriesId (db : PlexDB) (key : String) : Nat :=
  ((db.series.find? (fun r => r.plex_key = key)).map (fun r => r.id)).getD 0

/-- `INSERT OR IGNORE INTO plex_episodes …` (lines 161-170). -/
def insertPlexEpisode (db : PlexDB) (key : String) (seriesId : Nat) (sn en : Option String) :
    PlexDB :=
  if db.episodes.any (fun r => r.plex_key = key) then db
  else { db with
    episodes := db.episodes ++ [⟨db.nextEpisodeId, key, seriesId, sn, en⟩],
    nextEpisodeId := db.nextEpisodeId + 1 }

/-- `SELECT id FROM plex_episodes WHERE plex_key = ?` (lines 172-176). -/
def findPlexEpisodeId (db : PlexDB) (key : String) : Nat :=
  ((db.episodes.find? (fun r => r.plex_key = key)).map (fun r => r.id)).getD 0

/-- `INSERT OR IGNORE INTO plex_files …` (lines 187-197). -/
def insertPlexFile (db : PlexDB) (k : String × String) (seriesId episodeId : Nat)
    (now : String) : PlexDB :=
  if db.files.any (fun r => plexFileKey r = k) then db
  else { db with
    files := db.files ++ [⟨db.nextFileId, k.1, k.2, seriesId, episodeId, now, none⟩],
    nextFileId := db.nextFileId + 1 }

/-- `UPDATE plex_files SET removed_date = NULL WHERE filename = ? AND
filepath = ?` (lines 199-203). -/
def clearPlexRemoved (db : PlexDB) (k : String × String) : PlexDB :=
  { db with
    files := db.files.map fun r =>
      if plexFileKey r = k then { r with removed_date := none } else r }

/-- Body of the `for part in ep.findall(".//Part")` loop (lines 179-203). -/
def plexStepPart (now : String) (seriesId episodeId : Nat) (st : PlexPass)
    (part : PlexPartObs) : PlexPass :=
  let st1 : PlexPass :=
    { st with seen := st.seen ++ [plexPartKey part], totalFiles := st.totalFiles + 1 }
  { st1 with
    db := clearPlexRemoved
      (insertPlexFile st1.db (plexPartKey part) seriesId episodeId now) (plexPartKey part) }

/-- Body of the `for ep in episodes_root.findall(".//Video")` loop
(lines 156-203): upsert the episode, fetch its id, process its parts. -/
def plexStepEpisode (now : String) (seriesId : Nat) (sn : Option String) (st : PlexPass)
    (ep : PlexEpisodeObs) : PlexPass :=
  let db1 := insertPlexEpisode st.db ep.key seriesId sn ep.index
  let epId := findPlexEpisodeId db1 ep.key
  ep.parts.foldl (plexStepPart now seriesId epId) { st with db := db1 }

/-- Body of the `for season in seasons_root.findall(".//Directory")` loop
(lines 149-203). -/
def plexStepSeason (now : String) (seriesId : Nat) (st : PlexPass) (season : PlexSeasonObs) :
    PlexPass :=
  season.episodes.foldl (plexStepEpisode now seriesId season.index) st

/-- Body of the `for show in root.findall(".//Directory")` loop
(lines 126-203): upsert the series, fetch its id, process its seasons. -/
def plexStepShow (now : String) (st : PlexPass) (show' : PlexShowObs) : PlexPass :=
  let db1 := insertPlexSeries st.db show'.key show'.title
  let sid := findPlexSeriesId db1 show'.key
  show'.seasons.foldl (plexStepSeason now sid) { st with db := db1 }

/-- Body of the `for section in sections` loop (lines 120-203). -/
def plexStepSection (now : String) (st : PlexPass) (sec : PlexSectionObs) : PlexPass :=
  sec.shows.foldl (plexStepShow now) st

/-- The `# --- removed files ---` block (lines 205-217): snapshot the active
keys, then mark every key not in `seen_files` removed. -/
def plexFinalize (now : String) (seen : List (String × String)) (files : List PlexFileRow) :
    List PlexFileRow :=
  let active := (files.filter (fun r => r.removed_date = none)).map plexFileKey
  active.foldl
    (fun fs k => if k ∈ seen then fs
      else fs.map (fun r => if plexFileKey r = k then { r with removed_date := some now } else r))
    files

/-- `sync_plex` (lines 110-219): stream every section, then finalize. -/
def sync_plex (now : String) (sections : List PlexSectionObs) (db : PlexDB) : PlexPass :=
  let st := sections.foldl (plexStepSection now) ⟨db, [], 0⟩
  { st with db := { st.db with files := plexFinalize now st.seen st.db.files } }

/-- All part keys of one episode, in order. -/
def plexEpisodeKeys (ep : PlexEpisodeObs) : List (String × String) :=
  ep.parts.map plexPartKey

/-- All part keys of one season. -/
def plexSeasonKeys : List PlexEpisodeObs → List (String × String)
  | [] => []
  | ep :: rest => plexEpisodeKeys ep ++ plexSeasonKeys rest

/-- All part keys of one show. -/
def plexShowKeys : List PlexSeasonObs → List (String × String)
  | [] => []
  | s :: rest => plexSeasonKeys s.episodes ++ plexShowKeys rest

/-- All part keys of one section. -/
def plexSectionKeys : List PlexShowObs → List (String × String)
  | [] => []
  | sh :: rest => plexShowKeys sh.seasons ++ plexSectionKeys rest

/-- All part keys of one Plex observation set, in streaming order. -/
def plexObsKeys : List PlexSectionObs → List (String × String)
  | [] => []
  | sec :: rest => plexSectionKeys sec.shows ++ plexObsKeys rest

/-! ## Connection / commit trace model (for pass atomicity) -/
/-- One operation against the SQLite connection: a buffered write, or a
`conn.commit()`. -/
inductive DbOp (σ : Type) where
  | write (f : σ → σ) : DbOp σ
  | commit : DbOp σ

/-- Run operations over a `(committed, current)` pair: sqlite3 buffers writes
in the open transaction; `commit` publishes the current state.  A run aborted
before a commit leaves `committed` as the durable contents of the database. -/
def runOps {σ : Type} (c : σ × σ) : List (DbOp σ) → σ × σ
  | [] => c
  | DbOp.write f :: ops => runOps (c.1, f c.2) ops
  | DbOp.commit :: ops => runOps (c.2, c.2) ops

/-- Whether an operation is a commit. -/
def isCommit {σ : Type} : DbOp σ → Bool
  | DbOp.commit => true
  | DbOp.write _ => false

/-- Number of commits in an operation list. -/
def commitCount {σ : Type} (ops : List (DbOp σ)) : Nat :=
  (ops.filter isCommit).length

/-- The store operations of one `tvfiles_db.py` run (`main`, lines 159-187)
with `--dirname` and `--update`: `record_scan` and `record_dir` each commit
on their own (lines 70, 80) before `scan_directory` commits (line 121) and
`update_directories` commits (line 155). -/
def fsMainOps (nowScan nowUpd dirname : String) (obs : List FsObs)
    (existing : List (String × String)) : List (DbOp FsDB) :=
  [DbOp.write (record_scan nowScan), DbOp.commit,
   DbOp.write (record_dir nowScan dirname), DbOp.commit]
  ++ obs.map (fun o => DbOp.write (fun db => (insertFsFile db nowScan o).1))
  ++ [DbOp.commit,
      DbOp.write (fun db => (update_directories nowUpd existing db).1), DbOp.commit]

/-- The database effect of one series observation inside `sync_sonarr`
(independent of the in-memory seen-set and counters). -/
def sonarrDbStep (now : String) (so : SonarrSeriesObs) (db : SonarrDB) : SonarrDB :=
  (sonarrStepSeries now ⟨db, [], 0, 0, 0⟩ so).db

/-- The store operations of one `sync_sonarr` pass: buffered writes per
series observation, the finalization writes, then the single `conn.commit()`
of line 183. -/
def sonarrSyncOps (now : String) (obs : List SonarrSeriesObs) : List (DbOp SonarrDB) :=
  obs.map (fun so => DbOp.write (sonarrDbStep now so))
  ++ [DbOp.write (fun db => { db with files := sonarrFinalize now (sonarrObsPaths obs) db.files }),
      DbOp.commit]

/-- The database effect of one section observation inside `sync_plex`. -/
def plexDbStep (now : String) (sec : PlexSectionObs) (db : PlexDB) : PlexDB :=
  (plexStepSection now ⟨db, [], 0⟩ sec).db

/-- The store operations of one `sync_plex` pass: buffered writes per
section, the finalization writes, then the single `conn.commit()` of
line 219. -/
def plexSyncOps (now : String) (obs : List PlexSectionObs) : List (DbOp PlexDB) :=
  obs.map (fun sec => DbOp.write (plexDbStep now sec))
  ++ [DbOp.write (fun db => { db with files := plexFinalize now (plexObsKeys obs) db.files }),
      DbOp.commit]

/-! ## Basic lemmas about the Sonarr operations -/
/-- Presence of a series natural key in the store. -/
def seriesHas (db : SonarrDB) (sid : Nat) : Prop :=
  ∃ r ∈ db.series, r.sonarr_id = sid

/-- Presence of an episode natural key in the store. -/
def episodeHas (db : SonarrDB) (eid : Nat) : Prop :=
  ∃ r ∈ db.episodes, r.sonarr_id = eid

/-- Presence of a file natural key in a file table. -/
def fileHas (files : List SonarrFileRow) (p : String) : Prop :=
  ∃ r ∈ files, r.file_path = p

/-- Every row with the given path is active. -/
def allNone (files : List SonarrFileRow) (p : String) : Prop :=
  ∀ r ∈ files, r.file_path = p → r.removed_date = none

/-- The `UNIQUE(file_path)` wellformedness of a file table. -/
def sonarrWF (files : List SonarrFileRow) : Prop :=
  (files.map (fun r => r.file_path)).Nodup

/-! ## Frame and per-key lifecycle lemmas (Sonarr) -/
/-- `ys` extends `xs` by appending rows (no deletion, no in-place change). -/
def extOf {α : Type _} (xs ys : List α) : Prop := ∃ t, ys = xs ++ t

/-- The structural columns of a Sonarr file row: everything except
`removed_date`. -/
def sfrCore (r : SonarrFileRow) : Nat × String × Nat × Option Nat × String :=
  (r.id, r.file_path, r.series_id, r.episode_id, r.added_date)

/-- Frame relation on file tables: rows are only appended, and every
pre-existing row keeps all columns except possibly `removed_date`. -/
def sonarrFrame (old new : List SonarrFileRow) : Prop :=
  old.length ≤ new.length ∧
  ∀ i : Nat, ∀ hi : i < old.length, ∀ hi' : i < new.length,
    sfrCore (new.get ⟨i, hi'⟩) = sfrCore (old.get ⟨i, hi⟩)

/-- All rows with the given path carry this `removed_date` value. -/
def removedIs (files : List SonarrFileRow) (p : String) (v : Option String) : Prop :=
  ∀ r ∈ files, r.file_path = p → r.removed_date = v

/-- All rows with the given path carry this `added_date` value. -/
def addedAll (files : List SonarrFileRow) (p : String) (a : String) : Prop :=
  ∀ r ∈ files, r.file_path = p → r.added_date = a

/-! ## Referential-integrity invariant (Sonarr) -/
/-- Every episode references an existing series row; every file references
an existing series row and, when linked, an existing episode row. -/
def sonarrRefInv (db : SonarrDB) : Prop :=
  (∀ e ∈ db.episodes, ∃ s ∈ db.series, s.id = e.series_id) ∧
  (∀ f ∈ db.files, (∃ s ∈ db.series, s.id = f.series_id) ∧
    (∀ eid : Nat, f.episode_id = some eid → ∃ e ∈ db.episodes, e.id = eid))

/-- An observation whose episode link cannot be resolved: missing ids or an
unknown first id. -/
def sonarrUnresolvedObs (eps : List SonarrEpisodeObs) (ef : SonarrFileObs) : Prop :=
  ef.episodeIds = [] ∨
    ∃ eid rest, ef.episodeIds = eid :: rest ∧ lookupEpisodeObs eps eid = none

def sonarrObsFileCount : List SonarrSeriesObs → Nat
  | [] => 0
  | so :: rest => so.episodeFiles.length + sonarrObsFileCount rest

/-! ## Basic lemmas about the Plex operations -/
def plexSeriesHas (db : PlexDB) (k : String) : Prop :=
  ∃ r ∈ db.series, r.plex_key = k

def plexEpisodeHas (db : PlexDB) (k : String) : Prop :=
  ∃ r ∈ db.episodes, r.plex_key = k

def plexFileHas (files : List PlexFileRow) (k : String × String) : Prop :=
  ∃ r ∈ files, plexFileKey r = k

def plexAllNone (files : List PlexFileRow) (k : String × String) : Prop :=
  ∀ r ∈ files, plexFileKey r = k → r.removed_date = none

def plexRemovedIs (files : List PlexFileRow) (k : String × String) (v : Option String) : Prop :=
  ∀ r ∈ files, plexFileKey r = k → r.removed_date = v

def plexAddedAll (files : List PlexFileRow) (k : String × String) (a : String) : Prop :=
  ∀ r ∈ files, plexFileKey r = k → r.added_date = a

/-- The `UNIQUE(filename, filepath)` wellformedness of a Plex file table. -/
def plexWF (files : List PlexFileRow) : Prop := (files.map plexFileKey).Nodup

/-! ## Stability of store predicates through the Plex streaming phase -/
/-- A predicate preserved by every primitive store write of the Plex
streaming phase. -/
def PlexStable (P : PlexDB → Prop) : Prop :=
  (∀ db k t, P db → P (insertPlexSeries db k t)) ∧
  (∀ db k sid sn en, P db → P (insertPlexEpisode db k sid sn en)) ∧
  (∀ db k sid eid now, P db → P (insertPlexFile db k sid eid now)) ∧
  (∀ db k, P db → P (clearPlexRemoved db k))

/-- The entities of one observed episode are stored: the episode row, and
active file rows for each of its parts. -/
def plexEpFacts (db : PlexDB) (ep : PlexEpisodeObs) : Prop :=
  plexEpisodeHas db ep.key ∧
  ∀ part ∈ ep.parts,
    plexFileHas db.files (plexPartKey part) ∧ plexAllNone db.files (plexPartKey part)

/-- The entities of one observed show are stored. -/
def plexShowFacts (db : PlexDB) (sh : PlexShowObs) : Prop :=
  plexSeriesHas db sh.key ∧
  ∀ season ∈ sh.seasons, ∀ ep ∈ season.episodes, plexEpFacts db ep

/-! ## Referential integrity, frame and per-claim lemmas (Plex) -/
/-- Every Plex episode row references an existing series row; every file row
references an existing series row and an existing episode row. -/
def plexRefInv (db : PlexDB) : Prop :=
  (∀ e ∈ db.episodes, ∃ s ∈ db.series, s.id = e.series_id) ∧
  (∀ f ∈ db.files, (∃ s ∈ db.series, s.id = f.series_id) ∧
    (∃ e ∈ db.episodes, e.id = f.episode_id))

/-- The structural columns of a Plex file row. -/
def pfrCore (r : PlexFileRow) : Nat × String × String × Nat × Nat × String :=
  (r.id, r.filename, r.filepath, r.series_id, r.episode_id, r.added_date)

/-- Frame relation on Plex file tables. -/
def plexFrame (old new : List PlexFileRow) : Prop :=
  old.length ≤ new.length ∧
  ∀ i : Nat, ∀ hi : i < old.length, ∀ hi' : i < new.length,
    pfrCore (new.get ⟨i, hi'⟩) = pfrCore (old.get ⟨i, hi⟩)

/-! ## Lemmas about the filesystem variant -/
def fsFileHas (files : List FileRow) (k : String × String) : Prop :=
  ∃ r ∈ files, fileKey r = k

def fsRemovedIs (files : List FileRow) (k : String × String) (v : Option String) : Prop :=
  ∀ r ∈ files, fileKey r = k → r.removed_date = v

def fsAddedAll (files : List FileRow) (k : String × String) (a : String) : Prop :=
  ∀ r ∈ files, fileKey r = k → r.added_date = a

/-- Wellformedness of the files table: distinct primary keys, all below the
allocator. -/
def FsWF (db : FsDB) : Prop :=
  (db.files.map (fun r => r.id)).Nodup ∧ ∀ r ∈ db.files, r.id < db.nextFileId

/-- The structural columns of a filesystem file row. -/
def ffrCore (r : FileRow) : Nat × String × String × Option String × String :=
  (r.id, r.filename, r.filepath, r.creation_date, r.added_date)

/-- Frame relation on filesystem file tables. -/
def fsFrame (old new : List FileRow) : Prop :=
  old.length ≤ new.length ∧
  ∀ i : Nat, ∀ hi : i < old.length, ∀ hi' : i < new.length,
    ffrCore (new.get ⟨i, hi'⟩) = ffrCore (old.get ⟨i, hi⟩)

/-! ## Concrete sample inputs used by witnesses and counterexamples -/
def sampleFsObs : List FsObs := [⟨"a.mkv", "/tv", none⟩]

def sampleFsDB : FsDB := ⟨[], [], [], 1⟩

def sampleSonarrObs : List SonarrSeriesObs :=
  [⟨1, "Show", "/tv", [⟨7, some 1, some 2⟩], [⟨"/tv/a.mkv", [7]⟩]⟩]

def sampleSonarrDB : SonarrDB := ⟨[], [], [], 1, 1, 1⟩

def samplePlexObs : List PlexSectionObs :=
  [⟨[⟨"/k1", "Show", [⟨some "1", [⟨"/ek1", some "2", [⟨"a.mkv", "/tv/Show"⟩]⟩]⟩]⟩]⟩]

def samplePlexDB : PlexDB := ⟨[], [], [], 1, 1, 1⟩

instance (db : FsDB) : Decidable (FsWF db) := by
  unfold FsWF
  infer_instance

instance (files : List SonarrFileRow) : Decidable (sonarrWF files) := by
  unfold sonarrWF
  infer_instance

instance (files : List PlexFileRow) : Decidable (plexWF files) := by
  unfold plexWF
  infer_instance

instance (db : SonarrDB) : Decidable (sonarrRefInv db) := by
  unfold sonarrRefInv
  infer_instance

instance (db : PlexDB) : Decidable (plexRefInv db) := by
  unfold plexRefInv
  infer_instance

instance (files : List SonarrFileRow) (p : String) : Decidable (fileHas files p) := by
  unfold fileHas
  infer_instance

instance (files : List PlexFileRow) (k : String × String) :
    Decidable (plexFileHas files k) := by
  unfold plexFileHas
  infer_instance

instance (files : List FileRow) (k : String × String) : Decidable (fsFileHas files k) := by
  unfold fsFileHas
  infer_instance

def sampleSonarrSt : SonarrPass := ⟨⟨[⟨1, 1, "Show", "/tv"⟩], [], [], 2, 1, 1⟩, [], 0, 0, 0⟩

def samplePlexSt : PlexPass :=
  ⟨⟨[⟨1, "/k1", "Show"⟩], [⟨1, "/ek1", 1, some "1", some "2"⟩], [], 2, 2, 1⟩, [], 0⟩

/-! ## Generic fold helpers -/
theorem foldl_preserve {α β : Type _} (P : α → Prop) (f : α → β → α)
    (hf : ∀ a b, P a → P (f a b)) :
    ∀ (l : List β) (a : α), P a → P (l.foldl f a) := by
  intro l
  induction l with
  | nil => intro a h; exact h
  | cons b l ih => intro a h; exact ih (f a b) (hf a b h)

theorem foldl_preserve_mem {α β : Type _} (P : α → Prop) (f : α → β → α) :
    ∀ (l : List β) (a : α), (∀ a', ∀ b ∈ l, P a' → P (f a' b)) → P a → P (l.foldl f a) := by
  intro l
  induction l with
  | nil => intro a _ h; exact h
  | cons b l ih =>
    intro a hf h
    exact ih (f a b) (fun a' b' hb' => hf a' b' (List.mem_cons_of_mem _ hb'))
      (hf a b (List.mem_cons_self _ _) h)

theorem foldl_establish {α β : Type _} (P : β → α → Prop) (f : α → β → α)
    (hEst : ∀ a b, P b (f a b)) (hPres : ∀ a b c, P c a → P c (f a b)) :
    ∀ (l : List β) (a : α), ∀ b ∈ l, P b (l.foldl f a) := by
  intro l
  induction l with
  | nil => intro a b hb; cases hb
  | cons x l ih =>
    intro a b hb
    rcases List.mem_cons.mp hb with h | h
    · subst h
      exact foldl_preserve (P b) f (fun a' b' => hPres a' b' b) l (f a b) (hEst a b)
    · exact ih (f a x) b h

theorem foldl_id_of_mem {α β : Type _} (f : α → β → α) :
    ∀ (l : List β) (a : α), (∀ b ∈ l, f a b = a) → l.foldl f a = a := by
  intro l
  induction l with
  | nil => intro a _; rfl
  | cons b l ih =>
    intro a h
    rw [List.foldl_cons, h b (List.mem_cons_self _ _)]
    exact ih a (fun b' hb' => h b' (List.mem_cons_of_mem _ hb'))

theorem sonarr_any_path {files : List SonarrFileRow} {p : String} :
    files.any (fun r => r.file_path = p) = true ↔ fileHas files p := by
  simp [List.any_eq_true, fileHas]

theorem sonarr_set_removed_none {r : SonarrFileRow} (h : r.removed_date = none) :
    { r with removed_date := none } = r := by
  cases r
  simp only at h
  simp [h]

theorem insertSeries_of_has {db : SonarrDB} {sid : Nat} (t p : String)
    (h : seriesHas db sid) : insertSeries db sid t p = db := by
  have ha : db.series.any (fun r => r.sonarr_id = sid) = true := by
    simp only [List.any_eq_true, decide_eq_true_eq]
    exact h
  simp [insertSeries, ha]

theorem seriesHas_insertSeries (db : SonarrDB) (sid : Nat) (t p : String) :
    seriesHas (insertSeries db sid t p) sid := by
  by_cases h : db.series.any (fun r => r.sonarr_id = sid) = true
  · simp [insertSeries, h]
    simp only [List.any_eq_true, decide_eq_true_eq] at h
    exact h
  · simp only [insertSeries]
    rw [if_neg h]
    exact ⟨_, List.mem_append_right _ (List.mem_singleton_self _), rfl⟩

theorem insertEpisode_of_has {db : SonarrDB} {eid : Nat} (sid : Nat) (sn en : Option Int)
    (h : episodeHas db eid) : insertEpisode db eid sid sn en = db := by
  have ha : db.episodes.any (fun r => r.sonarr_id = eid) = true := by
    simp only [List.any_eq_true, decide_eq_true_eq]
    exact h
  simp [insertEpisode, ha]

theorem episodeHas_insertEpisode (db : SonarrDB) (eid sid : Nat) (sn en : Option Int) :
    episodeHas (insertEpisode db eid sid sn en) eid := by
  by_cases h : db.episodes.any (fun r => r.sonarr_id = eid) = true
  · simp [insertEpisode, h]
    simp only [List.any_eq_true, decide_eq_true_eq] at h
    exact h
  · simp only [insertEpisode]
    rw [if_neg h]
    exact ⟨_, List.mem_append_right _ (List.mem_singleton_self _), rfl⟩

theorem insertSonarrFile_of_has {db : SonarrDB} {p : String} (sid : Nat) (l : Option Nat)
    (now : String) (h : fileHas db.files p) : insertSonarrFile db p sid l now = db := by
  have ha : db.files.any (fun r => r.file_path = p) = true := sonarr_any_path.mpr h
  simp [insertSonarrFile, ha]

/-- Effect of `insertSonarrFile` on the file table: unchanged, or one row
appended whose path is the inserted one and whose `removed_date` is null. -/
theorem insertSonarrFile_files (db : SonarrDB) (p : String) (sid : Nat) (l : Option Nat)
    (now : String) :
    (insertSonarrFile db p sid l now).files = db.files ∨
      (¬ fileHas db.files p ∧
        (insertSonarrFile db p sid l now).files
          = db.files ++ [⟨db.nextFileId, p, sid, l, now, none⟩]) := by
  by_cases h : db.files.any (fun r => r.file_path = p) = true
  · left; simp [insertSonarrFile, h]
  · right
    refine ⟨fun hf => h (sonarr_any_path.mpr hf), ?_⟩
    simp only [insertSonarrFile]
    rw [if_neg h]

theorem insertSonarrFile_series (db : SonarrDB) (p : String) (sid : Nat) (l : Option Nat)
    (now : String) : (insertSonarrFile db p sid l now).series = db.series := by
  by_cases h : db.files.any (fun r => r.file_path = p) = true <;>
    simp [insertSonarrFile, h]

theorem insertSonarrFile_episodes (db : SonarrDB) (p : String) (sid : Nat) (l : Option Nat)
    (now : String) : (insertSonarrFile db p sid l now).episodes = db.episodes := by
  by_cases h : db.files.any (fun r => r.file_path = p) = true <;>
    simp [insertSonarrFile, h]

theorem clearSonarrRemoved_series (db : SonarrDB) (p : String) :
    (clearSonarrRemoved db p).series = db.series := rfl

theorem clearSonarrRemoved_episodes (db : SonarrDB) (p : String) :
    (clearSonarrRemoved db p).episodes = db.episodes := rfl

theorem insertEpisode_files (db : SonarrDB) (eid sid : Nat) (sn en : Option Int) :
    (insertEpisode db eid sid sn en).files = db.files := by
  by_cases h : db.episodes.any (fun r => r.sonarr_id = eid) = true <;>
    simp [insertEpisode, h]

theorem insertEpisode_series (db : SonarrDB) (eid sid : Nat) (sn en : Option Int) :
    (insertEpisode db eid sid sn en).series = db.series := by
  by_cases h : db.episodes.any (fun r => r.sonarr_id = eid) = true <;>
    simp [insertEpisode, h]

theorem insertEpisode_nextFileId (db : SonarrDB) (eid sid : Nat) (sn en : Option Int) :
    (insertEpisode db eid sid sn en).nextFileId = db.nextFileId := by
  by_cases h : db.episodes.any (fun r => r.sonarr_id = eid) = true <;>
    simp [insertEpisode, h]

/-- Effect of `insertEpisode` on the episode table: unchanged or one row
appended carrying the inserted natural key. -/
theorem insertEpisode_episodes (db : SonarrDB) (eid sid : Nat) (sn en : Option Int) :
    (insertEpisode db eid sid sn en).episodes = db.episodes ∨
      (insertEpisode db eid sid sn en).episodes
        = db.episodes ++ [⟨db.nextEpisodeId, eid, sid, sn, en⟩] := by
  by_cases h : db.episodes.any (fun r => r.sonarr_id = eid) = true
  · left; simp [insertEpisode, h]
  · right
    simp only [insertEpisode]
    rw [if_neg h]

theorem insertSeries_series (db : SonarrDB) (sid : Nat) (t p : String) :
    (insertSeries db sid t p).series = db.series ∨
      (insertSeries db sid t p).series = db.series ++ [⟨db.nextSeriesId, sid, t, p⟩] := by
  by_cases h : db.series.any (fun r => r.sonarr_id = sid) = true
  · left; simp [insertSeries, h]
  · right
    simp only [insertSeries]
    rw [if_neg h]

theorem insertSeries_files (db : SonarrDB) (sid : Nat) (t p : String) :
    (insertSeries db sid t p).files = db.files := by
  by_cases h : db.series.any (fun r => r.sonarr_id = sid) = true <;>
    simp [insertSeries, h]

theorem insertSeries_episodes (db : SonarrDB) (sid : Nat) (t p : String) :
    (insertSeries db sid t p).episodes = db.episodes := by
  by_cases h : db.series.any (fun r => r.sonarr_id = sid) = true <;>
    simp [insertSeries, h]

@[simp] theorem sonarr_upd_path (r : SonarrFileRow) (v : Option String) :
    ({ r with removed_date := v } : SonarrFileRow).file_path = r.file_path := rfl

@[simp] theorem sonarr_upd_removed (r : SonarrFileRow) (v : Option String) :
    ({ r with removed_date := v } : SonarrFileRow).removed_date = v := rfl

@[simp] theorem sonarr_upd_added (r : SonarrFileRow) (v : Option String) :
    ({ r with removed_date := v } : SonarrFileRow).added_date = r.added_date := rfl

@[simp] theorem sonarr_upd_id (r : SonarrFileRow) (v : Option String) :
    ({ r with removed_date := v } : SonarrFileRow).id = r.id := rfl

@[simp] theorem sonarr_upd_series (r : SonarrFileRow) (v : Option String) :
    ({ r with removed_date := v } : SonarrFileRow).series_id = r.series_id := rfl

@[simp] theorem sonarr_upd_episode (r : SonarrFileRow) (v : Option String) :
    ({ r with removed_date := v } : SonarrFileRow).episode_id = r.episode_id := rfl

/-- Unrolling the finalization fold over a duplicate-free snapshot of keys:
each key in the snapshot and not seen marks exactly the rows carrying it. -/
theorem sonarrFinalizeAux (now : String) (seen : List String) :
    ∀ (ps : List String) (files : List SonarrFileRow), ps.Nodup →
      ps.foldl
        (fun fs p => if p ∈ seen then fs
          else fs.map (fun r => if r.file_path = p then { r with removed_date := some now } else r))
        files
      = files.map (fun r => if r.file_path ∈ ps ∧ r.file_path ∉ seen
          then { r with removed_date := some now } else r) := by
  intro ps
  induction ps with
  | nil =>
    intro files _
    simp
  | cons p ps ih =>
    intro files hnd
    rw [List.foldl_cons]
    rcases List.nodup_cons.mp hnd with ⟨hp, hnd'⟩
    by_cases hs : p ∈ seen
    · rw [if_pos hs, ih files hnd']
      apply List.map_congr_left
      intro r _
      by_cases h1 : r.file_path ∈ ps ∧ r.file_path ∉ seen
      · rw [if_pos h1, if_pos ⟨List.mem_cons_of_mem _ h1.1, h1.2⟩]
      · rw [if_neg h1, if_neg ?_]
        rintro ⟨hm, hns⟩
        rcases List.mem_cons.mp hm with he | hm'
        · exact hns (he ▸ hs)
        · exact h1 ⟨hm', hns⟩
    · rw [if_neg hs, ih _ hnd', List.map_map]
      apply List.map_congr_left
      intro r _
      by_cases he : r.file_path = p
      · simp only [Function.comp_apply, if_pos he]
        have h1 : ¬ (({ r with removed_date := some now } : SonarrFileRow).file_path ∈ ps
            ∧ ({ r with removed_date := some now } : SonarrFileRow).file_path ∉ seen) := by
          rintro ⟨hm, _⟩
          rw [sonarr_upd_path, he] at hm
          exact hp hm
        rw [if_neg h1, if_pos ⟨List.mem_cons.mpr (Or.inl he), he ▸ hs⟩]
      · simp only [Function.comp_apply, if_neg he]
        by_cases h1 : r.file_path ∈ ps ∧ r.file_path ∉ seen
        · rw [if_pos h1, if_pos ⟨List.mem_cons_of_mem _ h1.1, h1.2⟩]
        · rw [if_neg h1, if_neg ?_]
          rintro ⟨hm, hns⟩
          rcases List.mem_cons.mp hm with hee | hm'
          · exact he hee
          · exact h1 ⟨hm', hns⟩

/-- Under the `file_path` uniqueness constraint, finalization is exactly the
set-difference map: an active, unseen row is marked with the pass timestamp;
every other row is untouched. -/
theorem sonarrFinalize_eq_map (now : String) (seen : List String) (files : List SonarrFileRow)
    (h : (files.map (fun r => r.file_path)).Nodup) :
    sonarrFinalize now seen files
      = files.map (fun r => if r.removed_date = none ∧ r.file_path ∉ seen
          then { r with removed_date := some now } else r) := by
  have hnd : ((files.filter (fun r => r.removed_date = none)).map (fun r => r.file_path)).Nodup :=
    List.Nodup.sublist (List.Sublist.map _ (List.filter_sublist files)) h
  unfold sonarrFinalize
  rw [sonarrFinalizeAux now seen _ files hnd]
  apply List.map_congr_left
  intro r hr
  have hiff :
      (r.file_path ∈ (files.filter (fun r => r.removed_date = none)).map (fun r => r.file_path)
        ↔ r.removed_date = none) := by
    constructor
    · intro hm
      rcases List.mem_map.mp hm with ⟨q, hq, hpq⟩
      have hq' := List.mem_filter.mp hq
      have hqr : q = r := List.inj_on_of_nodup_map h hq'.1 hr hpq
      have := hq'.2
      rw [hqr] at this
      simpa using this
    · intro hrm
      exact List.mem_map.mpr ⟨r, List.mem_filter.mpr ⟨hr, by simp [hrm]⟩, rfl⟩
  exact if_congr (and_congr_left fun _ => hiff) rfl rfl

/-- Finalization does not change any column other than `removed_date`; in
particular the multiset of paths is untouched. -/
theorem sonarrFinalize_paths (now : String) (seen : List String) (files : List SonarrFileRow) :
    (sonarrFinalize now seen files).map (fun r => r.file_path)
      = files.map (fun r => r.file_path) := by
  unfold sonarrFinalize
  refine foldl_preserve
    (fun fs => fs.map (fun r => r.file_path) = files.map (fun r => r.file_path)) _ ?_ _ files rfl
  intro fs p hfs
  by_cases hp : p ∈ seen
  · rwa [if_pos hp]
  · rw [if_neg hp, List.map_map, ← hfs]
    apply List.map_congr_left
    intro r _
    by_cases he : r.file_path = p <;> simp [he]

theorem clearSonarrRemoved_paths (db : SonarrDB) (p : String) :
    ((clearSonarrRemoved db p).files).map (fun r => r.file_path)
      = db.files.map (fun r => r.file_path) := by
  simp only [clearSonarrRemoved, List.map_map]
  apply List.map_congr_left
  intro r _
  by_cases he : r.file_path = p <;> simp [he]

/-- Every branch of the per-file loop body has the same shape: possibly an
episode upsert (touching only the episode table), then the file upsert with
some episode link, then the unconditional reappearance clear; the seen-set
gains the file's path and `total_files` is incremented. -/
theorem sonarrStepFile_shape (now : String) (sid : Nat) (eps : List SonarrEpisodeObs)
    (st : SonarrPass) (ef : SonarrFileObs) :
    ∃ (link : Option Nat) (db1 : SonarrDB),
      db1.files = st.db.files ∧ db1.nextFileId = st.db.nextFileId ∧
      db1.series = st.db.series ∧
      (db1.episodes = st.db.episodes ∨ ∃ row, db1.episodes = st.db.episodes ++ [row]) ∧
      (sonarrStepFile now sid eps st ef).db
        = clearSonarrRemoved (insertSonarrFile db1 ef.path sid link now) ef.path ∧
      (sonarrStepFile now sid eps st ef).seen = st.seen ++ [ef.path] ∧
      (sonarrStepFile now sid eps st ef).totalFiles = st.totalFiles + 1 := by
  rcases hids : ef.episodeIds with _ | ⟨eid, rest⟩
  · refine ⟨none, st.db, rfl, rfl, rfl, Or.inl rfl, ?_, ?_, ?_⟩ <;>
      simp [sonarrStepFile, hids]
  · rcases hlk : lookupEpisodeObs eps eid with _ | ep
    · refine ⟨none, st.db, rfl, rfl, rfl, Or.inl rfl, ?_, ?_, ?_⟩ <;>
        simp [sonarrStepFile, hids, hlk]
    · refine ⟨some (findEpisodeId
          (insertEpisode st.db ep.id sid ep.seasonNumber ep.episodeNumber) ep.id),
        insertEpisode st.db ep.id sid ep.seasonNumber ep.episodeNumber,
        insertEpisode_files _ _ _ _ _, insertEpisode_nextFileId _ _ _ _ _,
        insertEpisode_series _ _ _ _ _, ?_, ?_, ?_, ?_⟩
      · rcases insertEpisode_episodes st.db ep.id sid ep.seasonNumber ep.episodeNumber with
          h | h
        · exact Or.inl h
        · exact Or.inr ⟨_, h⟩
      all_goals simp [sonarrStepFile, hids, hlk]

/-- A path-preserving row map keeps `fileHas`. -/
theorem fileHas_map {files : List SonarrFileRow} {f : SonarrFileRow → SonarrFileRow}
    (hf : ∀ r, (f r).file_path = r.file_path) {p : String} (h : fileHas files p) :
    fileHas (files.map f) p := by
  rcases h with ⟨r, hr, hp⟩
  exact ⟨f r, List.mem_map_of_mem f hr, by rw [hf r, hp]⟩

theorem clear_path_preserving (p : String) :
    ∀ r : SonarrFileRow,
      ((fun r => if r.file_path = p then { r with removed_date := none } else r) r).file_path
        = r.file_path := by
  intro r
  by_cases he : r.file_path = p <;> simp [he]

theorem fileHas_clear {db : SonarrDB} {p q : String} (h : fileHas db.files q) :
    fileHas (clearSonarrRemoved db p).files q :=
  fileHas_map (clear_path_preserving p) h

theorem fileHas_insert {db : SonarrDB} {p q : String} (sid : Nat) (l : Option Nat)
    (now : String) (h : fileHas db.files q) :
    fileHas (insertSonarrFile db p sid l now).files q := by
  rcases insertSonarrFile_files db p sid l now with hf | ⟨_, hf⟩
  · rwa [hf]
  · rw [hf]
    rcases h with ⟨r, hr, hp⟩
    exact ⟨r, List.mem_append_left _ hr, hp⟩

theorem fileHas_insert_self (db : SonarrDB) (p : String) (sid : Nat) (l : Option Nat)
    (now : String) : fileHas (insertSonarrFile db p sid l now).files p := by
  by_cases h : db.files.any (fun r => r.file_path = p) = true
  · simp only [insertSonarrFile, if_pos h]
    exact sonarr_any_path.mp h
  · simp only [insertSonarrFile, if_neg h]
    exact ⟨_, List.mem_append_right _ (List.mem_singleton_self _), rfl⟩

theorem allNone_clear {db : SonarrDB} {p q : String} (h : allNone db.files q) :
    allNone (clearSonarrRemoved db p).files q := by
  intro r' hr' hp'
  rcases List.mem_map.mp hr' with ⟨r, hr, hfr⟩
  subst hfr
  rw [clear_path_preserving p r] at hp'
  by_cases he : r.file_path = p
  · simp [he]
  · simp only [if_neg he]
    exact h r hr hp'

theorem allNone_clear_self (db : SonarrDB) (p : String) :
    allNone (clearSonarrRemoved db p).files p := by
  intro r' hr' hp'
  rcases List.mem_map.mp hr' with ⟨r, hr, hfr⟩
  subst hfr
  rw [clear_path_preserving p r] at hp'
  simp [hp']

theorem allNone_insert {db : SonarrDB} {p q : String} (sid : Nat) (l : Option Nat)
    (now : String) (h : allNone db.files q) :
    allNone (insertSonarrFile db p sid l now).files q := by
  rcases insertSonarrFile_files db p sid l now with hf | ⟨_, hf⟩
  · rwa [hf]
  · rw [hf]
    intro r hr hp
    rcases List.mem_append.mp hr with hr | hr
    · exact h r hr hp
    · rw [List.mem_singleton.mp hr]

theorem fileHas_iff {files : List SonarrFileRow} {p : String} :
    fileHas files p ↔ p ∈ files.map (fun r => r.file_path) := by
  simp [fileHas, List.mem_map]

theorem sonarrWF_insert {db : SonarrDB} {p : String} (sid : Nat) (l : Option Nat)
    (now : String) (h : sonarrWF db.files) :
    sonarrWF (insertSonarrFile db p sid l now).files := by
  rcases insertSonarrFile_files db p sid l now with hf | ⟨hno, hf⟩
  · rwa [sonarrWF, hf]
  · rw [sonarrWF, hf, List.map_append]
    have hp : p ∉ db.files.map (fun r => r.file_path) := fun hm =>
      hno (fileHas_iff.mpr hm)
    have h' : (db.files.map (fun r => r.file_path)).Nodup := h
    simp [List.nodup_append, hp, h']

theorem sonarrWF_clear {db : SonarrDB} (p : String) (h : sonarrWF db.files) :
    sonarrWF (clearSonarrRemoved db p).files := by
  rw [sonarrWF, clearSonarrRemoved_paths]
  exact h

theorem sonarrWF_finalize {files : List SonarrFileRow} (now : String) (seen : List String)
    (h : sonarrWF files) : sonarrWF (sonarrFinalize now seen files) := by
  rw [sonarrWF, sonarrFinalize_paths]
  exact h

theorem sonarrStepFile_preserves_fileHas {now : String} {sid : Nat}
    {eps : List SonarrEpisodeObs} {st : SonarrPass} {ef : SonarrFileObs} {q : String}
    (h : fileHas st.db.files q) : fileHas (sonarrStepFile now sid eps st ef).db.files q := by
  obtain ⟨link, db1, hfi, _, _, _, hdb, _, _⟩ := sonarrStepFile_shape now sid eps st ef
  rw [hdb]
  exact fileHas_clear (fileHas_insert sid link now (by rwa [hfi]))

theorem sonarrStepFile_preserves_allNone {now : String} {sid : Nat}
    {eps : List SonarrEpisodeObs} {st : SonarrPass} {ef : SonarrFileObs} {q : String}
    (h : allNone st.db.files q) : allNone (sonarrStepFile now sid eps st ef).db.files q := by
  obtain ⟨link, db1, hfi, _, _, _, hdb, _, _⟩ := sonarrStepFile_shape now sid eps st ef
  rw [hdb]
  exact allNone_clear (allNone_insert sid link now (by rwa [hfi]))

theorem sonarrStepFile_preserves_seriesHas {now : String} {sid : Nat}
    {eps : List SonarrEpisodeObs} {st : SonarrPass} {ef : SonarrFileObs} {s : Nat}
    (h : seriesHas st.db s) : seriesHas (sonarrStepFile now sid eps st ef).db s := by
  obtain ⟨link, db1, _, _, hse, _, hdb, _, _⟩ := sonarrStepFile_shape now sid eps st ef
  rw [seriesHas, hdb, clearSonarrRemoved_series, insertSonarrFile_series, hse]
  exact h

theorem sonarrStepFile_preserves_episodeHas {now : String} {sid : Nat}
    {eps : List SonarrEpisodeObs} {st : SonarrPass} {ef : SonarrFileObs} {e : Nat}
    (h : episodeHas st.db e) : episodeHas (sonarrStepFile now sid eps st ef).db e := by
  obtain ⟨link, db1, _, _, _, hep, hdb, _, _⟩ := sonarrStepFile_shape now sid eps st ef
  rw [episodeHas, hdb, clearSonarrRemoved_episodes, insertSonarrFile_episodes]
  rcases hep with hep | ⟨row, hep⟩
  · rw [hep]; exact h
  · rw [hep]
    rcases h with ⟨r, hr, hid⟩
    exact ⟨r, List.mem_append_left _ hr, hid⟩

theorem sonarrStepFile_preserves_WF {now : String} {sid : Nat}
    {eps : List SonarrEpisodeObs} {st : SonarrPass} {ef : SonarrFileObs}
    (h : sonarrWF st.db.files) : sonarrWF (sonarrStepFile now sid eps st ef).db.files := by
  obtain ⟨link, db1, hfi, _, _, _, hdb, _, _⟩ := sonarrStepFile_shape now sid eps st ef
  rw [hdb]
  exact sonarrWF_clear _ (sonarrWF_insert sid link now (by rwa [sonarrWF, hfi]))

/-- Processing a file observation makes its path present with every matching
row active. -/
theorem sonarrStepFile_establishes (now : String) (sid : Nat)
    (eps : List SonarrEpisodeObs) (st : SonarrPass) (ef : SonarrFileObs) :
    fileHas (sonarrStepFile now sid eps st ef).db.files ef.path ∧
      allNone (sonarrStepFile now sid eps st ef).db.files ef.path := by
  obtain ⟨link, db1, hfi, _, _, _, hdb, _, _⟩ := sonarrStepFile_shape now sid eps st ef
  rw [hdb]
  exact ⟨fileHas_clear (fileHas_insert_self _ _ _ _ _), allNone_clear_self _ _⟩

theorem sonarrStepFile_seen (now : String) (sid : Nat) (eps : List SonarrEpisodeObs)
    (st : SonarrPass) (ef : SonarrFileObs) :
    (sonarrStepFile now sid eps st ef).seen = st.seen ++ [ef.path] :=
  (sonarrStepFile_shape now sid eps st ef).choose_spec.choose_spec.2.2.2.2.2.1

theorem sonarrFileFold_seen (now : String) (sid : Nat) (eps : List SonarrEpisodeObs) :
    ∀ (efs : List SonarrFileObs) (st : SonarrPass),
      (efs.foldl (sonarrStepFile now sid eps) st).seen
        = st.seen ++ efs.map (fun ef => ef.path) := by
  intro efs
  induction efs with
  | nil => intro st; simp
  | cons ef efs ih =>
    intro st
    rw [List.foldl_cons, ih, sonarrStepFile_seen, List.map_cons, List.append_assoc]
    rfl

theorem sonarrStepSeries_seen (now : String) (st : SonarrPass) (so : SonarrSeriesObs) :
    (sonarrStepSeries now st so).seen = st.seen ++ so.episodeFiles.map (fun ef => ef.path) := by
  unfold sonarrStepSeries
  rw [sonarrFileFold_seen]

theorem sonarrStream_seen (now : String) :
    ∀ (obs : List SonarrSeriesObs) (st : SonarrPass),
      (obs.foldl (sonarrStepSeries now) st).seen = st.seen ++ sonarrObsPaths obs := by
  intro obs
  induction obs with
  | nil => intro st; simp [sonarrObsPaths]
  | cons so obs ih =>
    intro st
    rw [List.foldl_cons, ih, sonarrStepSeries_seen, sonarrObsPaths, List.append_assoc]

theorem seriesHas_insertSeries_mono {db : SonarrDB} {s : Nat} (sid : Nat) (t p : String)
    (h : seriesHas db s) : seriesHas (insertSeries db sid t p) s := by
  rcases insertSeries_series db sid t p with hs | hs
  · rw [seriesHas, hs]; exact h
  · rw [seriesHas, hs]
    rcases h with ⟨r, hr, hid⟩
    exact ⟨r, List.mem_append_left _ hr, hid⟩

theorem sonarrStepSeries_preserves_fileHas {now : String} {st : SonarrPass}
    {so : SonarrSeriesObs} {q : String} (h : fileHas st.db.files q) :
    fileHas (sonarrStepSeries now st so).db.files q := by
  simp only [sonarrStepSeries]
  refine foldl_preserve (fun s : SonarrPass => fileHas s.db.files q) _
    (fun s ef hs => sonarrStepFile_preserves_fileHas hs) _ _ ?_
  show fileHas (insertSeries st.db so.id so.title so.path).files q
  rw [insertSeries_files]
  exact h

theorem sonarrStepSeries_preserves_allNone {now : String} {st : SonarrPass}
    {so : SonarrSeriesObs} {q : String} (h : allNone st.db.files q) :
    allNone (sonarrStepSeries now st so).db.files q := by
  simp only [sonarrStepSeries]
  refine foldl_preserve (fun s : SonarrPass => allNone s.db.files q) _
    (fun s ef hs => sonarrStepFile_preserves_allNone hs) _ _ ?_
  show allNone (insertSeries st.db so.id so.title so.path).files q
  rw [insertSeries_files]
  exact h

theorem sonarrStepSeries_preserves_seriesHas {now : String} {st : SonarrPass}
    {so : SonarrSeriesObs} {s : Nat} (h : seriesHas st.db s) :
    seriesHas (sonarrStepSeries now st so).db s := by
  simp only [sonarrStepSeries]
  refine foldl_preserve (fun st' : SonarrPass => seriesHas st'.db s) _
    (fun st' ef hs => sonarrStepFile_preserves_seriesHas hs) _ _ ?_
  show seriesHas (insertSeries st.db so.id so.title so.path) s
  exact seriesHas_insertSeries_mono _ _ _ h

theorem sonarrStepSeries_preserves_episodeHas {now : String} {st : SonarrPass}
    {so : SonarrSeriesObs} {e : Nat} (h : episodeHas st.db e) :
    episodeHas (sonarrStepSeries now st so).db e := by
  simp only [sonarrStepSeries]
  refine foldl_preserve (fun st' : SonarrPass => episodeHas st'.db e) _
    (fun st' ef hs => sonarrStepFile_preserves_episodeHas hs) _ _ ?_
  show episodeHas (insertSeries st.db so.id so.title so.path) e
  rw [episodeHas, insertSeries_episodes]
  exact h

theorem sonarrStepSeries_preserves_WF {now : String} {st : SonarrPass}
    {so : SonarrSeriesObs} (h : sonarrWF st.db.files) :
    sonarrWF (sonarrStepSeries now st so).db.files := by
  simp only [sonarrStepSeries]
  refine foldl_preserve (fun s : SonarrPass => sonarrWF s.db.files) _
    (fun s ef hs => sonarrStepFile_preserves_WF hs) _ _ ?_
  show sonarrWF (insertSeries st.db so.id so.title so.path).files
  rw [insertSeries_files]
  exact h

/-- Processing a series observation establishes its series natural key. -/
theorem sonarrStepSeries_establishes_series (now : String) (st : SonarrPass)
    (so : SonarrSeriesObs) : seriesHas (sonarrStepSeries now st so).db so.id := by
  simp only [sonarrStepSeries]
  refine foldl_preserve (fun st' : SonarrPass => seriesHas st'.db so.id) _
    (fun st' ef hs => sonarrStepFile_preserves_seriesHas hs) _ _ ?_
  show seriesHas (insertSeries st.db so.id so.title so.path) so.id
  exact seriesHas_insertSeries (st.db) so.id so.title so.path

/-- Processing a file observation establishes its resolved episode key (if
any): the head of `episodeIds`, when it resolves through `episode_by_id`,
has an episode row afterwards. -/
theorem sonarrStepFile_establishes_episode (now : String) (sid : Nat)
    (eps : List SonarrEpisodeObs) (st : SonarrPass) (ef : SonarrFileObs) :
    ∀ eid ∈ ef.episodeIds.head?, ∀ ep, lookupEpisodeObs eps eid = some ep →
      episodeHas (sonarrStepFile now sid eps st ef).db ep.id := by
  intro eid hmem ep hlk
  rcases hids : ef.episodeIds with _ | ⟨eid', rest⟩
  · rw [hids] at hmem; simp at hmem
  · rw [hids] at hmem
    simp only [List.head?_cons, Option.mem_def, Option.some.injEq] at hmem
    subst hmem
    simp only [sonarrStepFile, hids, hlk]
    rw [episodeHas, clearSonarrRemoved_episodes, insertSonarrFile_episodes]
    exact episodeHas_insertEpisode st.db ep.id sid ep.seasonNumber ep.episodeNumber

/-- Processing a series observation establishes presence and activeness of
all its file paths, and the episode rows of all its resolved links. -/
theorem sonarrStepSeries_establishes_files (now : String) (st : SonarrPass)
    (so : SonarrSeriesObs) :
    ∀ ef ∈ so.episodeFiles,
      fileHas (sonarrStepSeries now st so).db.files ef.path ∧
      allNone (sonarrStepSeries now st so).db.files ef.path ∧
      (∀ eid ∈ ef.episodeIds.head?, ∀ ep, lookupEpisodeObs so.episodes eid = some ep →
        episodeHas (sonarrStepSeries now st so).db ep.id) := by
  simp only [sonarrStepSeries]
  intro ef hef
  refine foldl_establish
    (fun (ef' : SonarrFileObs) (st' : SonarrPass) => fileHas st'.db.files ef'.path ∧ allNone st'.db.files ef'.path ∧
      (∀ eid ∈ ef'.episodeIds.head?, ∀ ep, lookupEpisodeObs so.episodes eid = some ep →
        episodeHas st'.db ep.id))
    _ ?_ ?_ _ _ ef hef
  · intro st' ef'
    refine ⟨(sonarrStepFile_establishes now _ so.episodes st' ef').1,
      (sonarrStepFile_establishes now _ so.episodes st' ef').2, ?_⟩
    exact sonarrStepFile_establishes_episode now _ so.episodes st' ef'
  · intro st' ef' ef'' ⟨h1, h2, h3⟩
    exact ⟨sonarrStepFile_preserves_fileHas h1, sonarrStepFile_preserves_allNone h2,
      fun eid hm ep hlk => sonarrStepFile_preserves_episodeHas (h3 eid hm ep hlk)⟩

theorem mem_sonarrObsPaths :
    ∀ (obs : List SonarrSeriesObs), ∀ so ∈ obs, ∀ ef ∈ so.episodeFiles,
      ef.path ∈ sonarrObsPaths obs := by
  intro obs
  induction obs with
  | nil => intro so hso; cases hso
  | cons so' obs ih =>
    intro so hso ef hef
    rcases List.mem_cons.mp hso with h | h
    · subst h
      exact List.mem_append_left _ (List.mem_map_of_mem _ hef)
    · exact List.mem_append_right _ (ih so h ef hef)

/-- Re-clearing rows that are already active is a no-op. -/
theorem clearSonarrRemoved_of_allNone {db : SonarrDB} {p : String}
    (h : allNone db.files p) : clearSonarrRemoved db p = db := by
  have hm : db.files.map
      (fun r => if r.file_path = p then { r with removed_date := none } else r) = db.files := by
    have : db.files.map
        (fun r => if r.file_path = p then { r with removed_date := none } else r)
          = db.files.map (fun r => r) := by
      apply List.map_congr_left
      intro r hr
      by_cases he : r.file_path = p
      · rw [if_pos he]
        exact sonarr_set_removed_none (h r hr he)
      · rw [if_neg he]
    rw [this, List.map_id']
  simp only [clearSonarrRemoved, hm]

/-- The streaming phase establishes, for every observed series: its series
row, and for each of its episode files the file row (active) and the episode
row of its resolved link. -/
theorem sonarrStream_establishes (now : String) (obs : List SonarrSeriesObs)
    (db0 : SonarrDB) :
    ∀ so ∈ obs,
      seriesHas (obs.foldl (sonarrStepSeries now) ⟨db0, [], 0, 0, 0⟩).db so.id ∧
      (∀ ef ∈ so.episodeFiles,
        fileHas (obs.foldl (sonarrStepSeries now) ⟨db0, [], 0, 0, 0⟩).db.files ef.path ∧
        allNone (obs.foldl (sonarrStepSeries now) ⟨db0, [], 0, 0, 0⟩).db.files ef.path ∧
        (∀ eid ∈ ef.episodeIds.head?, ∀ ep, lookupEpisodeObs so.episodes eid = some ep →
          episodeHas (obs.foldl (sonarrStepSeries now) ⟨db0, [], 0, 0, 0⟩).db ep.id)) := by
  refine foldl_establish
    (fun (so : SonarrSeriesObs) (st : SonarrPass) =>
      seriesHas st.db so.id ∧
      (∀ ef ∈ so.episodeFiles,
        fileHas st.db.files ef.path ∧ allNone st.db.files ef.path ∧
        (∀ eid ∈ ef.episodeIds.head?, ∀ ep, lookupEpisodeObs so.episodes eid = some ep →
          episodeHas st.db ep.id)))
    _ ?_ ?_ _ _
  · intro st so
    refine ⟨sonarrStepSeries_establishes_series now st so, ?_⟩
    intro ef hef
    exact sonarrStepSeries_establishes_files now st so ef hef
  · intro st so c ⟨h1, h2⟩
    refine ⟨sonarrStepSeries_preserves_seriesHas h1, ?_⟩
    intro ef hef
    obtain ⟨ha, hb, hc⟩ := h2 ef hef
    exact ⟨sonarrStepSeries_preserves_fileHas ha, sonarrStepSeries_preserves_allNone hb,
      fun eid hm ep hlk => sonarrStepSeries_preserves_episodeHas (hc eid hm ep hlk)⟩

theorem sonarrStream_WF (now : String) (obs : List SonarrSeriesObs) (db0 : SonarrDB)
    (h : sonarrWF db0.files) :
    sonarrWF (obs.foldl (sonarrStepSeries now) ⟨db0, [], 0, 0, 0⟩).db.files :=
  foldl_preserve (fun s : SonarrPass => sonarrWF s.db.files) _
    (fun s so hs => sonarrStepSeries_preserves_WF hs) _ _ h

theorem fileHas_finalize {files : List SonarrFileRow} {p : String} (now : String)
    (seen : List String) (h : fileHas files p) :
    fileHas (sonarrFinalize now seen files) p := by
  rw [fileHas_iff, sonarrFinalize_paths]
  exact fileHas_iff.mp h

/-- Finalization never touches a row whose path is in the seen-set. -/
theorem allNone_finalize_of_seen {files : List SonarrFileRow} {p : String} {now : String}
    {seen : List String} (hp : p ∈ seen) (h : allNone files p) :
    allNone (sonarrFinalize now seen files) p := by
  unfold sonarrFinalize
  refine foldl_preserve (fun fs => allNone fs p) _ ?_ _ files h
  intro fs p' hQ
  by_cases hs : p' ∈ seen
  · rwa [if_pos hs]
  · rw [if_neg hs]
    intro r' hr' hpr'
    rcases List.mem_map.mp hr' with ⟨r, hr, hfr⟩
    subst hfr
    have hpath :
        ((if r.file_path = p' then { r with removed_date := some now } else r) :
          SonarrFileRow).file_path = r.file_path := by
      by_cases he : r.file_path = p' <;> simp [he]
    rw [hpath] at hpr'
    have hne : r.file_path ≠ p' := by
      rw [hpr']
      intro hc
      exact hs (hc ▸ hp)
    rw [if_neg hne]
    exact hQ r hr hpr'

/-- After finalization every active row's path was seen this pass. -/
theorem sonarrFinalize_active_seen {files : List SonarrFileRow} {now : String}
    {seen : List String} (h : sonarrWF files) :
    ∀ r ∈ sonarrFinalize now seen files, r.removed_date = none → r.file_path ∈ seen := by
  rw [sonarrFinalize_eq_map now seen files h]
  intro r' hr' hact
  rcases List.mem_map.mp hr' with ⟨r, hr, hfr⟩
  subst hfr
  by_cases hc : r.removed_date = none ∧ r.file_path ∉ seen
  · rw [if_pos hc] at hact
    simp at hact
  · rw [if_neg hc] at hact ⊢
    push_neg at hc
    exact hc hact

/-- The facts a completed pass guarantees about the resulting store. -/
theorem sync_sonarr_facts (now : String) (obs : List SonarrSeriesObs) (db0 : SonarrDB)
    (hWF : sonarrWF db0.files) :
    (∀ so ∈ obs, seriesHas (sync_sonarr now obs db0).db so.id) ∧
    (∀ so ∈ obs, ∀ ef ∈ so.episodeFiles,
      fileHas (sync_sonarr now obs db0).db.files ef.path ∧
      allNone (sync_sonarr now obs db0).db.files ef.path ∧
      (∀ eid ∈ ef.episodeIds.head?, ∀ ep, lookupEpisodeObs so.episodes eid = some ep →
        episodeHas (sync_sonarr now obs db0).db ep.id)) ∧
    sonarrWF (sync_sonarr now obs db0).db.files ∧
    (∀ r ∈ (sync_sonarr now obs db0).db.files, r.removed_date = none →
      r.file_path ∈ sonarrObsPaths obs) := by
  have hseen : (obs.foldl (sonarrStepSeries now) ⟨db0, [], 0, 0, 0⟩).seen
      = sonarrObsPaths obs := by
    rw [sonarrStream_seen]
    exact List.nil_append _
  have hstWF := sonarrStream_WF now obs db0 hWF
  refine ⟨?_, ?_, ?_, ?_⟩
  · intro so hso
    have := (sonarrStream_establishes now obs db0 so hso).1
    simpa [sync_sonarr, seriesHas, clearSonarrRemoved_series] using this
  · intro so hso ef hef
    obtain ⟨ha, hb, hc⟩ := (sonarrStream_establishes now obs db0 so hso).2 ef hef
    refine ⟨?_, ?_, ?_⟩
    · show fileHas (sonarrFinalize now
        (obs.foldl (sonarrStepSeries now) ⟨db0, [], 0, 0, 0⟩).seen
        (obs.foldl (sonarrStepSeries now) ⟨db0, [], 0, 0, 0⟩).db.files) ef.path
      exact fileHas_finalize now _ ha
    · show allNone (sonarrFinalize now
        (obs.foldl (sonarrStepSeries now) ⟨db0, [], 0, 0, 0⟩).seen
        (obs.foldl (sonarrStepSeries now) ⟨db0, [], 0, 0, 0⟩).db.files) ef.path
      refine allNone_finalize_of_seen ?_ hb
      rw [hseen]
      exact mem_sonarrObsPaths obs so hso ef hef
    · intro eid hm ep hlk
      exact hc eid hm ep hlk
  · show sonarrWF (sonarrFinalize now
      (obs.foldl (sonarrStepSeries now) ⟨db0, [], 0, 0, 0⟩).seen
      (obs.foldl (sonarrStepSeries now) ⟨db0, [], 0, 0, 0⟩).db.files)
    exact sonarrWF_finalize now _ hstWF
  · show ∀ r ∈ sonarrFinalize now
      (obs.foldl (sonarrStepSeries now) ⟨db0, [], 0, 0, 0⟩).seen
      (obs.foldl (sonarrStepSeries now) ⟨db0, [], 0, 0, 0⟩).db.files,
      r.removed_date = none → r.file_path ∈ sonarrObsPaths obs
    rw [← hseen]
    exact sonarrFinalize_active_seen hstWF

/-- A file observation whose path is present and active, and whose resolved
episode link is already stored, leaves the database unchanged. -/
theorem sonarrStepFile_db_id (now : String) (sid : Nat) (eps : List SonarrEpisodeObs)
    (st : SonarrPass) (ef : SonarrFileObs)
    (hhas : fileHas st.db.files ef.path) (hnone : allNone st.db.files ef.path)
    (hep : ∀ eid ∈ ef.episodeIds.head?, ∀ ep, lookupEpisodeObs eps eid = some ep →
      episodeHas st.db ep.id) :
    (sonarrStepFile now sid eps st ef).db = st.db := by
  rcases hids : ef.episodeIds with _ | ⟨eid, rest⟩
  · simp only [sonarrStepFile, hids]
    rw [insertSonarrFile_of_has _ _ _ hhas, clearSonarrRemoved_of_allNone hnone]
  · rcases hlk : lookupEpisodeObs eps eid with _ | ep
    · simp only [sonarrStepFile, hids, hlk]
      rw [insertSonarrFile_of_has _ _ _ hhas, clearSonarrRemoved_of_allNone hnone]
    · simp only [sonarrStepFile, hids, hlk]
      have hepi : insertEpisode st.db ep.id sid ep.seasonNumber ep.episodeNumber = st.db :=
        insertEpisode_of_has _ _ _ (hep eid (by rw [hids]; rfl) ep hlk)
      rw [hepi, insertSonarrFile_of_has _ _ _ hhas, clearSonarrRemoved_of_allNone hnone]

/-- A series observation all of whose entities are already stored (series
row, active file rows, resolved episode rows) leaves the database
unchanged. -/
theorem sonarrStepSeries_db_id (now : String) (st : SonarrPass) (so : SonarrSeriesObs)
    (hser : seriesHas st.db so.id)
    (hf : ∀ ef ∈ so.episodeFiles,
      fileHas st.db.files ef.path ∧ allNone st.db.files ef.path ∧
      (∀ eid ∈ ef.episodeIds.head?, ∀ ep, lookupEpisodeObs so.episodes eid = some ep →
        episodeHas st.db ep.id)) :
    (sonarrStepSeries now st so).db = st.db := by
  simp only [sonarrStepSeries]
  rw [insertSeries_of_has _ _ hser]
  refine foldl_preserve_mem (fun s : SonarrPass => s.db = st.db) _ _ _ ?_ rfl
  intro s ef hef hs
  have ha' : fileHas s.db.files ef.path := by rw [hs]; exact (hf ef hef).1
  have hb' : allNone s.db.files ef.path := by rw [hs]; exact (hf ef hef).2.1
  have hc' : ∀ eid ∈ ef.episodeIds.head?, ∀ ep,
      lookupEpisodeObs so.episodes eid = some ep → episodeHas s.db ep.id := by
    rw [hs]; exact (hf ef hef).2.2
  rw [sonarrStepFile_db_id now _ so.episodes s ef ha' hb' hc', hs]

/-- Idempotency of the Sonarr pass: re-running the same observation set on
the store a pass produced changes nothing. -/
theorem sync_sonarr_idem (now1 now2 : String) (obs : List SonarrSeriesObs) (db0 : SonarrDB)
    (hWF : sonarrWF db0.files) :
    (sync_sonarr now2 obs (sync_sonarr now1 obs db0).db).db
      = (sync_sonarr now1 obs db0).db := by
  obtain ⟨F1, F2, F3, F4⟩ := sync_sonarr_facts now1 obs db0 hWF
  set D := (sync_sonarr now1 obs db0).db with hD
  have hstream : (obs.foldl (sonarrStepSeries now2) (⟨D, [], 0, 0, 0⟩ : SonarrPass)).db
      = D := by
    refine foldl_preserve_mem (fun s : SonarrPass => s.db = D) _ _ _ ?_ rfl
    intro s so hso hs
    have hser : seriesHas s.db so.id := by rw [hs]; exact F1 so hso
    have hfe : ∀ ef ∈ so.episodeFiles,
        fileHas s.db.files ef.path ∧ allNone s.db.files ef.path ∧
        (∀ eid ∈ ef.episodeIds.head?, ∀ ep, lookupEpisodeObs so.episodes eid = some ep →
          episodeHas s.db ep.id) := by
      rw [hs]; exact F2 so hso
    rw [sonarrStepSeries_db_id now2 s so hser hfe, hs]
  have hseen2 : (obs.foldl (sonarrStepSeries now2) (⟨D, [], 0, 0, 0⟩ : SonarrPass)).seen
      = sonarrObsPaths obs := by
    rw [sonarrStream_seen]
    exact List.nil_append _
  have hfin : sonarrFinalize now2 (sonarrObsPaths obs) D.files = D.files := by
    rw [sonarrFinalize_eq_map _ _ _ F3]
    have hcongr : D.files.map (fun r =>
        if r.removed_date = none ∧ r.file_path ∉ sonarrObsPaths obs
        then { r with removed_date := some now2 } else r)
        = D.files.map (fun r => r) := by
      apply List.map_congr_left
      intro r hr
      rw [if_neg ?_]
      rintro ⟨hact, hns⟩
      exact hns (F4 r hr hact)
    rw [hcongr, List.map_id']
  show (sync_sonarr now2 obs D).db = D
  simp only [sync_sonarr]
  rw [hstream, hseen2, hfin]

theorem extOf_refl {α : Type _} (xs : List α) : extOf xs xs := ⟨[], by simp⟩

theorem extOf_trans {α : Type _} {xs ys zs : List α} (h1 : extOf xs ys) (h2 : extOf ys zs) :
    extOf xs zs := by
  rcases h1 with ⟨t1, rfl⟩
  rcases h2 with ⟨t2, rfl⟩
  exact ⟨t1 ++ t2, by simp⟩

theorem sonarrFrame_refl (xs : List SonarrFileRow) : sonarrFrame xs xs :=
  ⟨le_refl _, fun i hi hi' => rfl⟩

theorem sonarrFrame_trans {xs ys zs : List SonarrFileRow} (h1 : sonarrFrame xs ys)
    (h2 : sonarrFrame ys zs) : sonarrFrame xs zs := by
  refine ⟨le_trans h1.1 h2.1, fun i hi hi' => ?_⟩
  have hiy : i < ys.length := lt_of_lt_of_le hi h1.1
  rw [h2.2 i hiy hi', h1.2 i hi hiy]

theorem sonarrFrame_append (xs t : List SonarrFileRow) : sonarrFrame xs (xs ++ t) := by
  refine ⟨by simp, fun i hi hi' => ?_⟩
  congr 1
  exact List.getElem_append_left hi

theorem sonarrFrame_map {xs : List SonarrFileRow} {f : SonarrFileRow → SonarrFileRow}
    (hf : ∀ r, sfrCore (f r) = sfrCore r) : sonarrFrame xs (xs.map f) := by
  refine ⟨by simp, fun i hi hi' => ?_⟩
  have : (xs.map f).get ⟨i, hi'⟩ = f (xs.get ⟨i, hi⟩) := by simp
  rw [this, hf]

theorem sfrCore_clear_fun (p : String) (r : SonarrFileRow) :
    sfrCore (if r.file_path = p then { r with removed_date := none } else r) = sfrCore r := by
  by_cases he : r.file_path = p <;> simp [he, sfrCore]

theorem sonarrFrame_insert (db : SonarrDB) (p : String) (sid : Nat) (l : Option Nat)
    (now : String) : sonarrFrame db.files (insertSonarrFile db p sid l now).files := by
  rcases insertSonarrFile_files db p sid l now with hf | ⟨_, hf⟩
  · rw [hf]; exact sonarrFrame_refl _
  · rw [hf]; exact sonarrFrame_append _ _

theorem sonarrFrame_clear (db : SonarrDB) (p : String) :
    sonarrFrame db.files (clearSonarrRemoved db p).files :=
  sonarrFrame_map (sfrCore_clear_fun p)

theorem sonarrFrame_finalize (now : String) (seen : List String)
    (files : List SonarrFileRow) : sonarrFrame files (sonarrFinalize now seen files) := by
  unfold sonarrFinalize
  refine foldl_preserve (fun fs => sonarrFrame files fs) _ ?_ _ files (sonarrFrame_refl _)
  intro fs p hfr
  by_cases hs : p ∈ seen
  · rwa [if_pos hs]
  · rw [if_neg hs]
    refine sonarrFrame_trans hfr (sonarrFrame_map ?_)
    intro r
    by_cases he : r.file_path = p <;> simp [he, sfrCore]

theorem sonarrFrame_stepFile (now : String) (sid : Nat) (eps : List SonarrEpisodeObs)
    (st : SonarrPass) (ef : SonarrFileObs) :
    sonarrFrame st.db.files (sonarrStepFile now sid eps st ef).db.files := by
  obtain ⟨link, db1, hfi, _, _, _, hdb, _, _⟩ := sonarrStepFile_shape now sid eps st ef
  rw [hdb]
  have h1 : sonarrFrame st.db.files (insertSonarrFile db1 ef.path sid link now).files := by
    rw [← hfi]
    exact sonarrFrame_insert db1 ef.path sid link now
  exact sonarrFrame_trans h1 (sonarrFrame_clear _ _)

theorem sonarrStepFile_seriesExt (now : String) (sid : Nat) (eps : List SonarrEpisodeObs)
    (st : SonarrPass) (ef : SonarrFileObs) :
    (sonarrStepFile now sid eps st ef).db.series = st.db.series := by
  obtain ⟨link, db1, _, _, hse, _, hdb, _, _⟩ := sonarrStepFile_shape now sid eps st ef
  rw [hdb, clearSonarrRemoved_series, insertSonarrFile_series, hse]

theorem sonarrStepFile_episodesExt (now : String) (sid : Nat) (eps : List SonarrEpisodeObs)
    (st : SonarrPass) (ef : SonarrFileObs) :
    extOf st.db.episodes (sonarrStepFile now sid eps st ef).db.episodes := by
  obtain ⟨link, db1, _, _, _, hep, hdb, _, _⟩ := sonarrStepFile_shape now sid eps st ef
  rw [hdb, clearSonarrRemoved_episodes, insertSonarrFile_episodes]
  rcases hep with hep | ⟨row, hep⟩
  · rw [hep]; exact extOf_refl _
  · rw [hep]; exact ⟨[row], rfl⟩

theorem sonarrFrame_stepSeries (now : String) (st : SonarrPass) (so : SonarrSeriesObs) :
    sonarrFrame st.db.files (sonarrStepSeries now st so).db.files := by
  simp only [sonarrStepSeries]
  refine foldl_preserve (fun s : SonarrPass => sonarrFrame st.db.files s.db.files) _ ?_ _ _ ?_
  · intro s ef hfr
    exact sonarrFrame_trans hfr (sonarrFrame_stepFile now _ so.episodes s ef)
  · show sonarrFrame st.db.files (insertSeries st.db so.id so.title so.path).files
    rw [insertSeries_files]
    exact sonarrFrame_refl _

theorem sonarrStepSeries_seriesExt (now : String) (st : SonarrPass) (so : SonarrSeriesObs) :
    extOf st.db.series (sonarrStepSeries now st so).db.series := by
  simp only [sonarrStepSeries]
  refine foldl_preserve (fun s : SonarrPass => extOf st.db.series s.db.series) _ ?_ _ _ ?_
  · intro s ef hex
    rw [← sonarrStepFile_seriesExt now _ so.episodes s ef] at hex
    exact hex
  · show extOf st.db.series (insertSeries st.db so.id so.title so.path).series
    rcases insertSeries_series st.db so.id so.title so.path with hs | hs
    · rw [hs]; exact extOf_refl _
    · rw [hs]; exact ⟨_, rfl⟩

theorem sonarrStepSeries_episodesExt (now : String) (st : SonarrPass) (so : SonarrSeriesObs) :
    extOf st.db.episodes (sonarrStepSeries now st so).db.episodes := by
  simp only [sonarrStepSeries]
  refine foldl_preserve (fun s : SonarrPass => extOf st.db.episodes s.db.episodes) _ ?_ _ _ ?_
  · intro s ef hex
    exact extOf_trans hex (sonarrStepFile_episodesExt now _ so.episodes s ef)
  · show extOf st.db.episodes (insertSeries st.db so.id so.title so.path).episodes
    rw [insertSeries_episodes]
    exact extOf_refl _

/-- First-write-wins frame property of a whole Sonarr pass: series and
episode rows are only appended, and a pre-existing file row keeps its id,
path, series link, episode link and `added_date`. -/
theorem sync_sonarr_frame (now : String) (obs : List SonarrSeriesObs) (db0 : SonarrDB) :
    sonarrFrame db0.files (sync_sonarr now obs db0).db.files ∧
    extOf db0.series (sync_sonarr now obs db0).db.series ∧
    extOf db0.episodes (sync_sonarr now obs db0).db.episodes := by
  have hstream : sonarrFrame db0.files
        (obs.foldl (sonarrStepSeries now) ⟨db0, [], 0, 0, 0⟩).db.files
      ∧ extOf db0.series (obs.foldl (sonarrStepSeries now) ⟨db0, [], 0, 0, 0⟩).db.series
      ∧ extOf db0.episodes (obs.foldl (sonarrStepSeries now) ⟨db0, [], 0, 0, 0⟩).db.episodes := by
    refine foldl_preserve (fun s : SonarrPass =>
      sonarrFrame db0.files s.db.files ∧ extOf db0.series s.db.series ∧
        extOf db0.episodes s.db.episodes) _ ?_ _ _
      ⟨sonarrFrame_refl _, extOf_refl _, extOf_refl _⟩
    intro s so ⟨h1, h2, h3⟩
    exact ⟨sonarrFrame_trans h1 (sonarrFrame_stepSeries now s so),
      extOf_trans h2 (sonarrStepSeries_seriesExt now s so),
      extOf_trans h3 (sonarrStepSeries_episodesExt now s so)⟩
  refine ⟨?_, ?_, ?_⟩
  · show sonarrFrame db0.files (sonarrFinalize now
      (obs.foldl (sonarrStepSeries now) ⟨db0, [], 0, 0, 0⟩).seen
      (obs.foldl (sonarrStepSeries now) ⟨db0, [], 0, 0, 0⟩).db.files)
    exact sonarrFrame_trans hstream.1 (sonarrFrame_finalize now _ _)
  · exact hstream.2.1
  · exact hstream.2.2

theorem addedAll_of_WF {files : List SonarrFileRow} {K : String} (h : sonarrWF files)
    {r : SonarrFileRow} (hr : r ∈ files) (hK : r.file_path = K) :
    addedAll files K r.added_date := by
  intro q hq hqK
  have hqr : q = r := List.inj_on_of_nodup_map h hq hr (by rw [hqK, hK])
  rw [hqr]

theorem addedAll_insert {db : SonarrDB} {q p a : String} (sid : Nat) (l : Option Nat)
    (now : String) (hhas : fileHas db.files p) (h : addedAll db.files p a) :
    addedAll (insertSonarrFile db q sid l now).files p a := by
  rcases insertSonarrFile_files db q sid l now with hf | ⟨hno, hf⟩
  · rwa [hf]
  · rw [hf]
    intro r hr hp
    rcases List.mem_append.mp hr with h' | h'
    · exact h r h' hp
    · rw [List.mem_singleton.mp h'] at hp
      exfalso
      have hq : q = p := hp
      rw [hq] at hno
      exact hno hhas

theorem addedAll_clear {db : SonarrDB} {p a : String} (q : String)
    (h : addedAll db.files p a) : addedAll (clearSonarrRemoved db q).files p a := by
  intro r' hr' hp'
  rcases List.mem_map.mp hr' with ⟨r, hr, hfr⟩
  subst hfr
  rw [clear_path_preserving q r] at hp'
  by_cases he : r.file_path = q
  · rw [if_pos he]
    exact h r hr hp'
  · rw [if_neg he]
    exact h r hr hp'

theorem addedAll_finalize {files : List SonarrFileRow} {p a now : String}
    {seen : List String} (h : addedAll files p a) :
    addedAll (sonarrFinalize now seen files) p a := by
  unfold sonarrFinalize
  refine foldl_preserve (fun fs => addedAll fs p a) _ ?_ _ files h
  intro fs p' hQ
  by_cases hs : p' ∈ seen
  · rwa [if_pos hs]
  · rw [if_neg hs]
    intro r' hr' hp'
    rcases List.mem_map.mp hr' with ⟨r, hr, hfr⟩
    subst hfr
    by_cases he : r.file_path = p'
    · rw [if_pos he] at hp' ⊢
      rw [sonarr_upd_path] at hp'
      rw [sonarr_upd_added]
      exact hQ r hr hp'
    · rw [if_neg he] at hp' ⊢
      exact hQ r hr hp'

theorem sonarrStepFile_addedAll {now : String} {sid : Nat} {eps : List SonarrEpisodeObs}
    {st : SonarrPass} {ef : SonarrFileObs} {p a : String}
    (hhas : fileHas st.db.files p) (h : addedAll st.db.files p a) :
    addedAll (sonarrStepFile now sid eps st ef).db.files p a := by
  obtain ⟨link, db1, hfi, _, _, _, hdb, _, _⟩ := sonarrStepFile_shape now sid eps st ef
  rw [hdb]
  exact addedAll_clear _ (addedAll_insert sid link now (by rwa [hfi]) (by rwa [hfi]))

theorem sonarrStepSeries_addedAll {now : String} {st : SonarrPass} {so : SonarrSeriesObs}
    {p a : String} (hhas : fileHas st.db.files p) (h : addedAll st.db.files p a) :
    addedAll (sonarrStepSeries now st so).db.files p a := by
  simp only [sonarrStepSeries]
  refine foldl_preserve
    (fun s : SonarrPass => fileHas s.db.files p ∧ addedAll s.db.files p a) _ ?_ _ _ ?_ |>.2
  · intro s ef ⟨h1, h2⟩
    exact ⟨sonarrStepFile_preserves_fileHas h1, sonarrStepFile_addedAll h1 h2⟩
  · show fileHas (insertSeries st.db so.id so.title so.path).files p ∧
      addedAll (insertSeries st.db so.id so.title so.path).files p a
    rw [insertSeries_files]
    exact ⟨hhas, h⟩

/-- `added_date` of an already-present key is stable across a whole pass. -/
theorem sync_sonarr_addedAll (now : String) (obs : List SonarrSeriesObs) (db0 : SonarrDB)
    {p a : String} (hhas : fileHas db0.files p) (h : addedAll db0.files p a) :
    fileHas (sync_sonarr now obs db0).db.files p ∧
    addedAll (sync_sonarr now obs db0).db.files p a := by
  have hstream :
      fileHas (obs.foldl (sonarrStepSeries now) ⟨db0, [], 0, 0, 0⟩).db.files p ∧
      addedAll (obs.foldl (sonarrStepSeries now) ⟨db0, [], 0, 0, 0⟩).db.files p a := by
    refine foldl_preserve
      (fun s : SonarrPass => fileHas s.db.files p ∧ addedAll s.db.files p a) _ ?_ _ _ ⟨hhas, h⟩
    intro s so ⟨h1, h2⟩
    exact ⟨sonarrStepSeries_preserves_fileHas h1, sonarrStepSeries_addedAll h1 h2⟩
  constructor
  · show fileHas (sonarrFinalize now
      (obs.foldl (sonarrStepSeries now) ⟨db0, [], 0, 0, 0⟩).seen
      (obs.foldl (sonarrStepSeries now) ⟨db0, [], 0, 0, 0⟩).db.files) p
    exact fileHas_finalize now _ hstream.1
  · show addedAll (sonarrFinalize now
      (obs.foldl (sonarrStepSeries now) ⟨db0, [], 0, 0, 0⟩).seen
      (obs.foldl (sonarrStepSeries now) ⟨db0, [], 0, 0, 0⟩).db.files) p a
    exact addedAll_finalize hstream.2

theorem sonarrObsPaths_mem :
    ∀ {obs : List SonarrSeriesObs} {p : String}, p ∈ sonarrObsPaths obs →
      ∃ so ∈ obs, ∃ ef ∈ so.episodeFiles, ef.path = p := by
  intro obs
  induction obs with
  | nil => intro p hp; cases hp
  | cons so obs ih =>
    intro p hp
    rcases List.mem_append.mp hp with h | h
    · rcases List.mem_map.mp h with ⟨ef, hef, hp'⟩
      exact ⟨so, List.mem_cons_self _ _, ef, hef, hp'⟩
    · rcases ih h with ⟨so', hso', ef, hef, hp'⟩
      exact ⟨so', List.mem_cons_of_mem _ hso', ef, hef, hp'⟩

theorem removedIs_insert_ne {db : SonarrDB} {q K : String} {v : Option String}
    (sid : Nat) (l : Option Nat) (now : String) (hne : q ≠ K)
    (h : removedIs db.files K v) : removedIs (insertSonarrFile db q sid l now).files K v := by
  rcases insertSonarrFile_files db q sid l now with hf | ⟨_, hf⟩
  · rwa [hf]
  · rw [hf]
    intro r hr hp
    rcases List.mem_append.mp hr with h' | h'
    · exact h r h' hp
    · rw [List.mem_singleton.mp h'] at hp
      exact absurd hp hne

theorem removedIs_clear_ne {db : SonarrDB} {q K : String} {v : Option String} (hne : q ≠ K)
    (h : removedIs db.files K v) : removedIs (clearSonarrRemoved db q).files K v := by
  intro r' hr' hp'
  rcases List.mem_map.mp hr' with ⟨r, hr, hfr⟩
  subst hfr
  rw [clear_path_preserving q r] at hp'
  have he : r.file_path ≠ q := by
    rw [hp']
    exact fun hc => hne hc.symm
  rw [if_neg he]
  exact h r hr hp'

theorem sonarrStepFile_removedIs_ne {now : String} {sid : Nat} {eps : List SonarrEpisodeObs}
    {st : SonarrPass} {ef : SonarrFileObs} {K : String} {v : Option String}
    (hne : ef.path ≠ K) (h : removedIs st.db.files K v) :
    removedIs (sonarrStepFile now sid eps st ef).db.files K v := by
  obtain ⟨link, db1, hfi, _, _, _, hdb, _, _⟩ := sonarrStepFile_shape now sid eps st ef
  rw [hdb]
  exact removedIs_clear_ne hne (removedIs_insert_ne sid link now hne (by rwa [hfi]))

theorem sonarrStepSeries_removedIs_ne {now : String} {st : SonarrPass} {so : SonarrSeriesObs}
    {K : String} {v : Option String} (hne : ∀ ef ∈ so.episodeFiles, ef.path ≠ K)
    (h : removedIs st.db.files K v) :
    removedIs (sonarrStepSeries now st so).db.files K v := by
  simp only [sonarrStepSeries]
  refine foldl_preserve_mem (fun s : SonarrPass => removedIs s.db.files K v) _ _ _ ?_ ?_
  · intro s ef hef hs
    exact sonarrStepFile_removedIs_ne (hne ef hef) hs
  · show removedIs (insertSeries st.db so.id so.title so.path).files K v
    rw [insertSeries_files]
    exact h

theorem removedIs_finalize_some {files : List SonarrFileRow} {K now : String}
    {seen : List String} {t : String} (hWF : sonarrWF files)
    (h : removedIs files K (some t)) :
    removedIs (sonarrFinalize now seen files) K (some t) := by
  rw [sonarrFinalize_eq_map now seen files hWF]
  intro r' hr' hp'
  rcases List.mem_map.mp hr' with ⟨r, hr, hfr⟩
  subst hfr
  by_cases hc : r.removed_date = none ∧ r.file_path ∉ seen
  · rw [if_pos hc] at hp' ⊢
    rw [sonarr_upd_path] at hp'
    have := h r hr hp'
    rw [hc.1] at this
    cases this
  · rw [if_neg hc] at hp' ⊢
    exact h r hr hp'

theorem sonarrFinalize_marks {files : List SonarrFileRow} {K now : String}
    {seen : List String} (hWF : sonarrWF files) (hns : K ∉ seen)
    (hact : removedIs files K none) :
    removedIs (sonarrFinalize now seen files) K (some now) := by
  rw [sonarrFinalize_eq_map now seen files hWF]
  intro r' hr' hp'
  rcases List.mem_map.mp hr' with ⟨r, hr, hfr⟩
  subst hfr
  by_cases hc : r.removed_date = none ∧ r.file_path ∉ seen
  · rw [if_pos hc] at hp' ⊢
  · rw [if_neg hc] at hp' ⊢
    refine absurd ⟨hact r hr hp', ?_⟩ hc
    rw [hp']
    exact hns

/-- A key absent from the pass's observations whose rows were all active is
marked removed with the pass timestamp. -/
theorem sync_sonarr_unobserved_act (now : String) (obs : List SonarrSeriesObs)
    (db0 : SonarrDB) (K : String) (hK : K ∉ sonarrObsPaths obs)
    (hWF : sonarrWF db0.files) (hhas : fileHas db0.files K)
    (hact : removedIs db0.files K none) :
    fileHas (sync_sonarr now obs db0).db.files K ∧
    removedIs (sync_sonarr now obs db0).db.files K (some now) := by
  have hne : ∀ so ∈ obs, ∀ ef ∈ so.episodeFiles, ef.path ≠ K := by
    intro so hso ef hef hc
    exact hK (hc ▸ mem_sonarrObsPaths obs so hso ef hef)
  have hstream :
      fileHas (obs.foldl (sonarrStepSeries now) ⟨db0, [], 0, 0, 0⟩).db.files K ∧
      removedIs (obs.foldl (sonarrStepSeries now) ⟨db0, [], 0, 0, 0⟩).db.files K none := by
    refine foldl_preserve_mem
      (fun s : SonarrPass => fileHas s.db.files K ∧ removedIs s.db.files K none) _ _ _ ?_
      ⟨hhas, hact⟩
    intro s so hso ⟨hA, hB⟩
    exact ⟨sonarrStepSeries_preserves_fileHas hA,
      sonarrStepSeries_preserves_allNone (fun r hr hp => hB r hr hp)⟩
  have hWFs := sonarrStream_WF now obs db0 hWF
  have hseen : (obs.foldl (sonarrStepSeries now) ⟨db0, [], 0, 0, 0⟩).seen
      = sonarrObsPaths obs := by
    rw [sonarrStream_seen]
    exact List.nil_append _
  constructor
  · show fileHas (sonarrFinalize now
      (obs.foldl (sonarrStepSeries now) ⟨db0, [], 0, 0, 0⟩).seen
      (obs.foldl (sonarrStepSeries now) ⟨db0, [], 0, 0, 0⟩).db.files) K
    exact fileHas_finalize now _ hstream.1
  · show removedIs (sonarrFinalize now
      (obs.foldl (sonarrStepSeries now) ⟨db0, [], 0, 0, 0⟩).seen
      (obs.foldl (sonarrStepSeries now) ⟨db0, [], 0, 0, 0⟩).db.files) K (some now)
    rw [hseen]
    exact sonarrFinalize_marks hWFs (hseen ▸ hK) hstream.2

/-- Soft-delete round trip for the Sonarr variant, for any well-formed prior
store and any surrounding observations. -/
theorem sonarr_round_trip (now1 now2 now3 : String)
    (obs1 obs2 obs3 : List SonarrSeriesObs) (db0 : SonarrDB) (K : String)
    (hWF : sonarrWF db0.files)
    (h1 : K ∈ sonarrObsPaths obs1) (h2 : K ∉ sonarrObsPaths obs2)
    (h3 : K ∈ sonarrObsPaths obs3) :
    ∃ a : String,
      fileHas (sync_sonarr now1 obs1 db0).db.files K ∧
      removedIs (sync_sonarr now1 obs1 db0).db.files K none ∧
      addedAll (sync_sonarr now1 obs1 db0).db.files K a ∧
      removedIs (sync_sonarr now2 obs2
        (sync_sonarr now1 obs1 db0).db).db.files K (some now2) ∧
      addedAll (sync_sonarr now2 obs2
        (sync_sonarr now1 obs1 db0).db).db.files K a ∧
      fileHas (sync_sonarr now3 obs3 (sync_sonarr now2 obs2
        (sync_sonarr now1 obs1 db0).db).db).db.files K ∧
      removedIs (sync_sonarr now3 obs3 (sync_sonarr now2 obs2
        (sync_sonarr now1 obs1 db0).db).db).db.files K none ∧
      addedAll (sync_sonarr now3 obs3 (sync_sonarr now2 obs2
        (sync_sonarr now1 obs1 db0).db).db).db.files K a := by
  obtain ⟨F11, F12, F13, F14⟩ := sync_sonarr_facts now1 obs1 db0 hWF
  obtain ⟨so1, hso1, ef1, hef1, hp1⟩ := sonarrObsPaths_mem h1
  obtain ⟨hHas1, hAct1, -⟩ := F12 so1 hso1 ef1 hef1
  rw [hp1] at hHas1 hAct1
  obtain ⟨r1, hr1, hr1K⟩ := hHas1
  refine ⟨r1.added_date, ⟨r1, hr1, hr1K⟩, (fun r hr hp => hAct1 r hr hp), ?_, ?_, ?_, ?_, ?_, ?_⟩
  · exact addedAll_of_WF F13 hr1 hr1K
  · exact (sync_sonarr_unobserved_act now2 obs2 _ K h2 F13 ⟨r1, hr1, hr1K⟩
      (fun r hr hp => hAct1 r hr hp)).2
  · exact (sync_sonarr_addedAll now2 obs2 _ ⟨r1, hr1, hr1K⟩
      (addedAll_of_WF F13 hr1 hr1K)).2
  all_goals {
    obtain ⟨F21, F22, F23, F24⟩ := sync_sonarr_facts now2 obs2 _ F13
    obtain ⟨hHas2, hAdd2⟩ := sync_sonarr_addedAll now2 obs2 _ ⟨r1, hr1, hr1K⟩
      (addedAll_of_WF F13 hr1 hr1K)
    obtain ⟨so3, hso3, ef3, hef3, hp3⟩ := sonarrObsPaths_mem h3
    obtain ⟨F31, F32, F33, F34⟩ := sync_sonarr_facts now3 obs3 _ F23
    obtain ⟨hHas3, hAct3, -⟩ := F32 so3 hso3 ef3 hef3
    rw [hp3] at hHas3 hAct3
    first
    | exact hHas3
    | exact (fun r hr hp => hAct3 r hr hp)
    | exact (sync_sonarr_addedAll now3 obs3 _ hHas2 hAdd2).2
  }

theorem exists_mem_of_extOf {α : Type _} {xs ys : List α} {P : α → Prop} (hext : extOf xs ys)
    (h : ∃ x ∈ xs, P x) : ∃ x ∈ ys, P x := by
  rcases hext with ⟨t, rfl⟩
  rcases h with ⟨x, hx, hP⟩
  exact ⟨x, List.mem_append_left _ hx, hP⟩

/-- The fetched series durable id names an existing row with the looked-up
natural key. -/
theorem findSeriesId_valid {db : SonarrDB} {sid : Nat} (h : seriesHas db sid) :
    ∃ s ∈ db.series, s.id = findSeriesId db sid ∧ s.sonarr_id = sid := by
  cases hfind : db.series.find? (fun r => r.sonarr_id = sid) with
  | none =>
    exfalso
    rcases h with ⟨r, hr, hid⟩
    have := List.find?_eq_none.mp hfind r hr
    simp [hid] at this
  | some q =>
    refine ⟨q, List.mem_of_find?_eq_some hfind, ?_, ?_⟩
    · rw [findSeriesId, hfind]
      rfl
    · have := List.find?_some hfind
      simpa using this

theorem findEpisodeId_valid {db : SonarrDB} {eid : Nat} (h : episodeHas db eid) :
    ∃ e ∈ db.episodes, e.id = findEpisodeId db eid ∧ e.sonarr_id = eid := by
  cases hfind : db.episodes.find? (fun r => r.sonarr_id = eid) with
  | none =>
    exfalso
    rcases h with ⟨r, hr, hid⟩
    have := List.find?_eq_none.mp hfind r hr
    simp [hid] at this
  | some q =>
    refine ⟨q, List.mem_of_find?_eq_some hfind, ?_, ?_⟩
    · rw [findEpisodeId, hfind]
      rfl
    · have := List.find?_some hfind
      simpa using this

theorem insertSeries_extOf (db : SonarrDB) (sid : Nat) (t p : String) :
    extOf db.series (insertSeries db sid t p).series := by
  rcases insertSeries_series db sid t p with hs | hs
  · rw [hs]; exact extOf_refl _
  · rw [hs]; exact ⟨_, rfl⟩

theorem refInv_insertSeries {db : SonarrDB} (sid : Nat) (t p : String)
    (h : sonarrRefInv db) : sonarrRefInv (insertSeries db sid t p) := by
  have hext := insertSeries_extOf db sid t p
  constructor
  · rw [insertSeries_episodes]
    intro e he
    exact exists_mem_of_extOf hext (h.1 e he)
  · rw [insertSeries_files]
    intro f hf
    exact ⟨exists_mem_of_extOf hext ((h.2 f hf).1), by
      intro eid heq
      rw [insertSeries_episodes]
      exact (h.2 f hf).2 eid heq⟩

theorem refInv_insertEpisode {db : SonarrDB} {sid : Nat} (eid : Nat) (sn en : Option Int)
    (h : sonarrRefInv db) (hsid : ∃ s ∈ db.series, s.id = sid) :
    sonarrRefInv (insertEpisode db eid sid sn en) := by
  rcases insertEpisode_episodes db eid sid sn en with he | he
  · constructor
    · rw [he, insertEpisode_series]
      exact h.1
    · rw [insertEpisode_files, insertEpisode_series]
      intro f hf
      exact ⟨(h.2 f hf).1, fun eid' heq => he ▸ (h.2 f hf).2 eid' heq⟩
  · constructor
    · rw [he, insertEpisode_series]
      intro e he'
      rcases List.mem_append.mp he' with h' | h'
      · exact h.1 e h'
      · rw [List.mem_singleton.mp h']
        exact hsid
    · rw [insertEpisode_files, insertEpisode_series]
      intro f hf
      refine ⟨(h.2 f hf).1, fun eid' heq => ?_⟩
      rw [he]
      rcases (h.2 f hf).2 eid' heq with ⟨e, he'', hid⟩
      exact ⟨e, List.mem_append_left _ he'', hid⟩

theorem refInv_insertSonarrFile {db : SonarrDB} {sid : Nat} {l : Option Nat}
    (p now : String) (h : sonarrRefInv db) (hsid : ∃ s ∈ db.series, s.id = sid)
    (hl : ∀ eid : Nat, l = some eid → ∃ e ∈ db.episodes, e.id = eid) :
    sonarrRefInv (insertSonarrFile db p sid l now) := by
  rcases insertSonarrFile_files db p sid l now with hf | ⟨_, hf⟩
  · constructor
    · rw [insertSonarrFile_episodes, insertSonarrFile_series]
      exact h.1
    · rw [hf, insertSonarrFile_series, insertSonarrFile_episodes]
      exact h.2
  · constructor
    · rw [insertSonarrFile_episodes, insertSonarrFile_series]
      exact h.1
    · rw [hf, insertSonarrFile_series, insertSonarrFile_episodes]
      intro f hf'
      rcases List.mem_append.mp hf' with h' | h'
      · exact h.2 f h'
      · rw [List.mem_singleton.mp h']
        exact ⟨hsid, hl⟩

theorem refInv_clear {db : SonarrDB} (p : String) (h : sonarrRefInv db) :
    sonarrRefInv (clearSonarrRemoved db p) := by
  constructor
  · rw [clearSonarrRemoved_episodes, clearSonarrRemoved_series]
    exact h.1
  · rw [clearSonarrRemoved_series, clearSonarrRemoved_episodes]
    intro f' hf'
    rcases List.mem_map.mp hf' with ⟨f, hf, hff⟩
    subst hff
    obtain ⟨hA, hB⟩ := h.2 f hf
    by_cases he : f.file_path = p
    · rw [if_pos he]
      exact ⟨by simpa using hA, fun eid heq => hB eid (by simpa using heq)⟩
    · rw [if_neg he]
      exact ⟨hA, hB⟩

theorem refInv_finalize {db : SonarrDB} (now : String) (seen : List String)
    (h : sonarrRefInv db) :
    sonarrRefInv { db with files := sonarrFinalize now seen db.files } := by
  refine ⟨h.1, ?_⟩
  show ∀ f ∈ sonarrFinalize now seen db.files, _
  unfold sonarrFinalize
  refine foldl_preserve (fun fs : List SonarrFileRow => ∀ f ∈ fs,
    (∃ s ∈ db.series, s.id = f.series_id) ∧
    (∀ eid : Nat, f.episode_id = some eid → ∃ e ∈ db.episodes, e.id = eid)) _ ?_ _ _ h.2
  intro fs p hQ
  by_cases hs : p ∈ seen
  · rwa [if_pos hs]
  · rw [if_neg hs]
    intro f' hf'
    rcases List.mem_map.mp hf' with ⟨f, hf, hff⟩
    subst hff
    obtain ⟨hA, hB⟩ := hQ f hf
    by_cases he : f.file_path = p
    · rw [if_pos he]
      exact ⟨by simpa using hA, fun eid heq => hB eid (by simpa using heq)⟩
    · rw [if_neg he]
      exact ⟨hA, hB⟩

/-- The per-file loop body preserves referential integrity whenever the
series id it is handed names an existing series row — the episode row (if
any) is always inserted before the file row referencing it. -/
theorem sonarrRefInv_stepFile (now : String) {sid : Nat} (eps : List SonarrEpisodeObs)
    (st : SonarrPass) (ef : SonarrFileObs) (h : sonarrRefInv st.db)
    (hsid : ∃ s ∈ st.db.series, s.id = sid) :
    sonarrRefInv (sonarrStepFile now sid eps st ef).db := by
  rcases hids : ef.episodeIds with _ | ⟨eid, rest⟩
  · simp only [sonarrStepFile, hids]
    exact refInv_clear _ (refInv_insertSonarrFile _ _ h hsid (by simp))
  · rcases hlk : lookupEpisodeObs eps eid with _ | ep
    · simp only [sonarrStepFile, hids, hlk]
      exact refInv_clear _ (refInv_insertSonarrFile _ _ h hsid (by simp))
    · simp only [sonarrStepFile, hids, hlk]
      have h1 : sonarrRefInv (insertEpisode st.db ep.id sid ep.seasonNumber ep.episodeNumber) :=
        refInv_insertEpisode _ _ _ h hsid
      have hsid1 : ∃ s ∈ (insertEpisode st.db ep.id sid ep.seasonNumber
          ep.episodeNumber).series, s.id = sid := by
        rw [insertEpisode_series]
        exact hsid
      have hepHas := episodeHas_insertEpisode st.db ep.id sid ep.seasonNumber ep.episodeNumber
      obtain ⟨e, he, heid, -⟩ := findEpisodeId_valid hepHas
      refine refInv_clear _ (refInv_insertSonarrFile _ _ h1 hsid1 ?_)
      intro eid' heq
      rw [Option.some_inj] at heq
      exact ⟨e, he, heq ▸ heid⟩

theorem sonarrRefInv_stepSeries (now : String) (st : SonarrPass) (so : SonarrSeriesObs)
    (h : sonarrRefInv st.db) : sonarrRefInv (sonarrStepSeries now st so).db := by
  simp only [sonarrStepSeries]
  have h1 : sonarrRefInv (insertSeries st.db so.id so.title so.path) :=
    refInv_insertSeries _ _ _ h
  obtain ⟨s0, hs0, hs0id, -⟩ :=
    findSeriesId_valid (seriesHas_insertSeries st.db so.id so.title so.path)
  refine (foldl_preserve (fun s : SonarrPass => sonarrRefInv s.db ∧
    ∃ row ∈ s.db.series,
      row.id = findSeriesId (insertSeries st.db so.id so.title so.path) so.id) _ ?_ _ _
    ⟨h1, s0, hs0, hs0id⟩).1
  intro s ef ⟨hA, hB⟩
  refine ⟨sonarrRefInv_stepFile now so.episodes s ef hA hB, ?_⟩
  rw [sonarrStepFile_seriesExt]
  exact hB

/-- A full pass preserves referential integrity. -/
theorem sonarrRefInv_sync (now : String) (obs : List SonarrSeriesObs) (db0 : SonarrDB)
    (h : sonarrRefInv db0) : sonarrRefInv (sync_sonarr now obs db0).db := by
  have hstream : sonarrRefInv (obs.foldl (sonarrStepSeries now) ⟨db0, [], 0, 0, 0⟩).db :=
    foldl_preserve (fun s : SonarrPass => sonarrRefInv s.db) _
      (fun s so hs => sonarrRefInv_stepSeries now s so hs) _ _ h
  exact refInv_finalize now _ hstream

/-! ## Per-claim support lemmas (Sonarr) -/
/-- Row-by-row characterization of the finalization step, for a table
satisfying the uniqueness constraint whose rows do not already carry the
(fresh) pass timestamp. -/
theorem sonarrFinalize_spec (now : String) (seen : List String)
    (files : List SonarrFileRow) (hWF : sonarrWF files)
    (hfresh : ∀ r ∈ files, r.removed_date ≠ some now) :
    (sonarrFinalize now seen files).length = files.length ∧
    ∀ i : Nat, ∀ hi : i < files.length,
      ∀ hi' : i < (sonarrFinalize now seen files).length,
      (((sonarrFinalize now seen files).get ⟨i, hi'⟩).removed_date = some now ↔
        ((files.get ⟨i, hi⟩).removed_date = none ∧ (files.get ⟨i, hi⟩).file_path ∉ seen)) ∧
      ((files.get ⟨i, hi⟩).removed_date ≠ none → (files.get ⟨i, hi⟩).file_path ∉ seen →
        (sonarrFinalize now seen files).get ⟨i, hi'⟩ = files.get ⟨i, hi⟩) := by
  have hlen : (sonarrFinalize now seen files).length = files.length := by
    rw [sonarrFinalize_eq_map now seen files hWF]
    simp
  refine ⟨hlen, ?_⟩
  intro i hi
  have hget : ∀ hi' : i < (sonarrFinalize now seen files).length,
      (sonarrFinalize now seen files).get ⟨i, hi'⟩
        = if (files.get ⟨i, hi⟩).removed_date = none ∧ (files.get ⟨i, hi⟩).file_path ∉ seen
          then { files.get ⟨i, hi⟩ with removed_date := some now }
          else files.get ⟨i, hi⟩ := by
    rw [sonarrFinalize_eq_map now seen files hWF]
    intro hi'
    simp
  intro hi'
  rw [hget hi']
  constructor
  · constructor
    · intro hsome
      by_cases hc : (files.get ⟨i, hi⟩).removed_date = none ∧
          (files.get ⟨i, hi⟩).file_path ∉ seen
      · exact hc
      · rw [if_neg hc] at hsome
        exact absurd hsome (hfresh _ (List.get_mem files i hi))
    · intro hc
      rw [if_pos hc]
  · intro hrem _
    rw [if_neg (fun hc => hrem hc.1)]

/-- An empty observation set: nothing is inserted, the counters stay zero,
and every active row is marked removed with the pass timestamp. -/
theorem sync_sonarr_empty (now : String) (db0 : SonarrDB) (hWF : sonarrWF db0.files) :
    (sync_sonarr now [] db0).db.series = db0.series ∧
    (sync_sonarr now [] db0).db.episodes = db0.episodes ∧
    (sync_sonarr now [] db0).db.nextSeriesId = db0.nextSeriesId ∧
    (sync_sonarr now [] db0).db.nextEpisodeId = db0.nextEpisodeId ∧
    (sync_sonarr now [] db0).db.nextFileId = db0.nextFileId ∧
    (sync_sonarr now [] db0).db.files.length = db0.files.length ∧
    (sync_sonarr now [] db0).db.files
      = db0.files.map (fun r => if r.removed_date = none
          then { r with removed_date := some now } else r) ∧
    (sync_sonarr now [] db0).totalFiles = 0 ∧
    (sync_sonarr now [] db0).resolvedEpisodes = 0 ∧
    (sync_sonarr now [] db0).unresolvedFiles = 0 := by
  have hfiles : (sync_sonarr now [] db0).db.files
      = db0.files.map (fun r => if r.removed_date = none
          then { r with removed_date := some now } else r) := by
    show sonarrFinalize now _ db0.files = _
    rw [sonarrFinalize_eq_map now _ _ hWF]
    apply List.map_congr_left
    intro r _
    exact if_congr (by simp) rfl rfl
  refine ⟨rfl, rfl, rfl, rfl, rfl, ?_, hfiles, rfl, rfl, rfl⟩
  rw [hfiles]
  simp

/-- An unresolvable observation bumps the unresolved counter, leaves the
episode table alone, and still records the file with a null episode link. -/
theorem sonarrStepFile_unresolved (now : String) (sid : Nat)
    (eps : List SonarrEpisodeObs) (st : SonarrPass) (ef : SonarrFileObs)
    (h : sonarrUnresolvedObs eps ef) :
    (sonarrStepFile now sid eps st ef).unresolvedFiles = st.unresolvedFiles + 1 ∧
    (sonarrStepFile now sid eps st ef).resolvedEpisodes = st.resolvedEpisodes ∧
    (sonarrStepFile now sid eps st ef).db.episodes = st.db.episodes ∧
    (sonarrStepFile now sid eps st ef).db
      = clearSonarrRemoved (insertSonarrFile st.db ef.path sid none now) ef.path := by
  rcases h with hids | ⟨eid, rest, hids, hlk⟩
  · refine ⟨?_, ?_, ?_, ?_⟩ <;>
      simp [sonarrStepFile, hids, clearSonarrRemoved_episodes, insertSonarrFile_episodes]
  · refine ⟨?_, ?_, ?_, ?_⟩ <;>
      simp [sonarrStepFile, hids, hlk, clearSonarrRemoved_episodes, insertSonarrFile_episodes]

/-- Multi-episode files: only the first id of `episodeIds` is resolved,
linked and counted; the remaining ids leave the episode table untouched. -/
theorem sonarrStepFile_multi (now : String) (sid : Nat) (eps : List SonarrEpisodeObs)
    (st : SonarrPass) (ef : SonarrFileObs) (eid : Nat) (rest : List Nat)
    (ep : SonarrEpisodeObs) (hids : ef.episodeIds = eid :: rest)
    (hlk : lookupEpisodeObs eps eid = some ep) :
    (sonarrStepFile now sid eps st ef).resolvedEpisodes = st.resolvedEpisodes + 1 ∧
    (sonarrStepFile now sid eps st ef).unresolvedFiles = st.unresolvedFiles ∧
    ep.id = eid ∧
    (∀ x ∈ (sonarrStepFile now sid eps st ef).db.episodes,
      x ∈ st.db.episodes ∨ x.sonarr_id = eid) ∧
    (¬ fileHas st.db.files ef.path →
      ∃ j : Nat, (sonarrStepFile now sid eps st ef).db.files
          = st.db.files ++ [⟨st.db.nextFileId, ef.path, sid, some j, now, none⟩] ∧
        ∃ e ∈ (sonarrStepFile now sid eps st ef).db.episodes,
          e.id = j ∧ e.sonarr_id = eid) := by
  have hepid : ep.id = eid := by
    have := List.find?_some hlk
    simpa using this
  have hepisodes : (sonarrStepFile now sid eps st ef).db.episodes
      = (insertEpisode st.db ep.id sid ep.seasonNumber ep.episodeNumber).episodes := by
    simp [sonarrStepFile, hids, hlk, clearSonarrRemoved_episodes, insertSonarrFile_episodes]
  refine ⟨?_, ?_, hepid, ?_, ?_⟩
  · simp [sonarrStepFile, hids, hlk]
  · simp [sonarrStepFile, hids, hlk]
  · intro x hx
    rw [hepisodes] at hx
    rcases insertEpisode_episodes st.db ep.id sid ep.seasonNumber ep.episodeNumber with he | he
    · rw [he] at hx
      exact Or.inl hx
    · rw [he] at hx
      rcases List.mem_append.mp hx with h' | h'
      · exact Or.inl h'
      · right
        rw [List.mem_singleton.mp h']
        exact hepid
  · intro hno
    set db1 := insertEpisode st.db ep.id sid ep.seasonNumber ep.episodeNumber with hdb1
    have hepHas : episodeHas db1 ep.id :=
      episodeHas_insertEpisode st.db ep.id sid ep.seasonNumber ep.episodeNumber
    obtain ⟨e, he, heid, heid'⟩ := findEpisodeId_valid hepHas
    refine ⟨findEpisodeId db1 ep.id, ?_, ?_⟩
    · have hno1 : ¬ fileHas db1.files ef.path := by
        rw [hdb1, insertEpisode_files]
        exact hno
      have hfiles : (sonarrStepFile now sid eps st ef).db.files
          = (clearSonarrRemoved (insertSonarrFile db1 ef.path sid
              (some (findEpisodeId db1 ep.id)) now) ef.path).files := by
        simp [sonarrStepFile, hids, hlk]
      rw [hfiles]
      have hins : (insertSonarrFile db1 ef.path sid (some (findEpisodeId db1 ep.id)) now).files
          = db1.files ++ [⟨db1.nextFileId, ef.path, sid,
              some (findEpisodeId db1 ep.id), now, none⟩] := by
        rcases insertSonarrFile_files db1 ef.path sid (some (findEpisodeId db1 ep.id)) now with
          hf | ⟨_, hf⟩
        · exfalso
          have hhas := fileHas_insert_self db1 ef.path sid (some (findEpisodeId db1 ep.id)) now
          rw [hf] at hhas
          exact hno1 hhas
        · exact hf
      show ((clearSonarrRemoved (insertSonarrFile db1 ef.path sid
          (some (findEpisodeId db1 ep.id)) now) ef.path).files) = _
      simp only [clearSonarrRemoved, hins]
      rw [List.map_append]
      have hold : db1.files.map (fun r => if r.file_path = ef.path
          then { r with removed_date := none } else r) = db1.files := by
        have : db1.files.map (fun r => if r.file_path = ef.path
            then { r with removed_date := none } else r) = db1.files.map (fun r => r) := by
          apply List.map_congr_left
          intro r hr
          rw [if_neg (fun hc => hno1 ⟨r, hr, hc⟩)]
        rw [this, List.map_id']
      rw [hold]
      have hnew : ([⟨db1.nextFileId, ef.path, sid, some (findEpisodeId db1 ep.id), now,
          none⟩] : List SonarrFileRow).map (fun r => if r.file_path = ef.path
            then { r with removed_date := none } else r)
          = [⟨db1.nextFileId, ef.path, sid, some (findEpisodeId db1 ep.id), now, none⟩] := by
        simp
      rw [hnew, hdb1, insertEpisode_files, insertEpisode_nextFileId]
    · rw [hepisodes]
      exact ⟨e, he, heid, hepid ▸ heid'⟩

theorem sonarrStepFile_total (now : String) (sid : Nat) (eps : List SonarrEpisodeObs)
    (st : SonarrPass) (ef : SonarrFileObs) :
    (sonarrStepFile now sid eps st ef).totalFiles = st.totalFiles + 1 :=
  (sonarrStepFile_shape now sid eps st ef).choose_spec.choose_spec.2.2.2.2.2.2

theorem sonarrFileFold_total (now : String) (sid : Nat) (eps : List SonarrEpisodeObs) :
    ∀ (efs : List SonarrFileObs) (st : SonarrPass),
      (efs.foldl (sonarrStepFile now sid eps) st).totalFiles
        = st.totalFiles + efs.length := by
  intro efs
  induction efs with
  | nil => intro st; simp
  | cons ef efs ih =>
    intro st
    rw [List.foldl_cons, ih, sonarrStepFile_total, List.length_cons]
    omega

theorem sonarrStepSeries_total (now : String) (st : SonarrPass) (so : SonarrSeriesObs) :
    (sonarrStepSeries now st so).totalFiles = st.totalFiles + so.episodeFiles.length := by
  simp only [sonarrStepSeries]
  rw [sonarrFileFold_total]

/-- Every file observation of the pass is processed and counted: an
unresolvable observation never aborts the stream. -/
theorem sync_sonarr_total (now : String) (obs : List SonarrSeriesObs) (db0 : SonarrDB) :
    (sync_sonarr now obs db0).totalFiles = sonarrObsFileCount obs := by
  have : ∀ (l : List SonarrSeriesObs) (st : SonarrPass),
      (l.foldl (sonarrStepSeries now) st).totalFiles
        = st.totalFiles + sonarrObsFileCount l := by
    intro l
    induction l with
    | nil => intro st; simp [sonarrObsFileCount]
    | cons so l ih =>
      intro st
      rw [List.foldl_cons, ih, sonarrStepSeries_total, sonarrObsFileCount]
      omega
  show (obs.foldl (sonarrStepSeries now) ⟨db0, [], 0, 0, 0⟩).totalFiles = _
  rw [this]
  simp

@[simp] theorem plex_upd_key (r : PlexFileRow) (v : Option String) :
    plexFileKey ({ r with removed_date := v } : PlexFileRow) = plexFileKey r := rfl

@[simp] theorem plex_upd_removed (r : PlexFileRow) (v : Option String) :
    ({ r with removed_date := v } : PlexFileRow).removed_date = v := rfl

@[simp] theorem plex_upd_added (r : PlexFileRow) (v : Option String) :
    ({ r with removed_date := v } : PlexFileRow).added_date = r.added_date := rfl

@[simp] theorem plex_upd_series (r : PlexFileRow) (v : Option String) :
    ({ r with removed_date := v } : PlexFileRow).series_id = r.series_id := rfl

@[simp] theorem plex_upd_episode (r : PlexFileRow) (v : Option String) :
    ({ r with removed_date := v } : PlexFileRow).episode_id = r.episode_id := rfl

theorem plex_any_key {files : List PlexFileRow} {k : String × String} :
    files.any (fun r => plexFileKey r = k) = true ↔ plexFileHas files k := by
  simp [List.any_eq_true, plexFileHas]

theorem plex_set_removed_none {r : PlexFileRow} (h : r.removed_date = none) :
    { r with removed_date := none } = r := by
  cases r
  simp only at h
  simp [h]

theorem insertPlexSeries_of_has {db : PlexDB} {k : String} (t : String)
    (h : plexSeriesHas db k) : insertPlexSeries db k t = db := by
  have ha : db.series.any (fun r => r.plex_key = k) = true := by
    simp only [List.any_eq_true, decide_eq_true_eq]
    exact h
  simp [insertPlexSeries, ha]

theorem plexSeriesHas_insert (db : PlexDB) (k t : String) :
    plexSeriesHas (insertPlexSeries db k t) k := by
  by_cases h : db.series.any (fun r => r.plex_key = k) = true
  · simp [insertPlexSeries, h]
    simp only [List.any_eq_true, decide_eq_true_eq] at h
    exact h
  · simp only [insertPlexSeries]
    rw [if_neg h]
    exact ⟨_, List.mem_append_right _ (List.mem_singleton_self _), rfl⟩

theorem insertPlexEpisode_of_has {db : PlexDB} {k : String} (sid : Nat) (sn en : Option String)
    (h : plexEpisodeHas db k) : insertPlexEpisode db k sid sn en = db := by
  have ha : db.episodes.any (fun r => r.plex_key = k) = true := by
    simp only [List.any_eq_true, decide_eq_true_eq]
    exact h
  simp [insertPlexEpisode, ha]

theorem plexEpisodeHas_insert (db : PlexDB) (k : String) (sid : Nat) (sn en : Option String) :
    plexEpisodeHas (insertPlexEpisode db k sid sn en) k := by
  by_cases h : db.episodes.any (fun r => r.plex_key = k) = true
  · simp [insertPlexEpisode, h]
    simp only [List.any_eq_true, decide_eq_true_eq] at h
    exact h
  · simp only [insertPlexEpisode]
    rw [if_neg h]
    exact ⟨_, List.mem_append_right _ (List.mem_singleton_self _), rfl⟩

theorem insertPlexFile_of_has {db : PlexDB} {k : String × String} (sid eid : Nat)
    (now : String) (h : plexFileHas db.files k) : insertPlexFile db k sid eid now = db := by
  have ha : db.files.any (fun r => plexFileKey r = k) = true := plex_any_key.mpr h
  simp [insertPlexFile, ha]

theorem insertPlexFile_files (db : PlexDB) (k : String × String) (sid eid : Nat)
    (now : String) :
    (insertPlexFile db k sid eid now).files = db.files ∨
      (¬ plexFileHas db.files k ∧
        (insertPlexFile db k sid eid now).files
          = db.files ++ [⟨db.nextFileId, k.1, k.2, sid, eid, now, none⟩]) := by
  by_cases h : db.files.any (fun r => plexFileKey r = k) = true
  · left; simp [insertPlexFile, h]
  · right
    refine ⟨fun hf => h (plex_any_key.mpr hf), ?_⟩
    simp only [insertPlexFile]
    rw [if_neg h]

theorem insertPlexFile_series (db : PlexDB) (k : String × String) (sid eid : Nat)
    (now : String) : (insertPlexFile db k sid eid now).series = db.series := by
  by_cases h : db.files.any (fun r => plexFileKey r = k) = true <;>
    simp [insertPlexFile, h]

theorem insertPlexFile_episodes (db : PlexDB) (k : String × String) (sid eid : Nat)
    (now : String) : (insertPlexFile db k sid eid now).episodes = db.episodes := by
  by_cases h : db.files.any (fun r => plexFileKey r = k) = true <;>
    simp [insertPlexFile, h]

theorem clearPlexRemoved_series (db : PlexDB) (k : String × String) :
    (clearPlexRemoved db k).series = db.series := rfl

theorem clearPlexRemoved_episodes (db : PlexDB) (k : String × String) :
    (clearPlexRemoved db k).episodes = db.episodes := rfl

theorem insertPlexEpisode_files (db : PlexDB) (k : String) (sid : Nat) (sn en : Option String) :
    (insertPlexEpisode db k sid sn en).files = db.files := by
  by_cases h : db.episodes.any (fun r => r.plex_key = k) = true <;>
    simp [insertPlexEpisode, h]

theorem insertPlexEpisode_series (db : PlexDB) (k : String) (sid : Nat) (sn en : Option String) :
    (insertPlexEpisode db k sid sn en).series = db.series := by
  by_cases h : db.episodes.any (fun r => r.plex_key = k) = true <;>
    simp [insertPlexEpisode, h]

theorem insertPlexEpisode_nextFileId (db : PlexDB) (k : String) (sid : Nat)
    (sn en : Option String) :
    (insertPlexEpisode db k sid sn en).nextFileId = db.nextFileId := by
  by_cases h : db.episodes.any (fun r => r.plex_key = k) = true <;>
    simp [insertPlexEpisode, h]

theorem insertPlexEpisode_episodes (db : PlexDB) (k : String) (sid : Nat)
    (sn en : Option String) :
    (insertPlexEpisode db k sid sn en).episodes = db.episodes ∨
      (insertPlexEpisode db k sid sn en).episodes
        = db.episodes ++ [⟨db.nextEpisodeId, k, sid, sn, en⟩] := by
  by_cases h : db.episodes.any (fun r => r.plex_key = k) = true
  · left; simp [insertPlexEpisode, h]
  · right
    simp only [insertPlexEpisode]
    rw [if_neg h]

theorem insertPlexSeries_series (db : PlexDB) (k t : String) :
    (insertPlexSeries db k t).series = db.series ∨
      (insertPlexSeries db k t).series = db.series ++ [⟨db.nextSeriesId, k, t⟩] := by
  by_cases h : db.series.any (fun r => r.plex_key = k) = true
  · left; simp [insertPlexSeries, h]
  · right
    simp only [insertPlexSeries]
    rw [if_neg h]

theorem insertPlexSeries_files (db : PlexDB) (k t : String) :
    (insertPlexSeries db k t).files = db.files := by
  by_cases h : db.series.any (fun r => r.plex_key = k) = true <;>
    simp [insertPlexSeries, h]

theorem insertPlexSeries_episodes (db : PlexDB) (k t : String) :
    (insertPlexSeries db k t).episodes = db.episodes := by
  by_cases h : db.series.any (fun r => r.plex_key = k) = true <;>
    simp [insertPlexSeries, h]

/-- Unrolling the Plex finalization fold over a duplicate-free snapshot of
composite keys. -/
theorem plexFinalizeAux (now : String) (seen : List (String × String)) :
    ∀ (ps : List (String × String)) (files : List PlexFileRow), ps.Nodup →
      ps.foldl
        (fun fs k => if k ∈ seen then fs
          else fs.map (fun r => if plexFileKey r = k
            then { r with removed_date := some now } else r))
        files
      = files.map (fun r => if plexFileKey r ∈ ps ∧ plexFileKey r ∉ seen
          then { r with removed_date := some now } else r) := by
  intro ps
  induction ps with
  | nil =>
    intro files _
    simp
  | cons p ps ih =>
    intro files hnd
    rw [List.foldl_cons]
    rcases List.nodup_cons.mp hnd with ⟨hp, hnd'⟩
    by_cases hs : p ∈ seen
    · rw [if_pos hs, ih files hnd']
      apply List.map_congr_left
      intro r _
      by_cases h1 : plexFileKey r ∈ ps ∧ plexFileKey r ∉ seen
      · rw [if_pos h1, if_pos ⟨List.mem_cons_of_mem _ h1.1, h1.2⟩]
      · rw [if_neg h1, if_neg ?_]
        rintro ⟨hm, hns⟩
        rcases List.mem_cons.mp hm with he | hm'
        · exact hns (he ▸ hs)
        · exact h1 ⟨hm', hns⟩
    · rw [if_neg hs, ih _ hnd', List.map_map]
      apply List.map_congr_left
      intro r _
      by_cases he : plexFileKey r = p
      · simp only [Function.comp_apply, if_pos he]
        have h1 : ¬ (plexFileKey ({ r with removed_date := some now } : PlexFileRow) ∈ ps
            ∧ plexFileKey ({ r with removed_date := some now } : PlexFileRow) ∉ seen) := by
          rintro ⟨hm, _⟩
          rw [plex_upd_key, he] at hm
          exact hp hm
        rw [if_neg h1, if_pos ⟨List.mem_cons.mpr (Or.inl he), he ▸ hs⟩]
      · simp only [Function.comp_apply, if_neg he]
        by_cases h1 : plexFileKey r ∈ ps ∧ plexFileKey r ∉ seen
        · rw [if_pos h1, if_pos ⟨List.mem_cons_of_mem _ h1.1, h1.2⟩]
        · rw [if_neg h1, if_neg ?_]
          rintro ⟨hm, hns⟩
          rcases List.mem_cons.mp hm with hee | hm'
          · exact he hee
          · exact h1 ⟨hm', hns⟩

/-- Under the composite-key uniqueness constraint, Plex finalization is
exactly the set-difference map. -/
theorem plexFinalize_eq_map (now : String) (seen : List (String × String))
    (files : List PlexFileRow) (h : plexWF files) :
    plexFinalize now seen files
      = files.map (fun r => if r.removed_date = none ∧ plexFileKey r ∉ seen
          then { r with removed_date := some now } else r) := by
  have hnd : ((files.filter (fun r => r.removed_date = none)).map plexFileKey).Nodup :=
    List.Nodup.sublist (List.Sublist.map _ (List.filter_sublist files)) h
  unfold plexFinalize
  rw [plexFinalizeAux now seen _ files hnd]
  apply List.map_congr_left
  intro r hr
  have hiff :
      (plexFileKey r ∈ (files.filter (fun r => r.removed_date = none)).map plexFileKey
        ↔ r.removed_date = none) := by
    constructor
    · intro hm
      rcases List.mem_map.mp hm with ⟨q, hq, hpq⟩
      have hq' := List.mem_filter.mp hq
      have hqr : q = r := List.inj_on_of_nodup_map h hq'.1 hr hpq
      have := hq'.2
      rw [hqr] at this
      simpa using this
    · intro hrm
      exact List.mem_map.mpr ⟨r, List.mem_filter.mpr ⟨hr, by simp [hrm]⟩, rfl⟩
  exact if_congr (and_congr_left fun _ => hiff) rfl rfl

theorem plexFinalize_keys (now : String) (seen : List (String × String))
    (files : List PlexFileRow) :
    (plexFinalize now seen files).map plexFileKey = files.map plexFileKey := by
  unfold plexFinalize
  refine foldl_preserve
    (fun fs => fs.map plexFileKey = files.map plexFileKey) _ ?_ _ files rfl
  intro fs k hfs
  by_cases hk : k ∈ seen
  · rwa [if_pos hk]
  · rw [if_neg hk, List.map_map, ← hfs]
    apply List.map_congr_left
    intro r _
    by_cases he : plexFileKey r = k <;> simp [he]

theorem clearPlexRemoved_keys (db : PlexDB) (k : String × String) :
    ((clearPlexRemoved db k).files).map plexFileKey = db.files.map plexFileKey := by
  simp only [clearPlexRemoved, List.map_map]
  apply List.map_congr_left
  intro r _
  by_cases he : plexFileKey r = k <;> simp [he]

theorem plexClear_key_preserving (k : String × String) :
    ∀ r : PlexFileRow,
      plexFileKey ((fun r => if plexFileKey r = k
        then { r with removed_date := none } else r) r) = plexFileKey r := by
  intro r
  by_cases he : plexFileKey r = k <;> simp [he]

theorem plexFileHas_map {files : List PlexFileRow} {f : PlexFileRow → PlexFileRow}
    (hf : ∀ r, plexFileKey (f r) = plexFileKey r) {k : String × String}
    (h : plexFileHas files k) : plexFileHas (files.map f) k := by
  rcases h with ⟨r, hr, hk⟩
  exact ⟨f r, List.mem_map_of_mem f hr, by rw [hf r, hk]⟩

theorem plexFileHas_clear {db : PlexDB} {k q : String × String} (h : plexFileHas db.files k) :
    plexFileHas (clearPlexRemoved db q).files k :=
  plexFileHas_map (plexClear_key_preserving q) h

theorem plexFileHas_insert {db : PlexDB} {k q : String × String} (sid eid : Nat)
    (now : String) (h : plexFileHas db.files k) :
    plexFileHas (insertPlexFile db q sid eid now).files k := by
  rcases insertPlexFile_files db q sid eid now with hf | ⟨_, hf⟩
  · rwa [hf]
  · rw [hf]
    rcases h with ⟨r, hr, hk⟩
    exact ⟨r, List.mem_append_left _ hr, hk⟩

theorem plexFileHas_insert_self (db : PlexDB) (k : String × String) (sid eid : Nat)
    (now : String) : plexFileHas (insertPlexFile db k sid eid now).files k := by
  by_cases h : db.files.any (fun r => plexFileKey r = k) = true
  · simp only [insertPlexFile, if_pos h]
    exact plex_any_key.mp h
  · simp only [insertPlexFile, if_neg h]
    exact ⟨_, List.mem_append_right _ (List.mem_singleton_self _), rfl⟩

theorem plexAllNone_clear {db : PlexDB} {k q : String × String}
    (h : plexAllNone db.files k) : plexAllNone (clearPlexRemoved db q).files k := by
  intro r' hr' hk'
  rcases List.mem_map.mp hr' with ⟨r, hr, hfr⟩
  subst hfr
  rw [plexClear_key_preserving q r] at hk'
  by_cases he : plexFileKey r = q
  · simp [he]
  · simp only [if_neg he]
    exact h r hr hk'

theorem plexAllNone_clear_self (db : PlexDB) (k : String × String) :
    plexAllNone (clearPlexRemoved db k).files k := by
  intro r' hr' hk'
  rcases List.mem_map.mp hr' with ⟨r, hr, hfr⟩
  subst hfr
  rw [plexClear_key_preserving k r] at hk'
  simp [hk']

theorem plexAllNone_insert {db : PlexDB} {k q : String × String} (sid eid : Nat)
    (now : String) (h : plexAllNone db.files k) :
    plexAllNone (insertPlexFile db q sid eid now).files k := by
  rcases insertPlexFile_files db q sid eid now with hf | ⟨_, hf⟩
  · rwa [hf]
  · rw [hf]
    intro r hr hk
    rcases List.mem_append.mp hr with hr | hr
    · exact h r hr hk
    · rw [List.mem_singleton.mp hr]

theorem plexFileHas_iff {files : List PlexFileRow} {k : String × String} :
    plexFileHas files k ↔ k ∈ files.map plexFileKey := by
  simp [plexFileHas, List.mem_map]

theorem plexWF_insert {db : PlexDB} {k : String × String} (sid eid : Nat)
    (now : String) (h : plexWF db.files) :
    plexWF (insertPlexFile db k sid eid now).files := by
  rcases insertPlexFile_files db k sid eid now with hf | ⟨hno, hf⟩
  · rwa [plexWF, hf]
  · rw [plexWF, hf, List.map_append]
    have hk : k ∉ db.files.map plexFileKey := fun hm => hno (plexFileHas_iff.mpr hm)
    have h' : (db.files.map plexFileKey).Nodup := h
    have hsing : plexFileKey (⟨db.nextFileId, k.1, k.2, sid, eid, now, none⟩ : PlexFileRow)
        = k := rfl
    simp [List.nodup_append, hk, h', hsing]

theorem plexWF_clear {db : PlexDB} (k : String × String) (h : plexWF db.files) :
    plexWF (clearPlexRemoved db k).files := by
  rw [plexWF, clearPlexRemoved_keys]
  exact h

theorem plexWF_finalize {files : List PlexFileRow} (now : String)
    (seen : List (String × String)) (h : plexWF files) :
    plexWF (plexFinalize now seen files) := by
  rw [plexWF, plexFinalize_keys]
  exact h

theorem plexStepPart_stable {P : PlexDB → Prop} (hP : PlexStable P) (now : String)
    (sid eid : Nat) (st : PlexPass) (part : PlexPartObs) (h : P st.db) :
    P (plexStepPart now sid eid st part).db :=
  hP.2.2.2 _ _ (hP.2.2.1 _ _ _ _ _ h)

theorem plexStepEpisode_stable {P : PlexDB → Prop} (hP : PlexStable P) (now : String)
    (sid : Nat) (sn : Option String) (st : PlexPass) (ep : PlexEpisodeObs) (h : P st.db) :
    P (plexStepEpisode now sid sn st ep).db := by
  simp only [plexStepEpisode]
  refine foldl_preserve (fun s : PlexPass => P s.db) _ ?_ _ _ ?_
  · intro s part hs
    exact plexStepPart_stable hP now sid _ s part hs
  · exact hP.2.1 _ _ _ _ _ h

theorem plexStepSeason_stable {P : PlexDB → Prop} (hP : PlexStable P) (now : String)
    (sid : Nat) (st : PlexPass) (season : PlexSeasonObs) (h : P st.db) :
    P (plexStepSeason now sid st season).db := by
  simp only [plexStepSeason]
  exact foldl_preserve (fun s : PlexPass => P s.db) _
    (fun s ep hs => plexStepEpisode_stable hP now sid _ s ep hs) _ _ h

theorem plexStepShow_stable {P : PlexDB → Prop} (hP : PlexStable P) (now : String)
    (st : PlexPass) (sh : PlexShowObs) (h : P st.db) :
    P (plexStepShow now st sh).db := by
  simp only [plexStepShow]
  refine foldl_preserve (fun s : PlexPass => P s.db) _ ?_ _ _ ?_
  · intro s season hs
    exact plexStepSeason_stable hP now _ s season hs
  · exact hP.1 _ _ _ h

theorem plexStepSection_stable {P : PlexDB → Prop} (hP : PlexStable P) (now : String)
    (st : PlexPass) (sec : PlexSectionObs) (h : P st.db) :
    P (plexStepSection now st sec).db := by
  simp only [plexStepSection]
  exact foldl_preserve (fun s : PlexPass => P s.db) _
    (fun s sh hs => plexStepShow_stable hP now s sh hs) _ _ h

theorem plexStream_stable {P : PlexDB → Prop} (hP : PlexStable P) (now : String)
    (obs : List PlexSectionObs) (st : PlexPass) (h : P st.db) :
    P (obs.foldl (plexStepSection now) st).db :=
  foldl_preserve (fun s : PlexPass => P s.db) _
    (fun s sec hs => plexStepSection_stable hP now s sec hs) _ _ h

theorem plexStable_fileHas (k : String × String) :
    PlexStable (fun db => plexFileHas db.files k) := by
  refine ⟨?_, ?_, ?_, ?_⟩
  · intro db k' t h
    rwa [insertPlexSeries_files]
  · intro db k' sid sn en h
    rwa [insertPlexEpisode_files]
  · intro db k' sid eid now h
    exact plexFileHas_insert sid eid now h
  · intro db k' h
    exact plexFileHas_clear h

theorem plexStable_allNone (k : String × String) :
    PlexStable (fun db => plexAllNone db.files k) := by
  refine ⟨?_, ?_, ?_, ?_⟩
  · intro db k' t h
    rwa [insertPlexSeries_files]
  · intro db k' sid sn en h
    rwa [insertPlexEpisode_files]
  · intro db k' sid eid now h
    exact plexAllNone_insert sid eid now h
  · intro db k' h
    exact plexAllNone_clear h

theorem plexStable_seriesHas (k : String) :
    PlexStable (fun db => plexSeriesHas db k) := by
  refine ⟨?_, ?_, ?_, ?_⟩
  · intro db k' t h
    rcases insertPlexSeries_series db k' t with hs | hs
    · rwa [plexSeriesHas, hs]
    · rw [plexSeriesHas, hs]
      rcases h with ⟨r, hr, hk⟩
      exact ⟨r, List.mem_append_left _ hr, hk⟩
  · intro db k' sid sn en h
    rwa [plexSeriesHas, insertPlexEpisode_series]
  · intro db k' sid eid now h
    rwa [plexSeriesHas, insertPlexFile_series]
  · intro db k' h
    rwa [plexSeriesHas, clearPlexRemoved_series]

theorem plexStable_episodeHas (k : String) :
    PlexStable (fun db => plexEpisodeHas db k) := by
  refine ⟨?_, ?_, ?_, ?_⟩
  · intro db k' t h
    rwa [plexEpisodeHas, insertPlexSeries_episodes]
  · intro db k' sid sn en h
    rcases insertPlexEpisode_episodes db k' sid sn en with hs | hs
    · rwa [plexEpisodeHas, hs]
    · rw [plexEpisodeHas, hs]
      rcases h with ⟨r, hr, hk⟩
      exact ⟨r, List.mem_append_left _ hr, hk⟩
  · intro db k' sid eid now h
    rwa [plexEpisodeHas, insertPlexFile_episodes]
  · intro db k' h
    rwa [plexEpisodeHas, clearPlexRemoved_episodes]

theorem plexStable_WF : PlexStable (fun db => plexWF db.files) := by
  refine ⟨?_, ?_, ?_, ?_⟩
  · intro db k t h
    rwa [insertPlexSeries_files]
  · intro db k sid sn en h
    rwa [insertPlexEpisode_files]
  · intro db k sid eid now h
    exact plexWF_insert sid eid now h
  · intro db k h
    exact plexWF_clear k h

theorem PlexStable.and {P Q : PlexDB → Prop} (hP : PlexStable P) (hQ : PlexStable Q) :
    PlexStable (fun db => P db ∧ Q db) := by
  refine ⟨?_, ?_, ?_, ?_⟩
  · exact fun db k t h => ⟨hP.1 db k t h.1, hQ.1 db k t h.2⟩
  · exact fun db k sid sn en h => ⟨hP.2.1 db k sid sn en h.1, hQ.2.1 db k sid sn en h.2⟩
  · exact fun db k sid eid now h => ⟨hP.2.2.1 db k sid eid now h.1, hQ.2.2.1 db k sid eid now h.2⟩
  · exact fun db k h => ⟨hP.2.2.2 db k h.1, hQ.2.2.2 db k h.2⟩

theorem PlexStable.forall_mem {β : Type _} (l : List β) (Q : β → PlexDB → Prop)
    (hQ : ∀ b ∈ l, PlexStable (Q b)) : PlexStable (fun db => ∀ b ∈ l, Q b db) := by
  refine ⟨?_, ?_, ?_, ?_⟩
  · exact fun db k t h b hb => (hQ b hb).1 db k t (h b hb)
  · exact fun db k sid sn en h b hb => (hQ b hb).2.1 db k sid sn en (h b hb)
  · exact fun db k sid eid now h b hb => (hQ b hb).2.2.1 db k sid eid now (h b hb)
  · exact fun db k h b hb => (hQ b hb).2.2.2 db k (h b hb)

theorem plexStable_epFacts (ep : PlexEpisodeObs) : PlexStable (fun db => plexEpFacts db ep) :=
  PlexStable.and (plexStable_episodeHas ep.key)
    (PlexStable.forall_mem ep.parts _ (fun part _ =>
      PlexStable.and (plexStable_fileHas (plexPartKey part))
        (plexStable_allNone (plexPartKey part))))

theorem plexStable_showFacts (sh : PlexShowObs) : PlexStable (fun db => plexShowFacts db sh) :=
  PlexStable.and (plexStable_seriesHas sh.key)
    (PlexStable.forall_mem sh.seasons _ (fun season _ =>
      PlexStable.forall_mem season.episodes _ (fun ep _ => plexStable_epFacts ep)))

theorem plexStepPart_establishes (now : String) (sid eid : Nat) (st : PlexPass)
    (part : PlexPartObs) :
    plexFileHas (plexStepPart now sid eid st part).db.files (plexPartKey part) ∧
    plexAllNone (plexStepPart now sid eid st part).db.files (plexPartKey part) := by
  constructor
  · exact plexFileHas_clear (plexFileHas_insert_self _ _ _ _ _)
  · exact plexAllNone_clear_self _ _

theorem plexStepEpisode_establishes (now : String) (sid : Nat) (sn : Option String)
    (st : PlexPass) (ep : PlexEpisodeObs) :
    plexEpFacts (plexStepEpisode now sid sn st ep).db ep := by
  simp only [plexStepEpisode]
  constructor
  · refine foldl_preserve (fun s : PlexPass => plexEpisodeHas s.db ep.key) _ ?_ _ _ ?_
    · intro s part hs
      exact plexStepPart_stable (plexStable_episodeHas ep.key) now sid _ s part hs
    · show plexEpisodeHas (insertPlexEpisode st.db ep.key sid sn ep.index) ep.key
      exact plexEpisodeHas_insert st.db ep.key sid sn ep.index
  · intro part hpart
    refine foldl_establish (fun (p : PlexPartObs) (s : PlexPass) =>
      plexFileHas s.db.files (plexPartKey p) ∧ plexAllNone s.db.files (plexPartKey p))
      _ ?_ ?_ _ _ part hpart
    · intro s p
      exact plexStepPart_establishes now sid _ s p
    · intro s p c ⟨h1, h2⟩
      exact ⟨plexStepPart_stable (plexStable_fileHas _) now sid _ s p h1,
        plexStepPart_stable (plexStable_allNone _) now sid _ s p h2⟩

theorem plexStepSeason_establishes (now : String) (sid : Nat) (st : PlexPass)
    (season : PlexSeasonObs) :
    ∀ ep ∈ season.episodes, plexEpFacts (plexStepSeason now sid st season).db ep := by
  simp only [plexStepSeason]
  refine foldl_establish (fun (ep : PlexEpisodeObs) (s : PlexPass) => plexEpFacts s.db ep)
    _ ?_ ?_ _ _
  · intro s ep
    exact plexStepEpisode_establishes now sid _ s ep
  · intro s ep c h
    exact plexStepEpisode_stable (plexStable_epFacts c) now sid _ s ep h

theorem plexStepShow_establishes (now : String) (st : PlexPass) (sh : PlexShowObs) :
    plexShowFacts (plexStepShow now st sh).db sh := by
  simp only [plexStepShow]
  constructor
  · refine foldl_preserve (fun s : PlexPass => plexSeriesHas s.db sh.key) _ ?_ _ _ ?_
    · intro s season hs
      exact plexStepSeason_stable (plexStable_seriesHas sh.key) now _ s season hs
    · show plexSeriesHas (insertPlexSeries st.db sh.key sh.title) sh.key
      exact plexSeriesHas_insert st.db sh.key sh.title
  · intro season hseason
    refine foldl_establish (fun (se : PlexSeasonObs) (s : PlexPass) =>
      ∀ ep ∈ se.episodes, plexEpFacts s.db ep) _ ?_ ?_ _ _ season hseason
    · intro s se
      exact plexStepSeason_establishes now _ s se
    · intro s se c h
      exact plexStepSeason_stable
        (PlexStable.forall_mem c.episodes _ (fun ep _ => plexStable_epFacts ep)) now _ s se h

theorem plexStepSection_establishes (now : String) (st : PlexPass) (sec : PlexSectionObs) :
    ∀ sh ∈ sec.shows, plexShowFacts (plexStepSection now st sec).db sh := by
  simp only [plexStepSection]
  refine foldl_establish (fun (sh : PlexShowObs) (s : PlexPass) => plexShowFacts s.db sh)
    _ ?_ ?_ _ _
  · intro s sh
    exact plexStepShow_establishes now s sh
  · intro s sh c h
    exact plexStepShow_stable (plexStable_showFacts c) now s sh h

theorem plexStream_establishes (now : String) (obs : List PlexSectionObs) (st : PlexPass) :
    ∀ sec ∈ obs, ∀ sh ∈ sec.shows,
      plexShowFacts (obs.foldl (plexStepSection now) st).db sh := by
  intro sec hsec
  have := foldl_establish (fun (se : PlexSectionObs) (s : PlexPass) =>
    ∀ sh ∈ se.shows, plexShowFacts s.db sh) (plexStepSection now) ?_ ?_ obs st sec hsec
  · exact this
  · intro s se
    exact plexStepSection_establishes now s se
  · intro s se c h
    exact plexStepSection_stable
      (PlexStable.forall_mem c.shows _ (fun sh _ => plexStable_showFacts sh)) now s se h

theorem plexStepPart_seen (now : String) (sid eid : Nat) (st : PlexPass)
    (part : PlexPartObs) :
    (plexStepPart now sid eid st part).seen = st.seen ++ [plexPartKey part] := rfl

theorem plexPartsFold_seen (now : String) (sid eid : Nat) :
    ∀ (parts : List PlexPartObs) (st : PlexPass),
      (parts.foldl (plexStepPart now sid eid) st).seen
        = st.seen ++ parts.map plexPartKey := by
  intro parts
  induction parts with
  | nil => intro st; simp
  | cons p parts ih =>
    intro st
    rw [List.foldl_cons, ih, plexStepPart_seen, List.map_cons, List.append_assoc]
    rfl

theorem plexStepEpisode_seen (now : String) (sid : Nat) (sn : Option String)
    (st : PlexPass) (ep : PlexEpisodeObs) :
    (plexStepEpisode now sid sn st ep).seen = st.seen ++ plexEpisodeKeys ep := by
  simp only [plexStepEpisode]
  rw [plexPartsFold_seen]
  rfl

theorem plexSeasonFold_seen (now : String) (sid : Nat) (sn : Option String) :
    ∀ (eps : List PlexEpisodeObs) (st : PlexPass),
      (eps.foldl (plexStepEpisode now sid sn) st).seen = st.seen ++ plexSeasonKeys eps := by
  intro eps
  induction eps with
  | nil => intro st; simp [plexSeasonKeys]
  | cons ep eps ih =>
    intro st
    rw [List.foldl_cons, ih, plexStepEpisode_seen, plexSeasonKeys, List.append_assoc]

theorem plexStepSeason_seen (now : String) (sid : Nat) (st : PlexPass)
    (season : PlexSeasonObs) :
    (plexStepSeason now sid st season).seen = st.seen ++ plexSeasonKeys season.episodes := by
  simp only [plexStepSeason]
  rw [plexSeasonFold_seen]

theorem plexStepShow_seen (now : String) (st : PlexPass) (sh : PlexShowObs) :
    (plexStepShow now st sh).seen = st.seen ++ plexShowKeys sh.seasons := by
  simp only [plexStepShow]
  have : ∀ (seasons : List PlexSeasonObs) (s : PlexPass) (sid : Nat),
      (seasons.foldl (plexStepSeason now sid) s).seen = s.seen ++ plexShowKeys seasons := by
    intro seasons
    induction seasons with
    | nil => intro s sid; simp [plexShowKeys]
    | cons se seasons ih =>
      intro s sid
      rw [List.foldl_cons, ih, plexStepSeason_seen, plexShowKeys, List.append_assoc]
  rw [this]

theorem plexStepSection_seen (now : String) (st : PlexPass) (sec : PlexSectionObs) :
    (plexStepSection now st sec).seen = st.seen ++ plexSectionKeys sec.shows := by
  simp only [plexStepSection]
  have : ∀ (shows : List PlexShowObs) (s : PlexPass),
      (shows.foldl (plexStepShow now) s).seen = s.seen ++ plexSectionKeys shows := by
    intro shows
    induction shows with
    | nil => intro s; simp [plexSectionKeys]
    | cons sh shows ih =>
      intro s
      rw [List.foldl_cons, ih, plexStepShow_seen, plexSectionKeys, List.append_assoc]
  rw [this]

theorem plexStream_seen (now : String) :
    ∀ (obs : List PlexSectionObs) (st : PlexPass),
      (obs.foldl (plexStepSection now) st).seen = st.seen ++ plexObsKeys obs := by
  intro obs
  induction obs with
  | nil => intro st; simp [plexObsKeys]
  | cons sec obs ih =>
    intro st
    rw [List.foldl_cons, ih, plexStepSection_seen, plexObsKeys, List.append_assoc]

theorem mem_plexSeasonKeys {eps : List PlexEpisodeObs} {ep : PlexEpisodeObs}
    (hep : ep ∈ eps) {part : PlexPartObs} (hpart : part ∈ ep.parts) :
    plexPartKey part ∈ plexSeasonKeys eps := by
  induction eps with
  | nil => cases hep
  | cons e eps ih =>
    rcases List.mem_cons.mp hep with h | h
    · subst h
      exact List.mem_append_left _ (List.mem_map_of_mem _ hpart)
    · exact List.mem_append_right _ (ih h)

theorem mem_plexShowKeys {seasons : List PlexSeasonObs} {season : PlexSeasonObs}
    (hs : season ∈ seasons) {ep : PlexEpisodeObs} (hep : ep ∈ season.episodes)
    {part : PlexPartObs} (hpart : part ∈ ep.parts) :
    plexPartKey part ∈ plexShowKeys seasons := by
  induction seasons with
  | nil => cases hs
  | cons se seasons ih =>
    rcases List.mem_cons.mp hs with h | h
    · subst h
      exact List.mem_append_left _ (mem_plexSeasonKeys hep hpart)
    · exact List.mem_append_right _ (ih h)

theorem mem_plexSectionKeys {shows : List PlexShowObs} {sh : PlexShowObs}
    (hsh : sh ∈ shows) {season : PlexSeasonObs} (hs : season ∈ sh.seasons)
    {ep : PlexEpisodeObs} (hep : ep ∈ season.episodes)
    {part : PlexPartObs} (hpart : part ∈ ep.parts) :
    plexPartKey part ∈ plexSectionKeys shows := by
  induction shows with
  | nil => cases hsh
  | cons s shows ih =>
    rcases List.mem_cons.mp hsh with h | h
    · subst h
      exact List.mem_append_left _ (mem_plexShowKeys hs hep hpart)
    · exact List.mem_append_right _ (ih h)

theorem mem_plexObsKeys {obs : List PlexSectionObs} {sec : PlexSectionObs}
    (hsec : sec ∈ obs) {sh : PlexShowObs} (hsh : sh ∈ sec.shows)
    {season : PlexSeasonObs} (hs : season ∈ sh.seasons)
    {ep : PlexEpisodeObs} (hep : ep ∈ season.episodes)
    {part : PlexPartObs} (hpart : part ∈ ep.parts) :
    plexPartKey part ∈ plexObsKeys obs := by
  induction obs with
  | nil => cases hsec
  | cons se obs ih =>
    rcases List.mem_cons.mp hsec with h | h
    · subst h
      exact List.mem_append_left _ (mem_plexSectionKeys hsh hs hep hpart)
    · exact List.mem_append_right _ (ih h)

theorem plexSeasonKeys_mem :
    ∀ {eps : List PlexEpisodeObs} {k : String × String}, k ∈ plexSeasonKeys eps →
      ∃ ep ∈ eps, ∃ part ∈ ep.parts, plexPartKey part = k := by
  intro eps
  induction eps with
  | nil => intro k hk; cases hk
  | cons ep eps ih =>
    intro k hk
    rcases List.mem_append.mp hk with h | h
    · rcases List.mem_map.mp h with ⟨part, hpart, hkey⟩
      exact ⟨ep, List.mem_cons_self _ _, part, hpart, hkey⟩
    · rcases ih h with ⟨ep', hep', part, hpart, hkey⟩
      exact ⟨ep', List.mem_cons_of_mem _ hep', part, hpart, hkey⟩

theorem plexShowKeys_mem :
    ∀ {seasons : List PlexSeasonObs} {k : String × String}, k ∈ plexShowKeys seasons →
      ∃ season ∈ seasons, ∃ ep ∈ season.episodes, ∃ part ∈ ep.parts, plexPartKey part = k := by
  intro seasons
  induction seasons with
  | nil => intro k hk; cases hk
  | cons se seasons ih =>
    intro k hk
    rcases List.mem_append.mp hk with h | h
    · rcases plexSeasonKeys_mem h with ⟨ep, hep, part, hpart, hkey⟩
      exact ⟨se, List.mem_cons_self _ _, ep, hep, part, hpart, hkey⟩
    · rcases ih h with ⟨se', hse', rest⟩
      exact ⟨se', List.mem_cons_of_mem _ hse', rest⟩

theorem plexSectionKeys_mem :
    ∀ {shows : List PlexShowObs} {k : String × String}, k ∈ plexSectionKeys shows →
      ∃ sh ∈ shows, ∃ season ∈ sh.seasons, ∃ ep ∈ season.episodes,
        ∃ part ∈ ep.parts, plexPartKey part = k := by
  intro shows
  induction shows with
  | nil => intro k hk; cases hk
  | cons sh shows ih =>
    intro k hk
    rcases List.mem_append.mp hk with h | h
    · rcases plexShowKeys_mem h with ⟨season, hs, rest⟩
      exact ⟨sh, List.mem_cons_self _ _, season, hs, rest⟩
    · rcases ih h with ⟨sh', hsh', rest⟩
      exact ⟨sh', List.mem_cons_of_mem _ hsh', rest⟩

theorem plexObsKeys_mem :
    ∀ {obs : List PlexSectionObs} {k : String × String}, k ∈ plexObsKeys obs →
      ∃ sec ∈ obs, ∃ sh ∈ sec.shows, ∃ season ∈ sh.seasons, ∃ ep ∈ season.episodes,
        ∃ part ∈ ep.parts, plexPartKey part = k := by
  intro obs
  induction obs with
  | nil => intro k hk; cases hk
  | cons sec obs ih =>
    intro k hk
    rcases List.mem_append.mp hk with h | h
    · rcases plexSectionKeys_mem h with ⟨sh, hsh, rest⟩
      exact ⟨sec, List.mem_cons_self _ _, sh, hsh, rest⟩
    · rcases ih h with ⟨sec', hsec', rest⟩
      exact ⟨sec', List.mem_cons_of_mem _ hsec', rest⟩

theorem plexFileHas_finalize {files : List PlexFileRow} {k : String × String} (now : String)
    (seen : List (String × String)) (h : plexFileHas files k) :
    plexFileHas (plexFinalize now seen files) k := by
  rw [plexFileHas_iff, plexFinalize_keys]
  exact plexFileHas_iff.mp h

theorem plexAllNone_finalize_of_seen {files : List PlexFileRow} {k : String × String}
    {now : String} {seen : List (String × String)} (hk : k ∈ seen)
    (h : plexAllNone files k) : plexAllNone (plexFinalize now seen files) k := by
  unfold plexFinalize
  refine foldl_preserve (fun fs => plexAllNone fs k) _ ?_ _ files h
  intro fs k' hQ
  by_cases hs : k' ∈ seen
  · rwa [if_pos hs]
  · rw [if_neg hs]
    intro r' hr' hkr'
    rcases List.mem_map.mp hr' with ⟨r, hr, hfr⟩
    subst hfr
    have hkey :
        plexFileKey ((if plexFileKey r = k' then { r with removed_date := some now } else r) :
          PlexFileRow) = plexFileKey r := by
      by_cases he : plexFileKey r = k' <;> simp [he]
    rw [hkey] at hkr'
    have hne : plexFileKey r ≠ k' := by
      rw [hkr']
      intro hc
      exact hs (hc ▸ hk)
    rw [if_neg hne]
    exact hQ r hr hkr'

theorem plexFinalize_active_seen {files : List PlexFileRow} {now : String}
    {seen : List (String × String)} (h : plexWF files) :
    ∀ r ∈ plexFinalize now seen files, r.removed_date = none → plexFileKey r ∈ seen := by
  rw [plexFinalize_eq_map now seen files h]
  intro r' hr' hact
  rcases List.mem_map.mp hr' with ⟨r, hr, hfr⟩
  subst hfr
  by_cases hc : r.removed_date = none ∧ plexFileKey r ∉ seen
  · rw [if_pos hc] at hact
    simp at hact
  · rw [if_neg hc] at hact ⊢
    push_neg at hc
    exact hc hact

theorem plexFinalize_marks {files : List PlexFileRow} {k : String × String} {now : String}
    {seen : List (String × String)} (hWF : plexWF files) (hns : k ∉ seen)
    (hact : plexRemovedIs files k none) :
    plexRemovedIs (plexFinalize now seen files) k (some now) := by
  rw [plexFinalize_eq_map now seen files hWF]
  intro r' hr' hk'
  rcases List.mem_map.mp hr' with ⟨r, hr, hfr⟩
  subst hfr
  by_cases hc : r.removed_date = none ∧ plexFileKey r ∉ seen
  · rw [if_pos hc] at hk' ⊢
  · rw [if_neg hc] at hk' ⊢
    refine absurd ⟨hact r hr hk', ?_⟩ hc
    rw [hk']
    exact hns

theorem plexRemovedIs_finalize_some {files : List PlexFileRow} {k : String × String}
    {now : String} {seen : List (String × String)} {t : String} (hWF : plexWF files)
    (h : plexRemovedIs files k (some t)) :
    plexRemovedIs (plexFinalize now seen files) k (some t) := by
  rw [plexFinalize_eq_map now seen files hWF]
  intro r' hr' hk'
  rcases List.mem_map.mp hr' with ⟨r, hr, hfr⟩
  subst hfr
  by_cases hc : r.removed_date = none ∧ plexFileKey r ∉ seen
  · rw [if_pos hc] at hk' ⊢
    rw [plex_upd_key] at hk'
    have := h r hr hk'
    rw [hc.1] at this
    cases this
  · rw [if_neg hc] at hk' ⊢
    exact h r hr hk'

theorem clearPlexRemoved_of_allNone {db : PlexDB} {k : String × String}
    (h : plexAllNone db.files k) : clearPlexRemoved db k = db := by
  have hm : db.files.map
      (fun r => if plexFileKey r = k then { r with removed_date := none } else r)
        = db.files := by
    have : db.files.map
        (fun r => if plexFileKey r = k then { r with removed_date := none } else r)
          = db.files.map (fun r => r) := by
      apply List.map_congr_left
      intro r hr
      by_cases he : plexFileKey r = k
      · rw [if_pos he]
        exact plex_set_removed_none (h r hr he)
      · rw [if_neg he]
    rw [this, List.map_id']
  simp only [clearPlexRemoved, hm]

theorem plexStepPart_db_id (now : String) (sid eid : Nat) (st : PlexPass)
    (part : PlexPartObs) (hhas : plexFileHas st.db.files (plexPartKey part))
    (hnone : plexAllNone st.db.files (plexPartKey part)) :
    (plexStepPart now sid eid st part).db = st.db := by
  show clearPlexRemoved (insertPlexFile st.db (plexPartKey part) sid eid now)
      (plexPartKey part) = st.db
  rw [insertPlexFile_of_has _ _ _ hhas, clearPlexRemoved_of_allNone hnone]

theorem plexStepEpisode_db_id (now : String) (sid : Nat) (sn : Option String)
    (st : PlexPass) (ep : PlexEpisodeObs) (hfacts : plexEpFacts st.db ep) :
    (plexStepEpisode now sid sn st ep).db = st.db := by
  simp only [plexStepEpisode]
  rw [insertPlexEpisode_of_has _ _ _ hfacts.1]
  refine foldl_preserve_mem (fun s : PlexPass => s.db = st.db) _ _ _ ?_ rfl
  intro s part hpart hs
  have h1 : plexFileHas s.db.files (plexPartKey part) := by
    rw [hs]; exact (hfacts.2 part hpart).1
  have h2 : plexAllNone s.db.files (plexPartKey part) := by
    rw [hs]; exact (hfacts.2 part hpart).2
  rw [plexStepPart_db_id now sid _ s part h1 h2, hs]

theorem plexStepSeason_db_id (now : String) (sid : Nat) (st : PlexPass)
    (season : PlexSeasonObs) (hf : ∀ ep ∈ season.episodes, plexEpFacts st.db ep) :
    (plexStepSeason now sid st season).db = st.db := by
  simp only [plexStepSeason]
  refine foldl_preserve_mem (fun s : PlexPass => s.db = st.db) _ _ _ ?_ rfl
  intro s ep hep hs
  have h1 : plexEpFacts s.db ep := by rw [hs]; exact hf ep hep
  rw [plexStepEpisode_db_id now sid _ s ep h1, hs]

theorem plexStepShow_db_id (now : String) (st : PlexPass) (sh : PlexShowObs)
    (hfacts : plexShowFacts st.db sh) : (plexStepShow now st sh).db = st.db := by
  simp only [plexStepShow]
  rw [insertPlexSeries_of_has _ hfacts.1]
  refine foldl_preserve_mem (fun s : PlexPass => s.db = st.db) _ _ _ ?_ rfl
  intro s season hseason hs
  have h1 : ∀ ep ∈ season.episodes, plexEpFacts s.db ep := by
    rw [hs]; exact hfacts.2 season hseason
  rw [plexStepSeason_db_id now _ s season h1, hs]

theorem plexStepSection_db_id (now : String) (st : PlexPass) (sec : PlexSectionObs)
    (hf : ∀ sh ∈ sec.shows, plexShowFacts st.db sh) :
    (plexStepSection now st sec).db = st.db := by
  simp only [plexStepSection]
  refine foldl_preserve_mem (fun s : PlexPass => s.db = st.db) _ _ _ ?_ rfl
  intro s sh hsh hs
  have h1 : plexShowFacts s.db sh := by rw [hs]; exact hf sh hsh
  rw [plexStepShow_db_id now s sh h1, hs]

/-- The facts a completed Plex pass guarantees about the resulting store. -/
theorem sync_plex_facts (now : String) (obs : List PlexSectionObs) (db0 : PlexDB)
    (hWF : plexWF db0.files) :
    (∀ sec ∈ obs, ∀ sh ∈ sec.shows, plexShowFacts (sync_plex now obs db0).db sh) ∧
    plexWF (sync_plex now obs db0).db.files ∧
    (∀ r ∈ (sync_plex now obs db0).db.files, r.removed_date = none →
      plexFileKey r ∈ plexObsKeys obs) := by
  have hseen : (obs.foldl (plexStepSection now) ⟨db0, [], 0⟩).seen = plexObsKeys obs := by
    rw [plexStream_seen]
    exact List.nil_append _
  have hstWF : plexWF (obs.foldl (plexStepSection now) ⟨db0, [], 0⟩).db.files :=
    plexStream_stable plexStable_WF now obs _ hWF
  refine ⟨?_, ?_, ?_⟩
  · intro sec hsec sh hsh
    have hst := plexStream_establishes now obs ⟨db0, [], 0⟩ sec hsec sh hsh
    constructor
    · exact hst.1
    · intro season hseason ep hep
      obtain ⟨hepi, hparts⟩ := hst.2 season hseason ep hep
      refine ⟨hepi, ?_⟩
      intro part hpart
      constructor
      · show plexFileHas (plexFinalize now
          (obs.foldl (plexStepSection now) ⟨db0, [], 0⟩).seen
          (obs.foldl (plexStepSection now) ⟨db0, [], 0⟩).db.files) (plexPartKey part)
        exact plexFileHas_finalize now _ (hparts part hpart).1
      · show plexAllNone (plexFinalize now
          (obs.foldl (plexStepSection now) ⟨db0, [], 0⟩).seen
          (obs.foldl (plexStepSection now) ⟨db0, [], 0⟩).db.files) (plexPartKey part)
        refine plexAllNone_finalize_of_seen ?_ (hparts part hpart).2
        rw [hseen]
        exact mem_plexObsKeys hsec hsh hseason hep hpart
  · show plexWF (plexFinalize now
      (obs.foldl (plexStepSection now) ⟨db0, [], 0⟩).seen
      (obs.foldl (plexStepSection now) ⟨db0, [], 0⟩).db.files)
    exact plexWF_finalize now _ hstWF
  · show ∀ r ∈ plexFinalize now
      (obs.foldl (plexStepSection now) ⟨db0, [], 0⟩).seen
      (obs.foldl (plexStepSection now) ⟨db0, [], 0⟩).db.files,
      r.removed_date = none → plexFileKey r ∈ plexObsKeys obs
    rw [← hseen]
    exact plexFinalize_active_seen hstWF

/-- Idempotency of the Plex pass. -/
theorem sync_plex_idem (now1 now2 : String) (obs : List PlexSectionObs) (db0 : PlexDB)
    (hWF : plexWF db0.files) :
    (sync_plex now2 obs (sync_plex now1 obs db0).db).db = (sync_plex now1 obs db0).db := by
  obtain ⟨F1, F2, F3⟩ := sync_plex_facts now1 obs db0 hWF
  set D := (sync_plex now1 obs db0).db with hD
  have hstream : (obs.foldl (plexStepSection now2) (⟨D, [], 0⟩ : PlexPass)).db = D := by
    refine foldl_preserve_mem (fun s : PlexPass => s.db = D) _ _ _ ?_ rfl
    intro s sec hsec hs
    have hf : ∀ sh ∈ sec.shows, plexShowFacts s.db sh := by
      rw [hs]; exact F1 sec hsec
    rw [plexStepSection_db_id now2 s sec hf, hs]
  have hseen2 : (obs.foldl (plexStepSection now2) (⟨D, [], 0⟩ : PlexPass)).seen
      = plexObsKeys obs := by
    rw [plexStream_seen]
    exact List.nil_append _
  have hfin : plexFinalize now2 (plexObsKeys obs) D.files = D.files := by
    rw [plexFinalize_eq_map _ _ _ F2]
    have hcongr : D.files.map (fun r =>
        if r.removed_date = none ∧ plexFileKey r ∉ plexObsKeys obs
        then { r with removed_date := some now2 } else r)
        = D.files.map (fun r => r) := by
      apply List.map_congr_left
      intro r hr
      rw [if_neg ?_]
      rintro ⟨hact, hns⟩
      exact hns (F3 r hr hact)
    rw [hcongr, List.map_id']
  show (sync_plex now2 obs D).db = D
  simp only [sync_plex]
  rw [hstream, hseen2, hfin]

theorem insertPlexSeries_extOf (db : PlexDB) (k t : String) :
    extOf db.series (insertPlexSeries db k t).series := by
  rcases insertPlexSeries_series db k t with hs | hs
  · rw [hs]; exact extOf_refl _
  · rw [hs]; exact ⟨_, rfl⟩

theorem insertPlexEpisode_extOf (db : PlexDB) (k : String) (sid : Nat)
    (sn en : Option String) : extOf db.episodes (insertPlexEpisode db k sid sn en).episodes := by
  rcases insertPlexEpisode_episodes db k sid sn en with hs | hs
  · rw [hs]; exact extOf_refl _
  · rw [hs]; exact ⟨_, rfl⟩

theorem plexStable_seriesExt (xs : List PlexSeriesRow) :
    PlexStable (fun db => extOf xs db.series) := by
  refine ⟨?_, ?_, ?_, ?_⟩
  · intro db k t h
    exact extOf_trans h (insertPlexSeries_extOf db k t)
  · intro db k sid sn en h
    rwa [insertPlexEpisode_series]
  · intro db k sid eid now h
    rwa [insertPlexFile_series]
  · intro db k h
    rwa [clearPlexRemoved_series]

theorem plexStable_episodesExt (xs : List PlexEpisodeRow) :
    PlexStable (fun db => extOf xs db.episodes) := by
  refine ⟨?_, ?_, ?_, ?_⟩
  · intro db k t h
    rwa [insertPlexSeries_episodes]
  · intro db k sid sn en h
    exact extOf_trans h (insertPlexEpisode_extOf db k sid sn en)
  · intro db k sid eid now h
    rwa [insertPlexFile_episodes]
  · intro db k h
    rwa [clearPlexRemoved_episodes]

theorem plexStable_seriesIdValid (i : Nat) :
    PlexStable (fun db => ∃ s ∈ db.series, s.id = i) := by
  refine ⟨?_, ?_, ?_, ?_⟩
  · intro db k t h
    exact exists_mem_of_extOf (insertPlexSeries_extOf db k t) h
  · intro db k sid sn en h
    rwa [insertPlexEpisode_series]
  · intro db k sid eid now h
    rwa [insertPlexFile_series]
  · intro db k h
    rwa [clearPlexRemoved_series]

theorem plexStable_episodeIdValid (i : Nat) :
    PlexStable (fun db => ∃ e ∈ db.episodes, e.id = i) := by
  refine ⟨?_, ?_, ?_, ?_⟩
  · intro db k t h
    rwa [insertPlexSeries_episodes]
  · intro db k sid sn en h
    exact exists_mem_of_extOf (insertPlexEpisode_extOf db k sid sn en) h
  · intro db k sid eid now h
    rwa [insertPlexFile_episodes]
  · intro db k h
    rwa [clearPlexRemoved_episodes]

theorem plexAddedAll_of_WF {files : List PlexFileRow} {k : String × String}
    (h : plexWF files) {r : PlexFileRow} (hr : r ∈ files) (hk : plexFileKey r = k) :
    plexAddedAll files k r.added_date := by
  intro q hq hqk
  have hqr : q = r := List.inj_on_of_nodup_map h hq hr (by rw [hqk, hk])
  rw [hqr]

theorem plexStable_added (k : String × String) (a : String) :
    PlexStable (fun db => plexFileHas db.files k ∧ plexAddedAll db.files k a) := by
  refine ⟨?_, ?_, ?_, ?_⟩
  · intro db k' t h
    rw [insertPlexSeries_files] at *
    exact h
  · intro db k' sid sn en h
    rw [insertPlexEpisode_files] at *
    exact h
  · intro db k' sid eid now ⟨h1, h2⟩
    refine ⟨plexFileHas_insert sid eid now h1, ?_⟩
    rcases insertPlexFile_files db k' sid eid now with hf | ⟨hno, hf⟩
    · rwa [hf]
    · rw [hf]
      intro r hr hk'
      rcases List.mem_append.mp hr with h' | h'
      · exact h2 r h' hk'
      · rw [List.mem_singleton.mp h'] at hk'
        exfalso
        have hq : k' = k := hk'
        rw [hq] at hno
        exact hno h1
  · intro db k' ⟨h1, h2⟩
    refine ⟨plexFileHas_clear h1, ?_⟩
    intro r' hr' hk'
    rcases List.mem_map.mp hr' with ⟨r, hr, hfr⟩
    subst hfr
    rw [plexClear_key_preserving k' r] at hk'
    by_cases he : plexFileKey r = k'
    · rw [if_pos he]
      exact h2 r hr hk'
    · rw [if_neg he]
      exact h2 r hr hk'

theorem plexAddedAll_finalize {files : List PlexFileRow} {k : String × String}
    {a now : String} {seen : List (String × String)} (h : plexAddedAll files k a) :
    plexAddedAll (plexFinalize now seen files) k a := by
  unfold plexFinalize
  refine foldl_preserve (fun fs => plexAddedAll fs k a) _ ?_ _ files h
  intro fs k' hQ
  by_cases hs : k' ∈ seen
  · rwa [if_pos hs]
  · rw [if_neg hs]
    intro r' hr' hk'
    rcases List.mem_map.mp hr' with ⟨r, hr, hfr⟩
    subst hfr
    by_cases he : plexFileKey r = k'
    · rw [if_pos he] at hk' ⊢
      rw [plex_upd_key] at hk'
      rw [plex_upd_added]
      exact hQ r hr hk'
    · rw [if_neg he] at hk' ⊢
      exact hQ r hr hk'

theorem sync_plex_addedAll (now : String) (obs : List PlexSectionObs) (db0 : PlexDB)
    {k : String × String} {a : String} (hhas : plexFileHas db0.files k)
    (h : plexAddedAll db0.files k a) :
    plexFileHas (sync_plex now obs db0).db.files k ∧
    plexAddedAll (sync_plex now obs db0).db.files k a := by
  have hstream := plexStream_stable (plexStable_added k a) now obs ⟨db0, [], 0⟩ ⟨hhas, h⟩
  constructor
  · show plexFileHas (plexFinalize now
      (obs.foldl (plexStepSection now) ⟨db0, [], 0⟩).seen
      (obs.foldl (plexStepSection now) ⟨db0, [], 0⟩).db.files) k
    exact plexFileHas_finalize now _ hstream.1
  · show plexAddedAll (plexFinalize now
      (obs.foldl (plexStepSection now) ⟨db0, [], 0⟩).seen
      (obs.foldl (plexStepSection now) ⟨db0, [], 0⟩).db.files) k a
    exact plexAddedAll_finalize hstream.2

theorem sync_plex_unobserved_act (now : String) (obs : List PlexSectionObs)
    (db0 : PlexDB) (k : String × String) (hk : k ∉ plexObsKeys obs)
    (hWF : plexWF db0.files) (hhas : plexFileHas db0.files k)
    (hact : plexRemovedIs db0.files k none) :
    plexFileHas (sync_plex now obs db0).db.files k ∧
    plexRemovedIs (sync_plex now obs db0).db.files k (some now) := by
  have hstream := plexStream_stable ((plexStable_fileHas k).and (plexStable_allNone k))
    now obs ⟨db0, [], 0⟩ ⟨hhas, fun r hr hp => hact r hr hp⟩
  have hWFs : plexWF (obs.foldl (plexStepSection now) ⟨db0, [], 0⟩).db.files :=
    plexStream_stable plexStable_WF now obs _ hWF
  have hseen : (obs.foldl (plexStepSection now) ⟨db0, [], 0⟩).seen = plexObsKeys obs := by
    rw [plexStream_seen]
    exact List.nil_append _
  constructor
  · show plexFileHas (plexFinalize now
      (obs.foldl (plexStepSection now) ⟨db0, [], 0⟩).seen
      (obs.foldl (plexStepSection now) ⟨db0, [], 0⟩).db.files) k
    exact plexFileHas_finalize now _ hstream.1
  · show plexRemovedIs (plexFinalize now
      (obs.foldl (plexStepSection now) ⟨db0, [], 0⟩).seen
      (obs.foldl (plexStepSection now) ⟨db0, [], 0⟩).db.files) k (some now)
    rw [hseen]
    exact plexFinalize_marks hWFs hk hstream.2

/-- Soft-delete round trip for the Plex variant. -/
theorem plex_round_trip (now1 now2 now3 : String)
    (obs1 obs2 obs3 : List PlexSectionObs) (db0 : PlexDB) (k : String × String)
    (hWF : plexWF db0.files)
    (h1 : k ∈ plexObsKeys obs1) (h2 : k ∉ plexObsKeys obs2)
    (h3 : k ∈ plexObsKeys obs3) :
    ∃ a : String,
      plexFileHas (sync_plex now1 obs1 db0).db.files k ∧
      plexRemovedIs (sync_plex now1 obs1 db0).db.files k none ∧
      plexAddedAll (sync_plex now1 obs1 db0).db.files k a ∧
      plexRemovedIs (sync_plex now2 obs2
        (sync_plex now1 obs1 db0).db).db.files k (some now2) ∧
      plexAddedAll (sync_plex now2 obs2
        (sync_plex now1 obs1 db0).db).db.files k a ∧
      plexFileHas (sync_plex now3 obs3 (sync_plex now2 obs2
        (sync_plex now1 obs1 db0).db).db).db.files k ∧
      plexRemovedIs (sync_plex now3 obs3 (sync_plex now2 obs2
        (sync_plex now1 obs1 db0).db).db).db.files k none ∧
      plexAddedAll (sync_plex now3 obs3 (sync_plex now2 obs2
        (sync_plex now1 obs1 db0).db).db).db.files k a := by
  obtain ⟨F11, F12, F13⟩ := sync_plex_facts now1 obs1 db0 hWF
  obtain ⟨sec1, hsec1, sh1, hsh1, se1, hse1, ep1, hep1, part1, hpart1, hkey1⟩ :=
    plexObsKeys_mem h1
  obtain ⟨hHas1, hAct1⟩ := ((F11 sec1 hsec1 sh1 hsh1).2 se1 hse1 ep1 hep1).2 part1 hpart1
  rw [hkey1] at hHas1 hAct1
  obtain ⟨r1, hr1, hr1K⟩ := hHas1
  refine ⟨r1.added_date, ⟨r1, hr1, hr1K⟩, (fun r hr hp => hAct1 r hr hp), ?_, ?_, ?_, ?_, ?_, ?_⟩
  · exact plexAddedAll_of_WF F12 hr1 hr1K
  · exact (sync_plex_unobserved_act now2 obs2 _ k h2 F12 ⟨r1, hr1, hr1K⟩
      (fun r hr hp => hAct1 r hr hp)).2
  · exact (sync_plex_addedAll now2 obs2 _ ⟨r1, hr1, hr1K⟩
      (plexAddedAll_of_WF F12 hr1 hr1K)).2
  all_goals {
    obtain ⟨F21, F22, F23⟩ := sync_plex_facts now2 obs2 _ F12
    obtain ⟨hHas2, hAdd2⟩ := sync_plex_addedAll now2 obs2 _ ⟨r1, hr1, hr1K⟩
      (plexAddedAll_of_WF F12 hr1 hr1K)
    obtain ⟨sec3, hsec3, sh3, hsh3, se3, hse3, ep3, hep3, part3, hpart3, hkey3⟩ :=
      plexObsKeys_mem h3
    obtain ⟨F31, F32, F33⟩ := sync_plex_facts now3 obs3 _ F22
    obtain ⟨hHas3, hAct3⟩ := ((F31 sec3 hsec3 sh3 hsh3).2 se3 hse3 ep3 hep3).2 part3 hpart3
    rw [hkey3] at hHas3 hAct3
    first
    | exact hHas3
    | exact (fun r hr hp => hAct3 r hr hp)
    | exact (sync_plex_addedAll now3 obs3 _ hHas2 hAdd2).2
  }

theorem findPlexSeriesId_valid {db : PlexDB} {k : String} (h : plexSeriesHas db k) :
    ∃ s ∈ db.series, s.id = findPlexSeriesId db k := by
  cases hfind : db.series.find? (fun r => r.plex_key = k) with
  | none =>
    exfalso
    rcases h with ⟨r, hr, hid⟩
    have := List.find?_eq_none.mp hfind r hr
    simp [hid] at this
  | some q =>
    refine ⟨q, List.mem_of_find?_eq_some hfind, ?_⟩
    rw [findPlexSeriesId, hfind]
    rfl

theorem findPlexEpisodeId_valid {db : PlexDB} {k : String} (h : plexEpisodeHas db k) :
    ∃ e ∈ db.episodes, e.id = findPlexEpisodeId db k := by
  cases hfind : db.episodes.find? (fun r => r.plex_key = k) with
  | none =>
    exfalso
    rcases h with ⟨r, hr, hid⟩
    have := List.find?_eq_none.mp hfind r hr
    simp [hid] at this
  | some q =>
    refine ⟨q, List.mem_of_find?_eq_some hfind, ?_⟩
    rw [findPlexEpisodeId, hfind]
    rfl

theorem plexRefInv_insertSeries {db : PlexDB} (k t : String) (h : plexRefInv db) :
    plexRefInv (insertPlexSeries db k t) := by
  have hext := insertPlexSeries_extOf db k t
  constructor
  · rw [insertPlexSeries_episodes]
    intro e he
    exact exists_mem_of_extOf hext (h.1 e he)
  · rw [insertPlexSeries_files]
    intro f hf
    refine ⟨exists_mem_of_extOf hext ((h.2 f hf).1), ?_⟩
    rw [insertPlexSeries_episodes]
    exact (h.2 f hf).2

theorem plexRefInv_insertEpisode {db : PlexDB} {sid : Nat} (k : String)
    (sn en : Option String) (h : plexRefInv db) (hsid : ∃ s ∈ db.series, s.id = sid) :
    plexRefInv (insertPlexEpisode db k sid sn en) := by
  have hext := insertPlexEpisode_extOf db k sid sn en
  constructor
  · rw [insertPlexEpisode_series]
    rcases insertPlexEpisode_episodes db k sid sn en with he | he
    · rw [he]
      exact h.1
    · rw [he]
      intro e he'
      rcases List.mem_append.mp he' with h' | h'
      · exact h.1 e h'
      · rw [List.mem_singleton.mp h']
        exact hsid
  · rw [insertPlexEpisode_files, insertPlexEpisode_series]
    intro f hf
    exact ⟨(h.2 f hf).1, exists_mem_of_extOf hext ((h.2 f hf).2)⟩

theorem plexRefInv_insertFile {db : PlexDB} {sid eid : Nat} (k : String × String)
    (now : String) (h : plexRefInv db) (hsid : ∃ s ∈ db.series, s.id = sid)
    (heid : ∃ e ∈ db.episodes, e.id = eid) :
    plexRefInv (insertPlexFile db k sid eid now) := by
  constructor
  · rw [insertPlexFile_episodes, insertPlexFile_series]
    exact h.1
  · rw [insertPlexFile_series, insertPlexFile_episodes]
    rcases insertPlexFile_files db k sid eid now with hf | ⟨_, hf⟩
    · rw [hf]
      exact h.2
    · rw [hf]
      intro f hf'
      rcases List.mem_append.mp hf' with h' | h'
      · exact h.2 f h'
      · rw [List.mem_singleton.mp h']
        exact ⟨hsid, heid⟩

theorem plexRefInv_clear {db : PlexDB} (k : String × String) (h : plexRefInv db) :
    plexRefInv (clearPlexRemoved db k) := by
  constructor
  · rw [clearPlexRemoved_episodes, clearPlexRemoved_series]
    exact h.1
  · rw [clearPlexRemoved_series, clearPlexRemoved_episodes]
    intro f' hf'
    rcases List.mem_map.mp hf' with ⟨f, hf, hff⟩
    subst hff
    obtain ⟨hA, hB⟩ := h.2 f hf
    by_cases he : plexFileKey f = k
    · rw [if_pos he]
      exact ⟨by simpa using hA, by simpa using hB⟩
    · rw [if_neg he]
      exact ⟨hA, hB⟩

theorem plexRefInv_finalize {db : PlexDB} (now : String) (seen : List (String × String))
    (h : plexRefInv db) :
    plexRefInv { db with files := plexFinalize now seen db.files } := by
  refine ⟨h.1, ?_⟩
  show ∀ f ∈ plexFinalize now seen db.files, _
  unfold plexFinalize
  refine foldl_preserve (fun fs : List PlexFileRow => ∀ f ∈ fs,
    (∃ s ∈ db.series, s.id = f.series_id) ∧
    (∃ e ∈ db.episodes, e.id = f.episode_id)) _ ?_ _ _ h.2
  intro fs k hQ
  by_cases hs : k ∈ seen
  · rwa [if_pos hs]
  · rw [if_neg hs]
    intro f' hf'
    rcases List.mem_map.mp hf' with ⟨f, hf, hff⟩
    subst hff
    obtain ⟨hA, hB⟩ := hQ f hf
    by_cases he : plexFileKey f = k
    · rw [if_pos he]
      exact ⟨by simpa using hA, by simpa using hB⟩
    · rw [if_neg he]
      exact ⟨hA, hB⟩

/-- The per-part loop body preserves referential integrity whenever the
series and episode ids it is handed name existing rows — both were resolved
strictly before the file insert. -/
theorem plexRefInv_stepPart (now : String) {sid eid : Nat} (st : PlexPass)
    (part : PlexPartObs) (h : plexRefInv st.db)
    (hsid : ∃ s ∈ st.db.series, s.id = sid) (heid : ∃ e ∈ st.db.episodes, e.id = eid) :
    plexRefInv (plexStepPart now sid eid st part).db := by
  show plexRefInv (clearPlexRemoved (insertPlexFile st.db (plexPartKey part) sid eid now)
    (plexPartKey part))
  exact plexRefInv_clear _ (plexRefInv_insertFile _ _ h hsid heid)

/-- The per-episode loop body preserves referential integrity with a valid
series id: the episode row is resolved before any of its parts' file rows. -/
theorem plexRefInv_stepEpisode (now : String) {sid : Nat} (sn : Option String)
    (st : PlexPass) (ep : PlexEpisodeObs) (h : plexRefInv st.db)
    (hsid : ∃ s ∈ st.db.series, s.id = sid) :
    plexRefInv (plexStepEpisode now sid sn st ep).db := by
  simp only [plexStepEpisode]
  have h1 : plexRefInv (insertPlexEpisode st.db ep.key sid sn ep.index) :=
    plexRefInv_insertEpisode _ _ _ h hsid
  have hsid1 : ∃ s ∈ (insertPlexEpisode st.db ep.key sid sn ep.index).series, s.id = sid := by
    rw [insertPlexEpisode_series]
    exact hsid
  have heid1 := findPlexEpisodeId_valid (plexEpisodeHas_insert st.db ep.key sid sn ep.index)
  refine (foldl_preserve (fun s : PlexPass => plexRefInv s.db ∧
    (∃ srow ∈ s.db.series, srow.id = sid) ∧
    (∃ e ∈ s.db.episodes,
      e.id = findPlexEpisodeId (insertPlexEpisode st.db ep.key sid sn ep.index) ep.key))
    _ ?_ _ _ ⟨h1, hsid1, heid1⟩).1
  intro s p ⟨hA, hB, hC⟩
  exact ⟨plexRefInv_stepPart now s p hA hB hC,
    plexStepPart_stable (plexStable_seriesIdValid sid) now _ _ s p hB,
    plexStepPart_stable (plexStable_episodeIdValid _) now _ _ s p hC⟩

theorem plexRefInv_stepSeason (now : String) {sid : Nat} (st : PlexPass)
    (season : PlexSeasonObs) (h : plexRefInv st.db)
    (hsid : ∃ s ∈ st.db.series, s.id = sid) :
    plexRefInv (plexStepSeason now sid st season).db := by
  simp only [plexStepSeason]
  refine (foldl_preserve (fun s : PlexPass => plexRefInv s.db ∧
    ∃ srow ∈ s.db.series, srow.id = sid) _ ?_ _ _ ⟨h, hsid⟩).1
  intro s ep ⟨hA, hB⟩
  exact ⟨plexRefInv_stepEpisode now _ s ep hA hB,
    plexStepEpisode_stable (plexStable_seriesIdValid sid) now _ _ s ep hB⟩

theorem plexRefInv_stepShow (now : String) (st : PlexPass) (sh : PlexShowObs)
    (h : plexRefInv st.db) : plexRefInv (plexStepShow now st sh).db := by
  simp only [plexStepShow]
  have h1 : plexRefInv (insertPlexSeries st.db sh.key sh.title) :=
    plexRefInv_insertSeries _ _ h
  have hsid := findPlexSeriesId_valid (plexSeriesHas_insert st.db sh.key sh.title)
  refine (foldl_preserve (fun s : PlexPass => plexRefInv s.db ∧
    ∃ srow ∈ s.db.series,
      srow.id = findPlexSeriesId (insertPlexSeries st.db sh.key sh.title) sh.key)
    _ ?_ _ _ ⟨h1, hsid⟩).1
  intro s season ⟨hA, hB⟩
  exact ⟨plexRefInv_stepSeason now s season hA hB,
    plexStepSeason_stable (plexStable_seriesIdValid _) now _ s season hB⟩

theorem plexRefInv_stepSection (now : String) (st : PlexPass) (sec : PlexSectionObs)
    (h : plexRefInv st.db) : plexRefInv (plexStepSection now st sec).db := by
  simp only [plexStepSection]
  exact foldl_preserve (fun s : PlexPass => plexRefInv s.db) _
    (fun s sh hs => plexRefInv_stepShow now s sh hs) _ _ h

/-- A full Plex pass preserves referential integrity. -/
theorem plexRefInv_sync (now : String) (obs : List PlexSectionObs) (db0 : PlexDB)
    (h : plexRefInv db0) : plexRefInv (sync_plex now obs db0).db := by
  have hstream : plexRefInv (obs.foldl (plexStepSection now) ⟨db0, [], 0⟩).db :=
    foldl_preserve (fun s : PlexPass => plexRefInv s.db) _
      (fun s sec hs => plexRefInv_stepSection now s sec hs) _ _ h
  exact plexRefInv_finalize now _ hstream

/-- An empty Plex observation set: nothing inserted, every active leaf
marked removed. -/
theorem sync_plex_empty (now : String) (db0 : PlexDB) (hWF : plexWF db0.files) :
    (sync_plex now [] db0).db.series = db0.series ∧
    (sync_plex now [] db0).db.episodes = db0.episodes ∧
    (sync_plex now [] db0).db.nextSeriesId = db0.nextSeriesId ∧
    (sync_plex now [] db0).db.nextEpisodeId = db0.nextEpisodeId ∧
    (sync_plex now [] db0).db.nextFileId = db0.nextFileId ∧
    (sync_plex now [] db0).db.files.length = db0.files.length ∧
    (sync_plex now [] db0).db.files
      = db0.files.map (fun r => if r.removed_date = none
          then { r with removed_date := some now } else r) ∧
    (sync_plex now [] db0).totalFiles = 0 := by
  have hfiles : (sync_plex now [] db0).db.files
      = db0.files.map (fun r => if r.removed_date = none
          then { r with removed_date := some now } else r) := by
    show plexFinalize now _ db0.files = _
    rw [plexFinalize_eq_map now _ _ hWF]
    apply List.map_congr_left
    intro r _
    exact if_congr (by simp) rfl rfl
  refine ⟨rfl, rfl, rfl, rfl, rfl, ?_, hfiles, rfl⟩
  rw [hfiles]
  simp

/-- Row-by-row characterization of the Plex finalization step. -/
theorem plexFinalize_spec (now : String) (seen : List (String × String))
    (files : List PlexFileRow) (hWF : plexWF files)
    (hfresh : ∀ r ∈ files, r.removed_date ≠ some now) :
    (plexFinalize now seen files).length = files.length ∧
    ∀ i : Nat, ∀ hi : i < files.length,
      ∀ hi' : i < (plexFinalize now seen files).length,
      (((plexFinalize now seen files).get ⟨i, hi'⟩).removed_date = some now ↔
        ((files.get ⟨i, hi⟩).removed_date = none ∧
          plexFileKey (files.get ⟨i, hi⟩) ∉ seen)) ∧
      ((files.get ⟨i, hi⟩).removed_date ≠ none → plexFileKey (files.get ⟨i, hi⟩) ∉ seen →
        (plexFinalize now seen files).get ⟨i, hi'⟩ = files.get ⟨i, hi⟩) := by
  have hlen : (plexFinalize now seen files).length = files.length := by
    rw [plexFinalize_eq_map now seen files hWF]
    simp
  refine ⟨hlen, ?_⟩
  intro i hi
  have hget : ∀ hi' : i < (plexFinalize now seen files).length,
      (plexFinalize now seen files).get ⟨i, hi'⟩
        = if (files.get ⟨i, hi⟩).removed_date = none ∧ plexFileKey (files.get ⟨i, hi⟩) ∉ seen
          then { files.get ⟨i, hi⟩ with removed_date := some now }
          else files.get ⟨i, hi⟩ := by
    rw [plexFinalize_eq_map now seen files hWF]
    intro hi'
    simp
  intro hi'
  rw [hget hi']
  constructor
  · constructor
    · intro hsome
      by_cases hc : (files.get ⟨i, hi⟩).removed_date = none ∧
          plexFileKey (files.get ⟨i, hi⟩) ∉ seen
      · exact hc
      · rw [if_neg hc] at hsome
        exact absurd hsome (hfresh _ (List.get_mem files i hi))
    · intro hc
      rw [if_pos hc]
  · intro hrem _
    rw [if_neg (fun hc => hrem hc.1)]

theorem plexFrame_refl (xs : List PlexFileRow) : plexFrame xs xs :=
  ⟨le_refl _, fun i hi hi' => rfl⟩

theorem plexFrame_trans {xs ys zs : List PlexFileRow} (h1 : plexFrame xs ys)
    (h2 : plexFrame ys zs) : plexFrame xs zs := by
  refine ⟨le_trans h1.1 h2.1, fun i hi hi' => ?_⟩
  have hiy : i < ys.length := lt_of_lt_of_le hi h1.1
  rw [h2.2 i hiy hi', h1.2 i hi hiy]

theorem plexFrame_append (xs t : List PlexFileRow) : plexFrame xs (xs ++ t) := by
  refine ⟨by simp, fun i hi hi' => ?_⟩
  congr 1
  exact List.getElem_append_left hi

theorem plexFrame_map {xs : List PlexFileRow} {f : PlexFileRow → PlexFileRow}
    (hf : ∀ r, pfrCore (f r) = pfrCore r) : plexFrame xs (xs.map f) := by
  refine ⟨by simp, fun i hi hi' => ?_⟩
  have : (xs.map f).get ⟨i, hi'⟩ = f (xs.get ⟨i, hi⟩) := by simp
  rw [this, hf]

theorem plexStable_frame (xs : List PlexFileRow) :
    PlexStable (fun db => plexFrame xs db.files) := by
  refine ⟨?_, ?_, ?_, ?_⟩
  · intro db k t h
    rwa [insertPlexSeries_files]
  · intro db k sid sn en h
    rwa [insertPlexEpisode_files]
  · intro db k sid eid now h
    rcases insertPlexFile_files db k sid eid now with hf | ⟨_, hf⟩
    · rwa [hf]
    · rw [hf]
      exact plexFrame_trans h (plexFrame_append _ _)
  · intro db k h
    refine plexFrame_trans h (plexFrame_map ?_)
    intro r
    by_cases he : plexFileKey r = k <;> simp [he, pfrCore]

theorem plexFrame_finalize (now : String) (seen : List (String × String))
    (files : List PlexFileRow) : plexFrame files (plexFinalize now seen files) := by
  unfold plexFinalize
  refine foldl_preserve (fun fs => plexFrame files fs) _ ?_ _ files (plexFrame_refl _)
  intro fs k hfr
  by_cases hs : k ∈ seen
  · rwa [if_pos hs]
  · rw [if_neg hs]
    refine plexFrame_trans hfr (plexFrame_map ?_)
    intro r
    by_cases he : plexFileKey r = k <;> simp [he, pfrCore]

/-- First-write-wins frame property of a whole Plex pass. -/
theorem sync_plex_frame (now : String) (obs : List PlexSectionObs) (db0 : PlexDB) :
    plexFrame db0.files (sync_plex now obs db0).db.files ∧
    extOf db0.series (sync_plex now obs db0).db.series ∧
    extOf db0.episodes (sync_plex now obs db0).db.episodes := by
  have h1 : plexFrame db0.files (obs.foldl (plexStepSection now) ⟨db0, [], 0⟩).db.files :=
    plexStream_stable (plexStable_frame db0.files) now obs _ (plexFrame_refl _)
  have h2 : extOf db0.series (obs.foldl (plexStepSection now) ⟨db0, [], 0⟩).db.series :=
    plexStream_stable (plexStable_seriesExt db0.series) now obs _ (extOf_refl _)
  have h3 : extOf db0.episodes (obs.foldl (plexStepSection now) ⟨db0, [], 0⟩).db.episodes :=
    plexStream_stable (plexStable_episodesExt db0.episodes) now obs _ (extOf_refl _)
  refine ⟨?_, h2, h3⟩
  show plexFrame db0.files (plexFinalize now
    (obs.foldl (plexStepSection now) ⟨db0, [], 0⟩).seen
    (obs.foldl (plexStepSection now) ⟨db0, [], 0⟩).db.files)
  exact plexFrame_trans h1 (plexFrame_finalize now _ _)

@[simp] theorem fs_upd_key (r : FileRow) (v : Option String) :
    fileKey ({ r with removed_date := v } : FileRow) = fileKey r := rfl

@[simp] theorem fs_upd_id (r : FileRow) (v : Option String) :
    ({ r with removed_date := v } : FileRow).id = r.id := rfl

@[simp] theorem fs_upd_added (r : FileRow) (v : Option String) :
    ({ r with removed_date := v } : FileRow).added_date = r.added_date := rfl

@[simp] theorem fs_upd_creation (r : FileRow) (v : Option String) :
    ({ r with removed_date := v } : FileRow).creation_date = r.creation_date := rfl

@[simp] theorem fs_upd_removed (r : FileRow) (v : Option String) :
    ({ r with removed_date := v } : FileRow).removed_date = v := rfl

theorem fs_any_key {files : List FileRow} {k : String × String} :
    files.any (fun r => fileKey r = k) = true ↔ fsFileHas files k := by
  simp [List.any_eq_true, fsFileHas]

theorem insertFsFile_of_has (db : FsDB) (now : String) (o : FsObs)
    (h : fsFileHas db.files (fsKey o)) : insertFsFile db now o = (db, false) := by
  have ha : db.files.any (fun r => fileKey r = fsKey o) = true := fs_any_key.mpr h
  simp [insertFsFile, ha]

theorem insertFsFile_cases (db : FsDB) (now : String) (o : FsObs) :
    (insertFsFile db now o = (db, false) ∧ fsFileHas db.files (fsKey o)) ∨
      (¬ fsFileHas db.files (fsKey o) ∧
        (insertFsFile db now o).1.files
          = db.files ++ [⟨db.nextFileId, o.filename, o.rootPath, o.ctime, now, none⟩] ∧
        (insertFsFile db now o).1.nextFileId = db.nextFileId + 1 ∧
        (insertFsFile db now o).1.scans = db.scans ∧
        (insertFsFile db now o).1.scan_dirs = db.scan_dirs ∧
        (insertFsFile db now o).2 = true) := by
  by_cases h : db.files.any (fun r => fileKey r = fsKey o) = true
  · left
    exact ⟨by simp [insertFsFile, h], fs_any_key.mp h⟩
  · right
    refine ⟨fun hf => h (fs_any_key.mpr hf), ?_, ?_, ?_, ?_, ?_⟩ <;>
      · simp only [insertFsFile]
        rw [if_neg h]

theorem fsFileHas_insert (db : FsDB) (now : String) (o : FsObs) {k : String × String}
    (h : fsFileHas db.files k) : fsFileHas (insertFsFile db now o).1.files k := by
  rcases insertFsFile_cases db now o with ⟨heq, _⟩ | ⟨_, hf, _⟩
  · rw [heq]
    exact h
  · rw [hf]
    rcases h with ⟨r, hr, hk⟩
    exact ⟨r, List.mem_append_left _ hr, hk⟩

theorem fsFileHas_insert_self (db : FsDB) (now : String) (o : FsObs) :
    fsFileHas (insertFsFile db now o).1.files (fsKey o) := by
  rcases insertFsFile_cases db now o with ⟨heq, hhas⟩ | ⟨_, hf, _⟩
  · rw [heq]
    exact hhas
  · rw [hf]
    exact ⟨_, List.mem_append_right _ (List.mem_singleton_self _), rfl⟩

/-- Streaming in the filesystem variant only appends rows: no column of an
existing row is ever written by `scan_directory`. -/
theorem scan_directory_extOf (now : String) :
    ∀ (obs : List FsObs) (acc : FsDB × Nat × Nat),
      extOf acc.1.files (obs.foldl (scanStep now) acc).1.files := by
  intro obs
  induction obs with
  | nil => intro acc; exact extOf_refl _
  | cons o obs ih =>
    intro acc
    rw [List.foldl_cons]
    refine extOf_trans ?_ (ih _)
    show extOf acc.1.files (insertFsFile acc.1 now o).1.files
    rcases insertFsFile_cases acc.1 now o with ⟨heq, _⟩ | ⟨_, hf, _⟩
    · rw [heq]
      exact extOf_refl _
    · rw [hf]
      exact ⟨_, rfl⟩

theorem scanStep_preserves (now : String) (acc : FsDB × Nat × Nat) (o : FsObs)
    {k : String × String} (h : fsFileHas acc.1.files k) :
    fsFileHas (scanStep now acc o).1.files k :=
  fsFileHas_insert acc.1 now o h

theorem scan_establishes (now : String) (obs : List FsObs) (acc : FsDB × Nat × Nat) :
    ∀ o ∈ obs, fsFileHas (obs.foldl (scanStep now) acc).1.files (fsKey o) := by
  refine foldl_establish
    (fun (o : FsObs) (a : FsDB × Nat × Nat) => fsFileHas a.1.files (fsKey o)) _ ?_ ?_ _ _
  · intro a o
    exact fsFileHas_insert_self a.1 now o
  · intro a o c h
    exact scanStep_preserves now a o h

/-- Processed counter: every observation is handled, stat failures
included. -/
theorem scan_directory_processed (now : String) :
    ∀ (obs : List FsObs) (acc : FsDB × Nat × Nat),
      (obs.foldl (scanStep now) acc).2.2 = acc.2.2 + obs.length := by
  intro obs
  induction obs with
  | nil => intro acc; simp
  | cons o obs ih =>
    intro acc
    rw [List.foldl_cons, ih, List.length_cons]
    show acc.2.2 + 1 + obs.length = _
    omega

/-- Unrolling the `update_directories` fold over a duplicate-free snapshot of
row ids. -/
theorem fsUpdateAux (now : String) (existing : List (String × String)) :
    ∀ (ps : List FileRow) (files : List FileRow), (ps.map (fun r => r.id)).Nodup →
      ps.foldl (fun fs q => if fileKey q ∈ existing then fs
        else markRemovedById now fs q.id) files
      = files.map (fun r => if (∃ q ∈ ps, q.id = r.id ∧ fileKey q ∉ existing)
          then { r with removed_date := some now } else r) := by
  intro ps
  induction ps with
  | nil =>
    intro files _
    simp
  | cons q ps ih =>
    intro files hnd
    rw [List.foldl_cons]
    rcases List.nodup_cons.mp hnd with ⟨hq, hnd'⟩
    by_cases hs : fileKey q ∈ existing
    · rw [if_pos hs, ih files hnd']
      apply List.map_congr_left
      intro r _
      by_cases h1 : ∃ q' ∈ ps, q'.id = r.id ∧ fileKey q' ∉ existing
      · rcases h1 with ⟨q', hq', hid, hex⟩
        rw [if_pos ⟨q', hq', hid, hex⟩, if_pos ⟨q', List.mem_cons_of_mem _ hq', hid, hex⟩]
      · rw [if_neg h1, if_neg ?_]
        rintro ⟨q', hq', hid, hex⟩
        rcases List.mem_cons.mp hq' with he | hm'
        · exact hex (he ▸ hs)
        · exact h1 ⟨q', hm', hid, hex⟩
    · rw [if_neg hs]
      have hids : ((markRemovedById now files q.id).map (fun r => r.id))
          = files.map (fun r => r.id) := by
        simp only [markRemovedById, List.map_map]
        apply List.map_congr_left
        intro r _
        by_cases he : r.id = q.id <;> simp [he]
      rw [ih (markRemovedById now files q.id) hnd', markRemovedById, List.map_map]
      apply List.map_congr_left
      intro r _
      by_cases he : r.id = q.id
      · simp only [Function.comp_apply, if_pos he]
        have h1 : ¬ (∃ q' ∈ ps, q'.id = ({ r with removed_date := some now } : FileRow).id
            ∧ fileKey q' ∉ existing) := by
          rintro ⟨q', hq', hid, _⟩
          rw [fs_upd_id, he] at hid
          refine hq ?_
          show q.id ∈ ps.map (fun r => r.id)
          rw [← hid]
          exact List.mem_map_of_mem (fun r => r.id) hq'
        rw [if_neg h1, if_pos ⟨q, List.mem_cons_self _ _, he.symm, hs⟩]
      · simp only [Function.comp_apply, if_neg he]
        by_cases h1 : ∃ q' ∈ ps, q'.id = r.id ∧ fileKey q' ∉ existing
        · rcases h1 with ⟨q', hq', hid, hex⟩
          rw [if_pos ⟨q', hq', hid, hex⟩, if_pos ⟨q', List.mem_cons_of_mem _ hq', hid, hex⟩]
        · rw [if_neg h1, if_neg ?_]
          rintro ⟨q', hq', hid, hex⟩
          rcases List.mem_cons.mp hq' with hee | hm'
          · exact he (by rw [← hid, hee])
          · exact h1 ⟨q', hm', hid, hex⟩

/-- Under primary-key uniqueness, `update_directories` is exactly the
set-difference map over the file table. -/
theorem update_directories_files (now : String) (existing : List (String × String))
    (db : FsDB) (h : (db.files.map (fun r => r.id)).Nodup) :
    (update_directories now existing db).1.files
      = db.files.map (fun r => if r.removed_date = none ∧ fileKey r ∉ existing
          then { r with removed_date := some now } else r) := by
  have hnd : ((db.files.filter (fun r => r.removed_date = none)).map (fun r => r.id)).Nodup :=
    List.Nodup.sublist (List.Sublist.map _ (List.filter_sublist db.files)) h
  show (db.files.filter (fun r => r.removed_date = none)).foldl
      (fun fs q => if fileKey q ∈ existing then fs else markRemovedById now fs q.id)
      db.files = _
  rw [fsUpdateAux now existing _ db.files hnd]
  apply List.map_congr_left
  intro r hr
  refine if_congr ?_ rfl rfl
  constructor
  · rintro ⟨q, hq, hid, hex⟩
    have hq' := List.mem_filter.mp hq
    have hqr : q = r := List.inj_on_of_nodup_map h hq'.1 hr hid
    subst hqr
    exact ⟨by simpa using hq'.2, hex⟩
  · rintro ⟨hact, hex⟩
    exact ⟨r, List.mem_filter.mpr ⟨hr, by simp [hact]⟩, rfl, hex⟩

theorem update_directories_scans (now : String) (existing : List (String × String))
    (db : FsDB) :
    (update_directories now existing db).1.scans = db.scans ∧
    (update_directories now existing db).1.scan_dirs = db.scan_dirs ∧
    (update_directories now existing db).1.nextFileId = db.nextFileId := by
  have : ∀ (ps : List FileRow) (fs : List FileRow),
      True := fun _ _ => trivial
  refine ⟨?_, ?_, ?_⟩ <;> rfl

theorem update_directories_ids (now : String) (existing : List (String × String))
    (db : FsDB) :
    ((update_directories now existing db).1.files).map (fun r => r.id)
      = db.files.map (fun r => r.id) := by
  show ((db.files.filter (fun r => r.removed_date = none)).foldl
      (fun fs q => if fileKey q ∈ existing then fs else markRemovedById now fs q.id)
      db.files).map (fun r => r.id) = _
  refine foldl_preserve
    (fun fs : List FileRow => fs.map (fun r => r.id) = db.files.map (fun r => r.id))
    _ ?_ _ _ rfl
  intro fs q hfs
  by_cases hs : fileKey q ∈ existing
  · rwa [if_pos hs]
  · rw [if_neg hs]
    simp only [markRemovedById, List.map_map]
    rw [← hfs]
    apply List.map_congr_left
    intro r _
    by_cases he : r.id = q.id <;> simp [he]

theorem update_directories_keys (now : String) (existing : List (String × String))
    (db : FsDB) :
    ((update_directories now existing db).1.files).map fileKey = db.files.map fileKey := by
  show ((db.files.filter (fun r => r.removed_date = none)).foldl
      (fun fs q => if fileKey q ∈ existing then fs else markRemovedById now fs q.id)
      db.files).map fileKey = _
  refine foldl_preserve
    (fun fs : List FileRow => fs.map fileKey = db.files.map fileKey) _ ?_ _ _ rfl
  intro fs q hfs
  by_cases hs : fileKey q ∈ existing
  · rwa [if_pos hs]
  · rw [if_neg hs]
    simp only [markRemovedById, List.map_map]
    rw [← hfs]
    apply List.map_congr_left
    intro r _
    by_cases he : r.id = q.id <;> simp [he, fileKey]

theorem FsWF_insert (db : FsDB) (now : String) (o : FsObs) (h : FsWF db) :
    FsWF (insertFsFile db now o).1 := by
  rcases insertFsFile_cases db now o with ⟨heq, _⟩ | ⟨_, hf, hn, _, _, _⟩
  · rw [heq]
    exact h
  · constructor
    · rw [hf, List.map_append]
      have hid : db.nextFileId ∉ db.files.map (fun r => r.id) := by
        intro hm
        rcases List.mem_map.mp hm with ⟨r, hr, hid⟩
        exact absurd hid (Nat.ne_of_lt (h.2 r hr))
      have h' := h.1
      simp [List.nodup_append, h', hid]
    · rw [hf, hn]
      intro r hr
      rcases List.mem_append.mp hr with h' | h'
      · exact lt_trans (h.2 r h') (Nat.lt_succ_self _)
      · rw [List.mem_singleton.mp h']
        exact Nat.lt_succ_self _

theorem FsWF_scan (now : String) (obs : List FsObs) (db : FsDB) (h : FsWF db) :
    FsWF (scan_directory now obs db).1 := by
  show FsWF (obs.foldl (scanStep now) (db, 0, 0)).1
  refine foldl_preserve (fun a : FsDB × Nat × Nat => FsWF a.1) _ ?_ _ _ h
  intro a o ha
  exact FsWF_insert a.1 now o ha

theorem FsWF_update (now : String) (existing : List (String × String)) (db : FsDB)
    (h : FsWF db) : FsWF (update_directories now existing db).1 := by
  constructor
  · rw [update_directories_ids]
    exact h.1
  · intro r hr
    have hids := update_directories_ids now existing db
    have : r.id ∈ db.files.map (fun r => r.id) := by
      rw [← hids]
      exact List.mem_map_of_mem _ hr
    rcases List.mem_map.mp this with ⟨r', hr', hid⟩
    show r.id < (update_directories now existing db).1.nextFileId
    rw [(update_directories_scans now existing db).2.2, ← hid]
    exact h.2 r' hr'

theorem FsWF_pass (nowS nowU : String) (obs : List FsObs) (db : FsDB) (h : FsWF db) :
    FsWF (fsPass nowS nowU obs db).1 :=
  FsWF_update nowU _ _ (FsWF_scan nowS obs db h)

/-- The facts a completed filesystem pass guarantees. -/
theorem fsPass_facts (nowS nowU : String) (obs : List FsObs) (db0 : FsDB)
    (hWF : FsWF db0) :
    (∀ o ∈ obs, fsFileHas (fsPass nowS nowU obs db0).1.files (fsKey o)) ∧
    (∀ r ∈ (fsPass nowS nowU obs db0).1.files, r.removed_date = none →
      fileKey r ∈ obs.map fsKey) ∧
    FsWF (fsPass nowS nowU obs db0).1 := by
  have hscanWF : FsWF (scan_directory nowS obs db0).1 := FsWF_scan nowS obs db0 hWF
  have hpres : ∀ o ∈ obs, fsFileHas (scan_directory nowS obs db0).1.files (fsKey o) :=
    scan_establishes nowS obs (db0, 0, 0)
  refine ⟨?_, ?_, FsWF_pass nowS nowU obs db0 hWF⟩
  · intro o ho
    show fsFileHas (update_directories nowU (obs.map fsKey)
      (scan_directory nowS obs db0).1).1.files (fsKey o)
    have hkeys := update_directories_keys nowU (obs.map fsKey) (scan_directory nowS obs db0).1
    have := hpres o ho
    rcases this with ⟨r, hr, hk⟩
    have : fsKey o ∈ ((update_directories nowU (obs.map fsKey)
        (scan_directory nowS obs db0).1).1.files).map fileKey := by
      rw [hkeys]
      exact hk ▸ List.mem_map_of_mem fileKey hr
    rcases List.mem_map.mp this with ⟨r', hr', hk'⟩
    exact ⟨r', hr', hk'⟩
  · intro r hr hact
    have hfiles := update_directories_files nowU (obs.map fsKey)
      (scan_directory nowS obs db0).1 hscanWF.1
    have hr' : r ∈ (update_directories nowU (obs.map fsKey)
        (scan_directory nowS obs db0).1).1.files := hr
    rw [hfiles] at hr'
    rcases List.mem_map.mp hr' with ⟨q, hq, hqr⟩
    subst hqr
    by_cases hc : q.removed_date = none ∧ fileKey q ∉ obs.map fsKey
    · rw [if_pos hc] at hact
      simp at hact
    · rw [if_neg hc] at hact ⊢
      push_neg at hc
      exact hc hact

/-- Idempotency of the filesystem pass: the second pass over the same walk
results changes nothing and inserts zero rows. -/
theorem fsPass_idem (n1s n1u n2s n2u : String) (obs : List FsObs) (db0 : FsDB)
    (hWF : FsWF db0) :
    (fsPass n2s n2u obs (fsPass n1s n1u obs db0).1).1 = (fsPass n1s n1u obs db0).1 ∧
    (fsPass n2s n2u obs (fsPass n1s n1u obs db0).1).2.1 = 0 := by
  obtain ⟨F1, F2, F3⟩ := fsPass_facts n1s n1u obs db0 hWF
  set D := (fsPass n1s n1u obs db0).1 with hD
  have hscan : scan_directory n2s obs D = (D, 0, obs.length) := by
    show obs.foldl (scanStep n2s) (D, 0, 0) = (D, 0, obs.length)
    have : ∀ (l : List FsObs) (c : Nat), (∀ o ∈ l, fsFileHas D.files (fsKey o)) →
        l.foldl (scanStep n2s) (D, 0, c) = (D, 0, c + l.length) := by
      intro l
      induction l with
      | nil => intro c _; simp
      | cons o l ih =>
        intro c hall
        rw [List.foldl_cons]
        have hstep : scanStep n2s (D, 0, c) o = (D, 0, c + 1) := by
          simp only [scanStep]
          rw [insertFsFile_of_has D n2s o (hall o (List.mem_cons_self _ _))]
          simp
        rw [hstep, ih (c + 1) (fun o' ho' => hall o' (List.mem_cons_of_mem _ ho')),
          List.length_cons]
        have harith : c + 1 + l.length = c + (l.length + 1) := by omega
        rw [harith]
    rw [this obs 0 F1]
    simp
  have hupd : update_directories n2u (obs.map fsKey) D = (D, 0) := by
    have hfiles : (update_directories n2u (obs.map fsKey) D).1.files = D.files := by
      rw [update_directories_files n2u _ D F3.1]
      have : D.files.map (fun r => if r.removed_date = none ∧ fileKey r ∉ obs.map fsKey
          then { r with removed_date := some n2u } else r) = D.files.map (fun r => r) := by
        apply List.map_congr_left
        intro r hr
        rw [if_neg ?_]
        rintro ⟨hact, hns⟩
        exact hns (F2 r hr hact)
      rw [this, List.map_id']
    have hcnt : (update_directories n2u (obs.map fsKey) D).2 = 0 := by
      show ((D.files.filter (fun r => r.removed_date = none)).filter
        (fun q => fileKey q ∉ obs.map fsKey)).length = 0
      rw [List.length_eq_zero]
      rw [List.filter_eq_nil]
      intro q hq
      have hq' := List.mem_filter.mp hq
      have hact : q.removed_date = none := by simpa using hq'.2
      simp [F2 q hq'.1 hact]
    have h1 : (update_directories n2u (obs.map fsKey) D).1 = D := by
      obtain ⟨ha, hb, hc⟩ := update_directories_scans n2u (obs.map fsKey) D
      cases hupd1 : (update_directories n2u (obs.map fsKey) D).1 with
      | mk sc sd fl ni =>
        rw [hupd1] at ha hb hc hfiles
        cases hD1 : D with
        | mk sc' sd' fl' ni' =>
          rw [hD1] at ha hb hc hfiles
          simp only at ha hb hc hfiles
          rw [ha, hb, hc, hfiles]
    calc update_directories n2u (obs.map fsKey) D
        = ((update_directories n2u (obs.map fsKey) D).1,
           (update_directories n2u (obs.map fsKey) D).2) := rfl
      _ = (D, 0) := by rw [h1, hcnt]
  constructor
  · show (update_directories n2u (obs.map fsKey) (scan_directory n2s obs D).1).1 = D
    rw [hscan]
    show (update_directories n2u (obs.map fsKey) D).1 = D
    rw [hupd]
  · show (scan_directory n2s obs D).2.1 = 0
    rw [hscan]

theorem fsFrame_refl (xs : List FileRow) : fsFrame xs xs :=
  ⟨le_refl _, fun i hi hi' => rfl⟩

theorem fsFrame_trans {xs ys zs : List FileRow} (h1 : fsFrame xs ys) (h2 : fsFrame ys zs) :
    fsFrame xs zs := by
  refine ⟨le_trans h1.1 h2.1, fun i hi hi' => ?_⟩
  have hiy : i < ys.length := lt_of_lt_of_le hi h1.1
  rw [h2.2 i hiy hi', h1.2 i hi hiy]

theorem fsFrame_append (xs t : List FileRow) : fsFrame xs (xs ++ t) := by
  refine ⟨by simp, fun i hi hi' => ?_⟩
  congr 1
  exact List.getElem_append_left hi

theorem fsFrame_map {xs : List FileRow} {f : FileRow → FileRow}
    (hf : ∀ r, ffrCore (f r) = ffrCore r) : fsFrame xs (xs.map f) := by
  refine ⟨by simp, fun i hi hi' => ?_⟩
  have : (xs.map f).get ⟨i, hi'⟩ = f (xs.get ⟨i, hi⟩) := by simp
  rw [this, hf]

theorem fsFrame_of_extOf {xs ys : List FileRow} (h : extOf xs ys) : fsFrame xs ys := by
  rcases h with ⟨t, rfl⟩
  exact fsFrame_append xs t

theorem update_directories_frame (now : String) (existing : List (String × String))
    (db : FsDB) : fsFrame db.files (update_directories now existing db).1.files := by
  show fsFrame db.files ((db.files.filter (fun r => r.removed_date = none)).foldl
    (fun fs q => if fileKey q ∈ existing then fs else markRemovedById now fs q.id) db.files)
  refine foldl_preserve (fun fs : List FileRow => fsFrame db.files fs) _ ?_ _ _
    (fsFrame_refl _)
  intro fs q hfr
  by_cases hs : fileKey q ∈ existing
  · rwa [if_pos hs]
  · rw [if_neg hs]
    refine fsFrame_trans hfr (fsFrame_map ?_)
    intro r
    by_cases he : r.id = q.id <;> simp [he, ffrCore]

/-- First-write-wins frame property of a whole filesystem pass. -/
theorem fsPass_frame (nowS nowU : String) (obs : List FsObs) (db0 : FsDB) :
    fsFrame db0.files (fsPass nowS nowU obs db0).1.files := by
  have h1 : fsFrame db0.files (scan_directory nowS obs db0).1.files :=
    fsFrame_of_extOf (scan_directory_extOf nowS obs (db0, 0, 0))
  exact fsFrame_trans h1 (update_directories_frame nowU _ _)

theorem scan_preserves_has_removedIs (now : String) {K : String × String} {v : Option String}
    (obs : List FsObs) (acc : FsDB × Nat × Nat)
    (h : fsFileHas acc.1.files K ∧ fsRemovedIs acc.1.files K v) :
    fsFileHas (obs.foldl (scanStep now) acc).1.files K ∧
    fsRemovedIs (obs.foldl (scanStep now) acc).1.files K v := by
  refine foldl_preserve (fun a : FsDB × Nat × Nat =>
    fsFileHas a.1.files K ∧ fsRemovedIs a.1.files K v) _ ?_ _ _ h
  intro a o ⟨h1, h2⟩
  by_cases he : fsKey o = K
  · have : insertFsFile a.1 now o = (a.1, false) :=
      insertFsFile_of_has a.1 now o (he ▸ h1)
    show fsFileHas (insertFsFile a.1 now o).1.files K ∧
      fsRemovedIs (insertFsFile a.1 now o).1.files K v
    rw [this]
    exact ⟨h1, h2⟩
  · show fsFileHas (insertFsFile a.1 now o).1.files K ∧
      fsRemovedIs (insertFsFile a.1 now o).1.files K v
    rcases insertFsFile_cases a.1 now o with ⟨heq, _⟩ | ⟨_, hf, _⟩
    · rw [heq]
      exact ⟨h1, h2⟩
    · rw [hf]
      constructor
      · rcases h1 with ⟨r, hr, hk⟩
        exact ⟨r, List.mem_append_left _ hr, hk⟩
      · intro r hr hk
        rcases List.mem_append.mp hr with h' | h'
        · exact h2 r h' hk
        · rw [List.mem_singleton.mp h'] at hk
          exact absurd hk he

theorem scan_preserves_addedAll (now : String) {K : String × String} {a : String}
    (obs : List FsObs) (acc : FsDB × Nat × Nat)
    (h : fsFileHas acc.1.files K ∧ fsAddedAll acc.1.files K a) :
    fsFileHas (obs.foldl (scanStep now) acc).1.files K ∧
    fsAddedAll (obs.foldl (scanStep now) acc).1.files K a := by
  refine foldl_preserve (fun ac : FsDB × Nat × Nat =>
    fsFileHas ac.1.files K ∧ fsAddedAll ac.1.files K a) _ ?_ _ _ h
  intro ac o ⟨h1, h2⟩
  by_cases he : fsKey o = K
  · have : insertFsFile ac.1 now o = (ac.1, false) :=
      insertFsFile_of_has ac.1 now o (he ▸ h1)
    show fsFileHas (insertFsFile ac.1 now o).1.files K ∧
      fsAddedAll (insertFsFile ac.1 now o).1.files K a
    rw [this]
    exact ⟨h1, h2⟩
  · show fsFileHas (insertFsFile ac.1 now o).1.files K ∧
      fsAddedAll (insertFsFile ac.1 now o).1.files K a
    rcases insertFsFile_cases ac.1 now o with ⟨heq, _⟩ | ⟨_, hf, _⟩
    · rw [heq]
      exact ⟨h1, h2⟩
    · rw [hf]
      constructor
      · rcases h1 with ⟨r, hr, hk⟩
        exact ⟨r, List.mem_append_left _ hr, hk⟩
      · intro r hr hk
        rcases List.mem_append.mp hr with h' | h'
        · exact h2 r h' hk
        · rw [List.mem_singleton.mp h'] at hk
          exact absurd hk he

theorem scan_fresh_added (now : String) {K : String × String} (obs : List FsObs)
    (acc : FsDB × Nat × Nat)
    (h : ∀ r ∈ acc.1.files, fileKey r = K →
      (r.added_date = now ∧ r.removed_date = none)) :
    ∀ r ∈ (obs.foldl (scanStep now) acc).1.files, fileKey r = K →
      (r.added_date = now ∧ r.removed_date = none) := by
  refine foldl_preserve (fun ac : FsDB × Nat × Nat =>
    ∀ r ∈ ac.1.files, fileKey r = K →
      (r.added_date = now ∧ r.removed_date = none)) _ ?_ _ _ h
  intro ac o hinv
  show ∀ r ∈ (insertFsFile ac.1 now o).1.files, _
  rcases insertFsFile_cases ac.1 now o with ⟨heq, _⟩ | ⟨_, hf, _⟩
  · rw [heq]
    exact hinv
  · rw [hf]
    intro r hr hk
    rcases List.mem_append.mp hr with h' | h'
    · exact hinv r h' hk
    · rw [List.mem_singleton.mp h']
      exact ⟨rfl, rfl⟩

theorem update_removedIs_of_seen (now : String) {existing : List (String × String)}
    {K : String × String} {v : Option String} (db : FsDB)
    (hids : (db.files.map (fun r => r.id)).Nodup) (hK : K ∈ existing)
    (h : fsRemovedIs db.files K v) :
    fsRemovedIs (update_directories now existing db).1.files K v := by
  rw [update_directories_files now existing db hids]
  intro r' hr' hk'
  rcases List.mem_map.mp hr' with ⟨r, hr, hfr⟩
  subst hfr
  by_cases hc : r.removed_date = none ∧ fileKey r ∉ existing
  · rw [if_pos hc] at hk'
    rw [fs_upd_key] at hk'
    exact absurd (hk' ▸ hK) hc.2
  · rw [if_neg hc] at hk' ⊢
    exact h r hr hk'

theorem update_addedAll (now : String) (existing : List (String × String))
    {K : String × String} {a : String} (db : FsDB)
    (hids : (db.files.map (fun r => r.id)).Nodup)
    (h : fsAddedAll db.files K a) :
    fsAddedAll (update_directories now existing db).1.files K a := by
  rw [update_directories_files now existing db hids]
  intro r' hr' hk'
  rcases List.mem_map.mp hr' with ⟨r, hr, hfr⟩
  subst hfr
  by_cases hc : r.removed_date = none ∧ fileKey r ∉ existing
  · rw [if_pos hc] at hk' ⊢
    rw [fs_upd_key] at hk'
    rw [fs_upd_added]
    exact h r hr hk'
  · rw [if_neg hc] at hk' ⊢
    exact h r hr hk'

theorem update_marks (now : String) {existing : List (String × String)}
    {K : String × String} (db : FsDB)
    (hids : (db.files.map (fun r => r.id)).Nodup) (hK : K ∉ existing)
    (hact : fsRemovedIs db.files K none) :
    fsRemovedIs (update_directories now existing db).1.files K (some now) := by
  rw [update_directories_files now existing db hids]
  intro r' hr' hk'
  rcases List.mem_map.mp hr' with ⟨r, hr, hfr⟩
  subst hfr
  by_cases hc : r.removed_date = none ∧ fileKey r ∉ existing
  · rw [if_pos hc] at hk' ⊢
  · rw [if_neg hc] at hk' ⊢
    refine absurd ⟨hact r hr hk', ?_⟩ hc
    rw [hk']
    exact hK

theorem update_keeps_some (now : String) (existing : List (String × String))
    {K : String × String} {t : String} (db : FsDB)
    (hids : (db.files.map (fun r => r.id)).Nodup)
    (h : fsRemovedIs db.files K (some t)) :
    fsRemovedIs (update_directories now existing db).1.files K (some t) := by
  rw [update_directories_files now existing db hids]
  intro r' hr' hk'
  rcases List.mem_map.mp hr' with ⟨r, hr, hfr⟩
  subst hfr
  by_cases hc : r.removed_date = none ∧ fileKey r ∉ existing
  · rw [if_pos hc] at hk'
    rw [fs_upd_key] at hk'
    have := h r hr hk'
    rw [hc.1] at this
    cases this
  · rw [if_neg hc] at hk' ⊢
    exact h r hr hk'

theorem update_has (now : String) (existing : List (String × String))
    {K : String × String} (db : FsDB) (h : fsFileHas db.files K) :
    fsFileHas (update_directories now existing db).1.files K := by
  have hkeys := update_directories_keys now existing db
  rcases h with ⟨r, hr, hk⟩
  have : K ∈ ((update_directories now existing db).1.files).map fileKey := by
    rw [hkeys]
    exact hk ▸ List.mem_map_of_mem fileKey hr
  rcases List.mem_map.mp this with ⟨r', hr', hk'⟩
  exact ⟨r', hr', hk'⟩

/-- Filesystem variant behaviour over the three-pass round trip with a fresh
key: after pass 2 the key is soft-deleted; after pass 3 — although the key
is observed again — `removed_date` is NOT cleared (the scan never writes to
an existing row), while `added_date` is unchanged. -/
theorem fs_round_trip (n1s n1u n2s n2u n3s n3u : String)
    (obs1 obs2 obs3 : List FsObs) (db0 : FsDB) (K : String × String) (hWF : FsWF db0)
    (h0 : ∀ r ∈ db0.files, fileKey r ≠ K)
    (h1 : K ∈ obs1.map fsKey) (h2 : K ∉ obs2.map fsKey) (h3 : K ∈ obs3.map fsKey) :
    fsFileHas (fsPass n1s n1u obs1 db0).1.files K ∧
    fsRemovedIs (fsPass n1s n1u obs1 db0).1.files K none ∧
    fsAddedAll (fsPass n1s n1u obs1 db0).1.files K n1s ∧
    fsRemovedIs (fsPass n2s n2u obs2
      (fsPass n1s n1u obs1 db0).1).1.files K (some n2u) ∧
    fsAddedAll (fsPass n2s n2u obs2
      (fsPass n1s n1u obs1 db0).1).1.files K n1s ∧
    fsFileHas (fsPass n3s n3u obs3 (fsPass n2s n2u obs2
      (fsPass n1s n1u obs1 db0).1).1).1.files K ∧
    fsRemovedIs (fsPass n3s n3u obs3 (fsPass n2s n2u obs2
      (fsPass n1s n1u obs1 db0).1).1).1.files K (some n2u) ∧
    fsAddedAll (fsPass n3s n3u obs3 (fsPass n2s n2u obs2
      (fsPass n1s n1u obs1 db0).1).1).1.files K n1s := by
  obtain ⟨o1, ho1, hko1⟩ : ∃ o ∈ obs1, fsKey o = K := by
    rcases List.mem_map.mp h1 with ⟨o, ho, hk⟩
    exact ⟨o, ho, hk⟩
  have hWF1s : FsWF (scan_directory n1s obs1 db0).1 := FsWF_scan n1s obs1 db0 hWF
  -- pass 1, scan: K present, all K rows fresh
  have hs1has : fsFileHas (scan_directory n1s obs1 db0).1.files K := by
    have := scan_establishes n1s obs1 (db0, 0, 0) o1 ho1
    rwa [hko1] at this
  have hs1fresh : ∀ r ∈ (scan_directory n1s obs1 db0).1.files, fileKey r = K →
      (r.added_date = n1s ∧ r.removed_date = none) := by
    refine scan_fresh_added n1s obs1 (db0, 0, 0) ?_
    intro r hr hk
    exact absurd hk (h0 r hr)
  -- pass 1, update: K observed, untouched
  have hP1has : fsFileHas (fsPass n1s n1u obs1 db0).1.files K :=
    update_has n1u _ _ hs1has
  have hP1act : fsRemovedIs (fsPass n1s n1u obs1 db0).1.files K none :=
    update_removedIs_of_seen n1u _ hWF1s.1 h1 (fun r hr hk => (hs1fresh r hr hk).2)
  have hP1add : fsAddedAll (fsPass n1s n1u obs1 db0).1.files K n1s :=
    update_addedAll n1u _ _ hWF1s.1 (fun r hr hk => (hs1fresh r hr hk).1)
  have hWF1 : FsWF (fsPass n1s n1u obs1 db0).1 := FsWF_pass n1s n1u obs1 db0 hWF
  -- pass 2, scan: K unobserved, untouched
  have hs2 := scan_preserves_has_removedIs n2s obs2
    ((fsPass n1s n1u obs1 db0).1, 0, 0) ⟨hP1has, hP1act⟩
  have hs2add := scan_preserves_addedAll n2s obs2
    ((fsPass n1s n1u obs1 db0).1, 0, 0) ⟨hP1has, hP1add⟩
  have hWF2s : FsWF (scan_directory n2s obs2 (fsPass n1s n1u obs1 db0).1).1 :=
    FsWF_scan n2s obs2 _ hWF1
  -- pass 2, update: K not on disk, marked removed
  have hP2rem : fsRemovedIs (fsPass n2s n2u obs2
      (fsPass n1s n1u obs1 db0).1).1.files K (some n2u) :=
    update_marks n2u _ hWF2s.1 h2 hs2.2
  have hP2add : fsAddedAll (fsPass n2s n2u obs2
      (fsPass n1s n1u obs1 db0).1).1.files K n1s :=
    update_addedAll n2u _ _ hWF2s.1 hs2add.2
  have hP2has : fsFileHas (fsPass n2s n2u obs2
      (fsPass n1s n1u obs1 db0).1).1.files K :=
    update_has n2u _ _ hs2.1
  have hWF2 : FsWF (fsPass n2s n2u obs2 (fsPass n1s n1u obs1 db0).1).1 :=
    FsWF_pass n2s n2u obs2 _ hWF1
  -- pass 3, scan: K present (insert ignored), removed NOT cleared
  have hs3 := scan_preserves_has_removedIs n3s obs3
    ((fsPass n2s n2u obs2 (fsPass n1s n1u obs1 db0).1).1, 0, 0) ⟨hP2has, hP2rem⟩
  have hs3add := scan_preserves_addedAll n3s obs3
    ((fsPass n2s n2u obs2 (fsPass n1s n1u obs1 db0).1).1, 0, 0) ⟨hP2has, hP2add⟩
  have hWF3s : FsWF (scan_directory n3s obs3
      (fsPass n2s n2u obs2 (fsPass n1s n1u obs1 db0).1).1).1 :=
    FsWF_scan n3s obs3 _ hWF2
  -- pass 3, update: K rows already removed, untouched
  have hP3rem : fsRemovedIs (fsPass n3s n3u obs3 (fsPass n2s n2u obs2
      (fsPass n1s n1u obs1 db0).1).1).1.files K (some n2u) :=
    update_keeps_some n3u _ _ hWF3s.1 hs3.2
  have hP3add : fsAddedAll (fsPass n3s n3u obs3 (fsPass n2s n2u obs2
      (fsPass n1s n1u obs1 db0).1).1).1.files K n1s :=
    update_addedAll n3u _ _ hWF3s.1 hs3add.2
  have hP3has : fsFileHas (fsPass n3s n3u obs3 (fsPass n2s n2u obs2
      (fsPass n1s n1u obs1 db0).1).1).1.files K :=
    update_has n3u _ _ hs3.1
  exact ⟨hP1has, hP1act, hP1add, hP2rem, hP2add, hP3has, hP3rem, hP3add⟩

/-! ## Commit-trace lemmas (pass atomicity) -/
theorem runOps_append {σ : Type} (c : σ × σ) :
    ∀ (ops1 ops2 : List (DbOp σ)),
      runOps c (ops1 ++ ops2) = runOps (runOps c ops1) ops2 := by
  intro ops1
  induction ops1 generalizing c with
  | nil => intro ops2; rfl
  | cons op ops1 ih =>
    intro ops2
    cases op with
    | write f => exact ih (c.1, f c.2) ops2
    | commit => exact ih (c.2, c.2) ops2

theorem runOps_no_commit {σ : Type} :
    ∀ (ops : List (DbOp σ)) (c : σ × σ), (∀ op ∈ ops, isCommit op = false) →
      (runOps c ops).1 = c.1 := by
  intro ops
  induction ops with
  | nil => intro c _; rfl
  | cons op ops ih =>
    intro c hall
    cases op with
    | write f => exact ih (c.1, f c.2) (fun o ho => hall o (List.mem_cons_of_mem _ ho))
    | commit =>
      have := hall DbOp.commit (List.mem_cons_self _ _)
      simp [isCommit] at this

theorem take_no_commit {σ : Type} (W : List (DbOp σ))
    (hW : ∀ op ∈ W, isCommit op = false) (k : Nat)
    (hk : k < (W ++ [DbOp.commit]).length) :
    ∀ op ∈ (W ++ [DbOp.commit]).take k, isCommit op = false := by
  intro op hop
  have hkW : k ≤ W.length := by
    have : k < W.length + 1 := by simpa using hk
    omega
  rw [List.take_append_of_le_length hkW] at hop
  exact hW op (List.mem_of_mem_take hop)

theorem commitCount_writes_append {σ : Type} (W : List (DbOp σ))
    (hW : ∀ op ∈ W, isCommit op = false) :
    commitCount (W ++ [DbOp.commit]) = 1 := by
  rw [commitCount, List.filter_append]
  have h1 : W.filter isCommit = [] := List.filter_eq_nil.mpr (fun op hop => by
    rw [hW op hop]
    simp)
  rw [h1]
  rfl

theorem sonarrSyncOps_writes (now : String) (obs : List SonarrSeriesObs) :
    ∀ op ∈ obs.map (fun so => (DbOp.write (sonarrDbStep now so) : DbOp SonarrDB))
      ++ [DbOp.write (fun db => { db with
            files := sonarrFinalize now (sonarrObsPaths obs) db.files })],
      isCommit op = false := by
  intro op hop
  rcases List.mem_append.mp hop with h | h
  · rcases List.mem_map.mp h with ⟨so, _, heq⟩
    rw [← heq]
    rfl
  · rw [List.mem_singleton.mp h]
    rfl

theorem sonarrSyncOps_split (now : String) (obs : List SonarrSeriesObs) :
    sonarrSyncOps now obs
      = (obs.map (fun so => (DbOp.write (sonarrDbStep now so) : DbOp SonarrDB))
        ++ [DbOp.write (fun db => { db with
              files := sonarrFinalize now (sonarrObsPaths obs) db.files })])
        ++ [DbOp.commit] := by
  rw [sonarrSyncOps, List.append_assoc]
  rfl

/-- `sync_sonarr` commits exactly once. -/
theorem sonarrSyncOps_count (now : String) (obs : List SonarrSeriesObs) :
    commitCount (sonarrSyncOps now obs) = 1 := by
  rw [sonarrSyncOps_split]
  exact commitCount_writes_append _ (sonarrSyncOps_writes now obs)

/-- A failure at any point of a Sonarr pass before the final commit leaves
the committed database exactly as it was before the pass. -/
theorem sonarrSyncOps_prefix_safe (now : String) (obs : List SonarrSeriesObs)
    (db : SonarrDB) (k : Nat) (hk : k < (sonarrSyncOps now obs).length) :
    (runOps (db, db) ((sonarrSyncOps now obs).take k)).1 = db := by
  rw [sonarrSyncOps_split] at hk ⊢
  exact runOps_no_commit _ _ (take_no_commit _ (sonarrSyncOps_writes now obs) k hk)

theorem plexSyncOps_writes (now : String) (obs : List PlexSectionObs) :
    ∀ op ∈ obs.map (fun sec => (DbOp.write (plexDbStep now sec) : DbOp PlexDB))
      ++ [DbOp.write (fun db => { db with
            files := plexFinalize now (plexObsKeys obs) db.files })],
      isCommit op = false := by
  intro op hop
  rcases List.mem_append.mp hop with h | h
  · rcases List.mem_map.mp h with ⟨sec, _, heq⟩
    rw [← heq]
    rfl
  · rw [List.mem_singleton.mp h]
    rfl

theorem plexSyncOps_split (now : String) (obs : List PlexSectionObs) :
    plexSyncOps now obs
      = (obs.map (fun sec => (DbOp.write (plexDbStep now sec) : DbOp PlexDB))
        ++ [DbOp.write (fun db => { db with
              files := plexFinalize now (plexObsKeys obs) db.files })])
        ++ [DbOp.commit] := by
  rw [plexSyncOps, List.append_assoc]
  rfl

/-- `sync_plex` commits exactly once. -/
theorem plexSyncOps_count (now : String) (obs : List PlexSectionObs) :
    commitCount (plexSyncOps now obs) = 1 := by
  rw [plexSyncOps_split]
  exact commitCount_writes_append _ (plexSyncOps_writes now obs)

/-- A failure at any point of a Plex pass before the final commit leaves the
committed database exactly as it was before the pass. -/
theorem plexSyncOps_prefix_safe (now : String) (obs : List PlexSectionObs)
    (db : PlexDB) (k : Nat) (hk : k < (plexSyncOps now obs).length) :
    (runOps (db, db) ((plexSyncOps now obs).take k)).1 = db := by
  rw [plexSyncOps_split] at hk ⊢
  exact runOps_no_commit _ _ (take_no_commit _ (plexSyncOps_writes now obs) k hk)

/-- The filesystem script's run commits four separate times. -/
theorem fsMainOps_count (nowS nowU dirname : String) (obs : List FsObs)
    (existing : List (String × String)) :
    commitCount (fsMainOps nowS nowU dirname obs existing) = 4 := by
  rw [fsMainOps, commitCount]
  rw [List.filter_append, List.filter_append]
  have h1 : (obs.map (fun o =>
      (DbOp.write (fun db => (insertFsFile db nowS o).1) : DbOp FsDB))).filter
        isCommit = [] := by
    rw [List.filter_eq_nil]
    intro op hop
    rcases List.mem_map.mp hop with ⟨o, _, heq⟩
    rw [← heq]
    simp [isCommit]
  rw [h1]
  rfl

theorem sonarrStepFile_db_congr (now : String) (sid : Nat) (eps : List SonarrEpisodeObs)
    (ef : SonarrFileObs) {st st' : SonarrPass} (h : st.db = st'.db) :
    (sonarrStepFile now sid eps st ef).db = (sonarrStepFile now sid eps st' ef).db := by
  rcases hids : ef.episodeIds with _ | ⟨eid, rest⟩
  · simp only [sonarrStepFile, hids, h]
  · rcases hlk : lookupEpisodeObs eps eid with _ | ep <;>
      simp only [sonarrStepFile, hids, hlk, h]

theorem sonarrFold_db_congr (now : String) :
    ∀ (efs : List SonarrFileObs) (sid : Nat) (eps : List SonarrEpisodeObs)
      (a a' : SonarrPass), a.db = a'.db →
      (efs.foldl (sonarrStepFile now sid eps) a).db
        = (efs.foldl (sonarrStepFile now sid eps) a').db := by
  intro efs
  induction efs with
  | nil => intro sid eps a a' h; exact h
  | cons ef efs ih =>
    intro sid eps a a' h
    rw [List.foldl_cons, List.foldl_cons]
    exact ih sid eps _ _ (sonarrStepFile_db_congr now sid eps ef h)

theorem sonarrStepSeries_db_congr (now : String) (so : SonarrSeriesObs)
    {st st' : SonarrPass} (h : st.db = st'.db) :
    (sonarrStepSeries now st so).db = (sonarrStepSeries now st' so).db := by
  simp only [sonarrStepSeries, h]
  exact sonarrFold_db_congr now _ _ _ _ _ rfl

theorem sonarr_stream_db_eq (now : String) :
    ∀ (obs : List SonarrSeriesObs) (d : SonarrDB) (st : SonarrPass), st.db = d →
      obs.foldl (fun d' so => sonarrDbStep now so d') d
        = (obs.foldl (sonarrStepSeries now) st).db := by
  intro obs
  induction obs with
  | nil => intro d st h; exact h.symm
  | cons so obs ih =>
    intro d st h
    rw [List.foldl_cons, List.foldl_cons]
    refine ih _ _ ?_
    show (sonarrStepSeries now st so).db = sonarrDbStep now so d
    rw [sonarrDbStep]
    exact sonarrStepSeries_db_congr now so (by rw [h])

theorem runOps_writes_fold {σ : Type} {β : Type} (g : β → σ → σ) :
    ∀ (l : List β) (c cur : σ),
      runOps (c, cur) (l.map (fun b => DbOp.write (g b)))
        = (c, l.foldl (fun s b => g b s) cur) := by
  intro l
  induction l with
  | nil => intro c cur; rfl
  | cons b l ih =>
    intro c cur
    rw [List.map_cons, List.foldl_cons]
    exact ih c (g b cur)

/-- Running the Sonarr pass's operation trace produces, and commits, exactly
the pass result. -/
theorem sonarrSyncOps_run (now : String) (obs : List SonarrSeriesObs) (db : SonarrDB) :
    runOps (db, db) (sonarrSyncOps now obs)
      = ((sync_sonarr now obs db).db, (sync_sonarr now obs db).db) := by
  rw [sonarrSyncOps_split, runOps_append, runOps_append]
  rw [runOps_writes_fold (fun so d => sonarrDbStep now so d) obs db db]
  have hdb : obs.foldl (fun s so => sonarrDbStep now so s) db
      = (obs.foldl (sonarrStepSeries now) (⟨db, [], 0, 0, 0⟩ : SonarrPass)).db :=
    sonarr_stream_db_eq now obs db _ rfl
  have hseen : (obs.foldl (sonarrStepSeries now) (⟨db, [], 0, 0, 0⟩ : SonarrPass)).seen
      = sonarrObsPaths obs := by
    rw [sonarrStream_seen]
    exact List.nil_append _
  show runOps (db, { obs.foldl (fun s so => sonarrDbStep now so s) db with
      files := sonarrFinalize now (sonarrObsPaths obs)
        (obs.foldl (fun s so => sonarrDbStep now so s) db).files }) [DbOp.commit] = _
  rw [hdb, ← hseen]
  rfl

theorem plexStepPart_db_congr (now : String) (sid eid : Nat) (part : PlexPartObs)
    {st st' : PlexPass} (h : st.db = st'.db) :
    (plexStepPart now sid eid st part).db = (plexStepPart now sid eid st' part).db := by
  simp only [plexStepPart, h]

theorem plexPartsFold_db_congr (now : String) :
    ∀ (parts : List PlexPartObs) (sid eid : Nat) (a a' : PlexPass), a.db = a'.db →
      (parts.foldl (plexStepPart now sid eid) a).db
        = (parts.foldl (plexStepPart now sid eid) a').db := by
  intro parts
  induction parts with
  | nil => intro sid eid a a' h; exact h
  | cons p parts ih =>
    intro sid eid a a' h
    rw [List.foldl_cons, List.foldl_cons]
    exact ih sid eid _ _ (plexStepPart_db_congr now sid eid p h)

theorem plexStepEpisode_db_congr (now : String) (sid : Nat) (sn : Option String)
    (ep : PlexEpisodeObs) {st st' : PlexPass} (h : st.db = st'.db) :
    (plexStepEpisode now sid sn st ep).db = (plexStepEpisode now sid sn st' ep).db := by
  simp only [plexStepEpisode, h]
  exact plexPartsFold_db_congr now _ _ _ _ _ rfl

theorem plexEpsFold_db_congr (now : String) :
    ∀ (eps : List PlexEpisodeObs) (sid : Nat) (sn : Option String) (a a' : PlexPass),
      a.db = a'.db →
      (eps.foldl (plexStepEpisode now sid sn) a).db
        = (eps.foldl (plexStepEpisode now sid sn) a').db := by
  intro eps
  induction eps with
  | nil => intro sid sn a a' h; exact h
  | cons ep eps ih =>
    intro sid sn a a' h
    rw [List.foldl_cons, List.foldl_cons]
    exact ih sid sn _ _ (plexStepEpisode_db_congr now sid sn ep h)

theorem plexStepSeason_db_congr (now : String) (sid : Nat) (season : PlexSeasonObs)
    {st st' : PlexPass} (h : st.db = st'.db) :
    (plexStepSeason now sid st season).db = (plexStepSeason now sid st' season).db := by
  simp only [plexStepSeason]
  exact plexEpsFold_db_congr now _ _ _ _ _ h

theorem plexSeasonsFold_db_congr (now : String) :
    ∀ (seasons : List PlexSeasonObs) (sid : Nat) (a a' : PlexPass), a.db = a'.db →
      (seasons.foldl (plexStepSeason now sid) a).db
        = (seasons.foldl (plexStepSeason now sid) a').db := by
  intro seasons
  induction seasons with
  | nil => intro sid a a' h; exact h
  | cons se seasons ih =>
    intro sid a a' h
    rw [List.foldl_cons, List.foldl_cons]
    exact ih sid _ _ (plexStepSeason_db_congr now sid se h)

theorem plexStepShow_db_congr (now : String) (sh : PlexShowObs)
    {st st' : PlexPass} (h : st.db = st'.db) :
    (plexStepShow now st sh).db = (plexStepShow now st' sh).db := by
  simp only [plexStepShow, h]
  exact plexSeasonsFold_db_congr now _ _ _ _ rfl

theorem plexShowsFold_db_congr (now : String) :
    ∀ (shows : List PlexShowObs) (a a' : PlexPass), a.db = a'.db →
      (shows.foldl (plexStepShow now) a).db = (shows.foldl (plexStepShow now) a').db := by
  intro shows
  induction shows with
  | nil => intro a a' h; exact h
  | cons sh shows ih =>
    intro a a' h
    rw [List.foldl_cons, List.foldl_cons]
    exact ih _ _ (plexStepShow_db_congr now sh h)

theorem plexStepSection_db_congr (now : String) (sec : PlexSectionObs)
    {st st' : PlexPass} (h : st.db = st'.db) :
    (plexStepSection now st sec).db = (plexStepSection now st' sec).db := by
  simp only [plexStepSection]
  exact plexShowsFold_db_congr now _ _ _ h

theorem plex_stream_db_eq (now : String) :
    ∀ (obs : List PlexSectionObs) (d : PlexDB) (st : PlexPass), st.db = d →
      obs.foldl (fun d' sec => plexDbStep now sec d') d
        = (obs.foldl (plexStepSection now) st).db := by
  intro obs
  induction obs with
  | nil => intro d st h; exact h.symm
  | cons sec obs ih =>
    intro d st h
    rw [List.foldl_cons, List.foldl_cons]
    refine ih _ _ ?_
    show (plexStepSection now st sec).db = plexDbStep now sec d
    rw [plexDbStep]
    exact plexStepSection_db_congr now sec (by rw [h])

/-- Running the Plex pass's operation trace produces, and commits, exactly
the pass result. -/
theorem plexSyncOps_run (now : String) (obs : List PlexSectionObs) (db : PlexDB) :
    runOps (db, db) (plexSyncOps now obs)
      = ((sync_plex now obs db).db, (sync_plex now obs db).db) := by
  rw [plexSyncOps_split, runOps_append, runOps_append]
  rw [runOps_writes_fold (fun sec d => plexDbStep now sec d) obs db db]
  have hdb : obs.foldl (fun s sec => plexDbStep now sec s) db
      = (obs.foldl (plexStepSection now) (⟨db, [], 0⟩ : PlexPass)).db :=
    plex_stream_db_eq now obs db _ rfl
  have hseen : (obs.foldl (plexStepSection now) (⟨db, [], 0⟩ : PlexPass)).seen
      = plexObsKeys obs := by
    rw [plexStream_seen]
    exact List.nil_append _
  show runOps (db, { obs.foldl (fun s sec => plexDbStep now sec s) db with
      files := plexFinalize now (plexObsKeys obs)
        (obs.foldl (fun s sec => plexDbStep now sec s) db).files }) [DbOp.commit] = _
  rw [hdb, ← hseen]
  rfl

/-- Inserting a fresh path and then clearing it appends exactly one row. -/
theorem sonarr_insert_clear_fresh (db : SonarrDB) (p : String) (sid : Nat)
    (l : Option Nat) (now : String) (hno : ¬ fileHas db.files p) :
    (clearSonarrRemoved (insertSonarrFile db p sid l now) p).files
      = db.files ++ [⟨db.nextFileId, p, sid, l, now, none⟩] := by
  have hins : (insertSonarrFile db p sid l now).files
      = db.files ++ [⟨db.nextFileId, p, sid, l, now, none⟩] := by
    rcases insertSonarrFile_files db p sid l now with hf | ⟨_, hf⟩
    · exfalso
      have hhas := fileHas_insert_self db p sid l now
      rw [hf] at hhas
      exact hno hhas
    · exact hf
  show ((insertSonarrFile db p sid l now).files).map _ = _
  rw [hins, List.map_append]
  have hold : db.files.map (fun r => if r.file_path = p
      then { r with removed_date := none } else r) = db.files := by
    have : db.files.map (fun r => if r.file_path = p
        then { r with removed_date := none } else r) = db.files.map (fun r => r) := by
      apply List.map_congr_left
      intro r hr
      rw [if_neg (fun hc => hno ⟨r, hr, hc⟩)]
    rw [this, List.map_id']
  rw [hold]
  simp

/-- Observation with a failed stat call (`ctime = none`): the file is still
recorded, with a null `creation_date`. -/
theorem insertFsFile_statFailure (db : FsDB) (now : String) (o : FsObs)
    (hctime : o.ctime = none) :
    (¬ fsFileHas db.files (fsKey o) →
      (insertFsFile db now o).1.files
        = db.files ++ [⟨db.nextFileId, o.filename, o.rootPath, none, now, none⟩] ∧
      (insertFsFile db now o).2 = true) ∧
    (fsFileHas db.files (fsKey o) → insertFsFile db now o = (db, false)) := by
  constructor
  · intro hno
    rcases insertFsFile_cases db now o with ⟨heq, hhas⟩ | ⟨_, hf, _, _, _, hb⟩
    · exact absurd hhas hno
    · rw [hf, hb, hctime]
      exact ⟨rfl, rfl⟩
  · intro hhas
    exact insertFsFile_of_has db now o hhas

theorem scan_directory_counts (now : String) (obs : List FsObs) (db : FsDB) :
    (scan_directory now obs db).2.2 = obs.length := by
  show (obs.foldl (scanStep now) (db, 0, 0)).2.2 = obs.length
  rw [scan_directory_processed]
  simp

/-! ## Claim theorems -/
/-- Claim C1: running the same observation set through a pass twice in a row
yields identical store state after the second pass as after the first: the
second pass inserts no rows and changes no stored attribute, and the
filesystem variant's `total_inserted` counter reads zero on the second pass
(the Sonarr and Plex variants keep no inserted counter, so for them equality
of the whole store state expresses "no inserts, no drift").  Holds for every
observation set over every store satisfying the uniqueness constraints. -/
theorem C1_idempotency :
    (∀ (n1s n1u n2s n2u : String) (obs : List FsObs) (db0 : FsDB), FsWF db0 →
      (fsPass n2s n2u obs (fsPass n1s n1u obs db0).1).1 = (fsPass n1s n1u obs db0).1 ∧
      (fsPass n2s n2u obs (fsPass n1s n1u obs db0).1).2.1 = 0) ∧
    (∀ (now1 now2 : String) (obs : List SonarrSeriesObs) (db0 : SonarrDB),
      sonarrWF db0.files →
      (sync_sonarr now2 obs (sync_sonarr now1 obs db0).db).db
        = (sync_sonarr now1 obs db0).db) ∧
    (∀ (now1 now2 : String) (obs : List PlexSectionObs) (db0 : PlexDB),
      plexWF db0.files →
      (sync_plex now2 obs (sync_plex now1 obs db0).db).db
        = (sync_plex now1 obs db0).db) :=
  ⟨fun n1s n1u n2s n2u obs db0 h => fsPass_idem n1s n1u n2s n2u obs db0 h,
   fun now1 now2 obs db0 h => sync_sonarr_idem now1 now2 obs db0 h,
   fun now1 now2 obs db0 h => sync_plex_idem now1 now2 obs db0 h⟩

theorem C1_idempotency_witness :
    FsWF sampleFsDB ∧ sonarrWF sampleSonarrDB.files ∧ plexWF samplePlexDB.files ∧
    ((fsPass "b1" "b2" sampleFsObs (fsPass "a1" "a2" sampleFsObs sampleFsDB).1).1
        = (fsPass "a1" "a2" sampleFsObs sampleFsDB).1 ∧
      (fsPass "b1" "b2" sampleFsObs (fsPass "a1" "a2" sampleFsObs sampleFsDB).1).2.1 = 0) ∧
    (sync_sonarr "t2" sampleSonarrObs (sync_sonarr "t1" sampleSonarrObs sampleSonarrDB).db).db
      = (sync_sonarr "t1" sampleSonarrObs sampleSonarrDB).db ∧
    (sync_plex "t2" samplePlexObs (sync_plex "t1" samplePlexObs samplePlexDB).db).db
      = (sync_plex "t1" samplePlexObs samplePlexDB).db :=
  ⟨by decide, by decide, by decide,
   C1_idempotency.1 "a1" "a2" "b1" "b2" sampleFsObs sampleFsDB (by decide),
   C1_idempotency.2.1 "t1" "t2" sampleSonarrObs sampleSonarrDB (by decide),
   C1_idempotency.2.2 "t1" "t2" samplePlexObs samplePlexDB (by decide)⟩

/-- Counterexample to claim C2 as stated: in the filesystem variant a key
observed in pass 1, absent in pass 2 and observed again in pass 3 still has
a non-null `removed_date` after pass 3 — `scan_directory` never clears
`removed_date` on re-observation, and `update_directories` only looks at
active rows. -/
theorem C2_filesystem_counterexample :
    ∃ r ∈ (fsPass "t3" "t3u" sampleFsObs
        (fsPass "t2" "t2u" []
          (fsPass "t1" "t1u" sampleFsObs sampleFsDB).1).1).1.files,
      fileKey r = ("a.mkv", "/tv") ∧ r.added_date = "t1" ∧ r.removed_date = some "t2u" := by
  decide

/-- Claim C2 (amended): the soft-delete round trip — `removed_date` non-null
after pass 2, null again after pass 3 with `added_date` unchanged — holds
for the Sonarr and Plex variants; in the filesystem variant pass 2 sets
`removed_date`, but pass 3 does NOT clear it (it keeps the pass-2 timestamp)
while `added_date` is still unchanged. -/
theorem C2_soft_delete_round_trip :
    (∀ (now1 now2 now3 : String) (obs1 obs2 obs3 : List SonarrSeriesObs)
      (db0 : SonarrDB) (K : String), sonarrWF db0.files →
      K ∈ sonarrObsPaths obs1 → K ∉ sonarrObsPaths obs2 → K ∈ sonarrObsPaths obs3 →
      ∃ a : String,
        fileHas (sync_sonarr now1 obs1 db0).db.files K ∧
        removedIs (sync_sonarr now1 obs1 db0).db.files K none ∧
        addedAll (sync_sonarr now1 obs1 db0).db.files K a ∧
        removedIs (sync_sonarr now2 obs2
          (sync_sonarr now1 obs1 db0).db).db.files K (some now2) ∧
        addedAll (sync_sonarr now2 obs2
          (sync_sonarr now1 obs1 db0).db).db.files K a ∧
        fileHas (sync_sonarr now3 obs3 (sync_sonarr now2 obs2
          (sync_sonarr now1 obs1 db0).db).db).db.files K ∧
        removedIs (sync_sonarr now3 obs3 (sync_sonarr now2 obs2
          (sync_sonarr now1 obs1 db0).db).db).db.files K none ∧
        addedAll (sync_sonarr now3 obs3 (sync_sonarr now2 obs2
          (sync_sonarr now1 obs1 db0).db).db).db.files K a) ∧
    (∀ (now1 now2 now3 : String) (obs1 obs2 obs3 : List PlexSectionObs)
      (db0 : PlexDB) (k : String × String), plexWF db0.files →
      k ∈ plexObsKeys obs1 → k ∉ plexObsKeys obs2 → k ∈ plexObsKeys obs3 →
      ∃ a : String,
        plexFileHas (sync_plex now1 obs1 db0).db.files k ∧
        plexRemovedIs (sync_plex now1 obs1 db0).db.files k none ∧
        plexAddedAll (sync_plex now1 obs1 db0).db.files k a ∧
        plexRemovedIs (sync_plex now2 obs2
          (sync_plex now1 obs1 db0).db).db.files k (some now2) ∧
        plexAddedAll (sync_plex now2 obs2
          (sync_plex now1 obs1 db0).db).db.files k a ∧
        plexFileHas (sync_plex now3 obs3 (sync_plex now2 obs2
          (sync_plex now1 obs1 db0).db).db).db.files k ∧
        plexRemovedIs (sync_plex now3 obs3 (sync_plex now2 obs2
          (sync_plex now1 obs1 db0).db).db).db.files k none ∧
        plexAddedAll (sync_plex now3 obs3 (sync_plex now2 obs2
          (sync_plex now1 obs1 db0).db).db).db.files k a) ∧
    (∀ (n1s n1u n2s n2u n3s n3u : String) (obs1 obs2 obs3 : List FsObs)
      (db0 : FsDB) (K : String × String), FsWF db0 →
      (∀ r ∈ db0.files, fileKey r ≠ K) →
      K ∈ obs1.map fsKey → K ∉ obs2.map fsKey → K ∈ obs3.map fsKey →
      fsFileHas (fsPass n1s n1u obs1 db0).1.files K ∧
      fsRemovedIs (fsPass n1s n1u obs1 db0).1.files K none ∧
      fsAddedAll (fsPass n1s n1u obs1 db0).1.files K n1s ∧
      fsRemovedIs (fsPass n2s n2u obs2
        (fsPass n1s n1u obs1 db0).1).1.files K (some n2u) ∧
      fsAddedAll (fsPass n2s n2u obs2
        (fsPass n1s n1u obs1 db0).1).1.files K n1s ∧
      fsFileHas (fsPass n3s n3u obs3 (fsPass n2s n2u obs2
        (fsPass n1s n1u obs1 db0).1).1).1.files K ∧
      fsRemovedIs (fsPass n3s n3u obs3 (fsPass n2s n2u obs2
        (fsPass n1s n1u obs1 db0).1).1).1.files K (some n2u) ∧
      fsAddedAll (fsPass n3s n3u obs3 (fsPass n2s n2u obs2
        (fsPass n1s n1u obs1 db0).1).1).1.files K n1s) :=
  ⟨fun now1 now2 now3 obs1 obs2 obs3 db0 K hWF h1 h2 h3 =>
      sonarr_round_trip now1 now2 now3 obs1 obs2 obs3 db0 K hWF h1 h2 h3,
   fun now1 now2 now3 obs1 obs2 obs3 db0 k hWF h1 h2 h3 =>
      plex_round_trip now1 now2 now3 obs1 obs2 obs3 db0 k hWF h1 h2 h3,
   fun n1s n1u n2s n2u n3s n3u obs1 obs2 obs3 db0 K hWF h0 h1 h2 h3 =>
      fs_round_trip n1s n1u n2s n2u n3s n3u obs1 obs2 obs3 db0 K hWF h0 h1 h2 h3⟩

theorem C2_soft_delete_round_trip_witness :
    sonarrWF sampleSonarrDB.files ∧
    "/tv/a.mkv" ∈ sonarrObsPaths sampleSonarrObs ∧
    "/tv/a.mkv" ∉ sonarrObsPaths ([] : List SonarrSeriesObs) ∧
    (∃ a : String,
      fileHas (sync_sonarr "t1" sampleSonarrObs sampleSonarrDB).db.files "/tv/a.mkv" ∧
      removedIs (sync_sonarr "t1" sampleSonarrObs sampleSonarrDB).db.files "/tv/a.mkv" none ∧
      addedAll (sync_sonarr "t1" sampleSonarrObs sampleSonarrDB).db.files "/tv/a.mkv" a ∧
      removedIs (sync_sonarr "t2" []
        (sync_sonarr "t1" sampleSonarrObs sampleSonarrDB).db).db.files "/tv/a.mkv"
        (some "t2") ∧
      addedAll (sync_sonarr "t2" []
        (sync_sonarr "t1" sampleSonarrObs sampleSonarrDB).db).db.files "/tv/a.mkv" a ∧
      fileHas (sync_sonarr "t3" sampleSonarrObs (sync_sonarr "t2" []
        (sync_sonarr "t1" sampleSonarrObs sampleSonarrDB).db).db).db.files "/tv/a.mkv" ∧
      removedIs (sync_sonarr "t3" sampleSonarrObs (sync_sonarr "t2" []
        (sync_sonarr "t1" sampleSonarrObs sampleSonarrDB).db).db).db.files "/tv/a.mkv"
        none ∧
      addedAll (sync_sonarr "t3" sampleSonarrObs (sync_sonarr "t2" []
        (sync_sonarr "t1" sampleSonarrObs sampleSonarrDB).db).db).db.files "/tv/a.mkv" a) :=
  ⟨by decide, by decide, by decide,
   C2_soft_delete_round_trip.1 "t1" "t2" "t3" sampleSonarrObs [] sampleSonarrObs
     sampleSonarrDB "/tv/a.mkv" (by decide) (by decide) (by decide) (by decide)⟩

/-- Claim C3: after the finalizing step, a row has its `removed_date` set to
the pass timestamp iff it was active when finalization began and its key is
not in the seen-key set; already-removed rows whose key was not seen are
left untouched.  Stated for both API variants, over any table satisfying the
uniqueness constraint whose rows do not already carry the fresh pass
timestamp. -/
theorem C3_finalize_set_difference :
    (∀ (now : String) (seen : List String) (files : List SonarrFileRow),
      sonarrWF files → (∀ r ∈ files, r.removed_date ≠ some now) →
      (sonarrFinalize now seen files).length = files.length ∧
      ∀ i : Nat, ∀ hi : i < files.length,
        ∀ hi' : i < (sonarrFinalize now seen files).length,
        (((sonarrFinalize now seen files).get ⟨i, hi'⟩).removed_date = some now ↔
          ((files.get ⟨i, hi⟩).removed_date = none ∧
            (files.get ⟨i, hi⟩).file_path ∉ seen)) ∧
        ((files.get ⟨i, hi⟩).removed_date ≠ none → (files.get ⟨i, hi⟩).file_path ∉ seen →
          (sonarrFinalize now seen files).get ⟨i, hi'⟩ = files.get ⟨i, hi⟩)) ∧
    (∀ (now : String) (seen : List (String × String)) (files : List PlexFileRow),
      plexWF files → (∀ r ∈ files, r.removed_date ≠ some now) →
      (plexFinalize now seen files).length = files.length ∧
      ∀ i : Nat, ∀ hi : i < files.length,
        ∀ hi' : i < (plexFinalize now seen files).length,
        (((plexFinalize now seen files).get ⟨i, hi'⟩).removed_date = some now ↔
          ((files.get ⟨i, hi⟩).removed_date = none ∧
            plexFileKey (files.get ⟨i, hi⟩) ∉ seen)) ∧
        ((files.get ⟨i, hi⟩).removed_date ≠ none →
          plexFileKey (files.get ⟨i, hi⟩) ∉ seen →
          (plexFinalize now seen files).get ⟨i, hi'⟩ = files.get ⟨i, hi⟩)) :=
  ⟨fun now seen files hWF hfresh => sonarrFinalize_spec now seen files hWF hfresh,
   fun now seen files hWF hfresh => plexFinalize_spec now seen files hWF hfresh⟩

theorem C3_finalize_set_difference_witness :
    sonarrWF [⟨1, "/a", 1, none, "t0", none⟩, ⟨2, "/b", 1, none, "t0", some "t0"⟩] ∧
    (∀ r ∈ ([⟨1, "/a", 1, none, "t0", none⟩,
        ⟨2, "/b", 1, none, "t0", some "t0"⟩] : List SonarrFileRow),
      r.removed_date ≠ some "t1") ∧
    ((sonarrFinalize "t1" []
        [⟨1, "/a", 1, none, "t0", none⟩, ⟨2, "/b", 1, none, "t0", some "t0"⟩]).length
      = ([⟨1, "/a", 1, none, "t0", none⟩,
          ⟨2, "/b", 1, none, "t0", some "t0"⟩] : List SonarrFileRow).length ∧
    ∀ i : Nat, ∀ hi : i < ([⟨1, "/a", 1, none, "t0", none⟩,
        ⟨2, "/b", 1, none, "t0", some "t0"⟩] : List SonarrFileRow).length,
      ∀ hi' : i < (sonarrFinalize "t1" []
        [⟨1, "/a", 1, none, "t0", none⟩, ⟨2, "/b", 1, none, "t0", some "t0"⟩]).length,
      (((sonarrFinalize "t1" []
          [⟨1, "/a", 1, none, "t0", none⟩,
           ⟨2, "/b", 1, none, "t0", some "t0"⟩]).get ⟨i, hi'⟩).removed_date = some "t1" ↔
        ((([⟨1, "/a", 1, none, "t0", none⟩,
            ⟨2, "/b", 1, none, "t0", some "t0"⟩] : List SonarrFileRow).get
              ⟨i, hi⟩).removed_date = none ∧
          (([⟨1, "/a", 1, none, "t0", none⟩,
            ⟨2, "/b", 1, none, "t0", some "t0"⟩] : List SonarrFileRow).get
              ⟨i, hi⟩).file_path ∉ ([] : List String))) ∧
      ((([⟨1, "/a", 1, none, "t0", none⟩,
          ⟨2, "/b", 1, none, "t0", some "t0"⟩] : List SonarrFileRow).get
            ⟨i, hi⟩).removed_date ≠ none →
        (([⟨1, "/a", 1, none, "t0", none⟩,
          ⟨2, "/b", 1, none, "t0", some "t0"⟩] : List SonarrFileRow).get
            ⟨i, hi⟩).file_path ∉ ([] : List String) →
        (sonarrFinalize "t1" []
          [⟨1, "/a", 1, none, "t0", none⟩,
           ⟨2, "/b", 1, none, "t0", some "t0"⟩]).get ⟨i, hi'⟩
          = ([⟨1, "/a", 1, none, "t0", none⟩,
              ⟨2, "/b", 1, none, "t0", some "t0"⟩] : List SonarrFileRow).get ⟨i, hi⟩)) :=
  ⟨by decide, by decide,
   C3_finalize_set_difference.1 "t1" []
     [⟨1, "/a", 1, none, "t0", none⟩, ⟨2, "/b", 1, none, "t0", some "t0"⟩]
     (by decide) (by decide)⟩

/-- Claim C4: a pass whose observation stream yields zero entities inserts
nothing (tables, allocators and counters unchanged) and marks every
currently-active leaf row removed with the pass timestamp; the empty case
runs the ordinary finalization, not a special-cased no-op. -/
theorem C4_empty_observation_set :
    (∀ (now : String) (db0 : SonarrDB), sonarrWF db0.files →
      (sync_sonarr now [] db0).db.series = db0.series ∧
      (sync_sonarr now [] db0).db.episodes = db0.episodes ∧
      (sync_sonarr now [] db0).db.nextSeriesId = db0.nextSeriesId ∧
      (sync_sonarr now [] db0).db.nextEpisodeId = db0.nextEpisodeId ∧
      (sync_sonarr now [] db0).db.nextFileId = db0.nextFileId ∧
      (sync_sonarr now [] db0).db.files.length = db0.files.length ∧
      (sync_sonarr now [] db0).db.files
        = db0.files.map (fun r => if r.removed_date = none
            then { r with removed_date := some now } else r) ∧
      (sync_sonarr now [] db0).totalFiles = 0 ∧
      (sync_sonarr now [] db0).resolvedEpisodes = 0 ∧
      (sync_sonarr now [] db0).unresolvedFiles = 0) ∧
    (∀ (now : String) (db0 : PlexDB), plexWF db0.files →
      (sync_plex now [] db0).db.series = db0.series ∧
      (sync_plex now [] db0).db.episodes = db0.episodes ∧
      (sync_plex now [] db0).db.nextSeriesId = db0.nextSeriesId ∧
      (sync_plex now [] db0).db.nextEpisodeId = db0.nextEpisodeId ∧
      (sync_plex now [] db0).db.nextFileId = db0.nextFileId ∧
      (sync_plex now [] db0).db.files.length = db0.files.length ∧
      (sync_plex now [] db0).db.files
        = db0.files.map (fun r => if r.removed_date = none
            then { r with removed_date := some now } else r) ∧
      (sync_plex now [] db0).totalFiles = 0) :=
  ⟨fun now db0 h => sync_sonarr_empty now db0 h,
   fun now db0 h => sync_plex_empty now db0 h⟩

theorem C4_empty_observation_set_witness :
    plexWF (⟨[], [], [⟨1, "a.mkv", "/tv", 1, 1, "t0", none⟩], 2, 2, 2⟩ : PlexDB).files ∧
    ((sync_plex "t1" [] (⟨[], [], [⟨1, "a.mkv", "/tv", 1, 1, "t0", none⟩],
        2, 2, 2⟩ : PlexDB)).db.series
      = (⟨[], [], [⟨1, "a.mkv", "/tv", 1, 1, "t0", none⟩], 2, 2, 2⟩ : PlexDB).series ∧
    (sync_plex "t1" [] (⟨[], [], [⟨1, "a.mkv", "/tv", 1, 1, "t0", none⟩],
        2, 2, 2⟩ : PlexDB)).db.episodes
      = (⟨[], [], [⟨1, "a.mkv", "/tv", 1, 1, "t0", none⟩], 2, 2, 2⟩ : PlexDB).episodes ∧
    (sync_plex "t1" [] (⟨[], [], [⟨1, "a.mkv", "/tv", 1, 1, "t0", none⟩],
        2, 2, 2⟩ : PlexDB)).db.nextSeriesId
      = (⟨[], [], [⟨1, "a.mkv", "/tv", 1, 1, "t0", none⟩], 2, 2, 2⟩ : PlexDB).nextSeriesId ∧
    (sync_plex "t1" [] (⟨[], [], [⟨1, "a.mkv", "/tv", 1, 1, "t0", none⟩],
        2, 2, 2⟩ : PlexDB)).db.nextEpisodeId
      = (⟨[], [], [⟨1, "a.mkv", "/tv", 1, 1, "t0", none⟩],
          2, 2, 2⟩ : PlexDB).nextEpisodeId ∧
    (sync_plex "t1" [] (⟨[], [], [⟨1, "a.mkv", "/tv", 1, 1, "t0", none⟩],
        2, 2, 2⟩ : PlexDB)).db.nextFileId
      = (⟨[], [], [⟨1, "a.mkv", "/tv", 1, 1, "t0", none⟩], 2, 2, 2⟩ : PlexDB).nextFileId ∧
    (sync_plex "t1" [] (⟨[], [], [⟨1, "a.mkv", "/tv", 1, 1, "t0", none⟩],
        2, 2, 2⟩ : PlexDB)).db.files.length
      = (⟨[], [], [⟨1, "a.mkv", "/tv", 1, 1, "t0", none⟩],
          2, 2, 2⟩ : PlexDB).files.length ∧
    (sync_plex "t1" [] (⟨[], [], [⟨1, "a.mkv", "/tv", 1, 1, "t0", none⟩],
        2, 2, 2⟩ : PlexDB)).db.files
      = ((⟨[], [], [⟨1, "a.mkv", "/tv", 1, 1, "t0", none⟩],
          2, 2, 2⟩ : PlexDB).files.map (fun r => if r.removed_date = none
            then { r with removed_date := some "t1" } else r)) ∧
    (sync_plex "t1" [] (⟨[], [], [⟨1, "a.mkv", "/tv", 1, 1, "t0", none⟩],
        2, 2, 2⟩ : PlexDB)).totalFiles = 0) :=
  ⟨by decide,
   C4_empty_observation_set.2 "t1"
     (⟨[], [], [⟨1, "a.mkv", "/tv", 1, 1, "t0", none⟩], 2, 2, 2⟩ : PlexDB) (by decide)⟩

/-- Claim C5: dependency ordering — at every point during a pass, every
episode row references a series row that was already resolved, and every
leaf row references an already-resolved series (and, when linked, an
already-inserted episode).  Stated as preservation of the referential
invariant by every write granularity of both API variants: the per-file /
per-part body (under the guarantee that the ids it was handed were resolved
beforehand, which the enclosing loops establish by inserting and then
fetching), the per-series / per-episode / per-show bodies, and the whole
pass — so the invariant holds at every intermediate store state, even for
parents never seen in any earlier pass. -/
theorem C5_dependency_ordering :
    (∀ (now : String) (sid : Nat) (eps : List SonarrEpisodeObs) (st : SonarrPass)
      (ef : SonarrFileObs), sonarrRefInv st.db → (∃ s ∈ st.db.series, s.id = sid) →
      sonarrRefInv (sonarrStepFile now sid eps st ef).db) ∧
    (∀ (now : String) (st : SonarrPass) (so : SonarrSeriesObs),
      sonarrRefInv st.db → sonarrRefInv (sonarrStepSeries now st so).db) ∧
    (∀ (now : String) (obs : List SonarrSeriesObs) (db0 : SonarrDB),
      sonarrRefInv db0 → sonarrRefInv (sync_sonarr now obs db0).db) ∧
    (∀ (now : String) (sid eid : Nat) (st : PlexPass) (part : PlexPartObs),
      plexRefInv st.db → (∃ s ∈ st.db.series, s.id = sid) →
      (∃ e ∈ st.db.episodes, e.id = eid) →
      plexRefInv (plexStepPart now sid eid st part).db) ∧
    (∀ (now : String) (sid : Nat) (sn : Option String) (st : PlexPass)
      (ep : PlexEpisodeObs), plexRefInv st.db → (∃ s ∈ st.db.series, s.id = sid) →
      plexRefInv (plexStepEpisode now sid sn st ep).db) ∧
    (∀ (now : String) (st : PlexPass) (sh : PlexShowObs),
      plexRefInv st.db → plexRefInv (plexStepShow now st sh).db) ∧
    (∀ (now : String) (obs : List PlexSectionObs) (db0 : PlexDB),
      plexRefInv db0 → plexRefInv (sync_plex now obs db0).db) :=
  ⟨fun now sid eps st ef h hsid => sonarrRefInv_stepFile now eps st ef h hsid,
   fun now st so h => sonarrRefInv_stepSeries now st so h,
   fun now obs db0 h => sonarrRefInv_sync now obs db0 h,
   fun now sid eid st part h hsid heid => plexRefInv_stepPart now st part h hsid heid,
   fun now sid sn st ep h hsid => plexRefInv_stepEpisode now sn st ep h hsid,
   fun now st sh h => plexRefInv_stepShow now st sh h,
   fun now obs db0 h => plexRefInv_sync now obs db0 h⟩

theorem C5_dependency_ordering_witness :
    sonarrRefInv sampleSonarrSt.db ∧ (∃ s ∈ sampleSonarrSt.db.series, s.id = 1) ∧
    plexRefInv samplePlexSt.db ∧ (∃ s ∈ samplePlexSt.db.series, s.id = 1) ∧
    (∃ e ∈ samplePlexSt.db.episodes, e.id = 1) ∧
    sonarrRefInv sampleSonarrDB ∧ plexRefInv samplePlexDB ∧
    sonarrRefInv (sonarrStepFile "t" 1 [⟨7, some 1, some 2⟩] sampleSonarrSt
      ⟨"/tv/a.mkv", [7]⟩).db ∧
    sonarrRefInv (sonarrStepSeries "t" sampleSonarrSt
      ⟨1, "Show", "/tv", [⟨7, some 1, some 2⟩], [⟨"/tv/a.mkv", [7]⟩]⟩).db ∧
    sonarrRefInv (sync_sonarr "t" sampleSonarrObs sampleSonarrDB).db ∧
    plexRefInv (plexStepPart "t" 1 1 samplePlexSt ⟨"a.mkv", "/tv"⟩).db ∧
    plexRefInv (plexStepEpisode "t" 1 (some "1") samplePlexSt
      ⟨"/ek1", some "2", [⟨"a.mkv", "/tv"⟩]⟩).db ∧
    plexRefInv (plexStepShow "t" samplePlexSt
      ⟨"/k1", "Show", [⟨some "1", [⟨"/ek1", some "2", [⟨"a.mkv", "/tv"⟩]⟩]⟩]⟩).db ∧
    plexRefInv (sync_plex "t" samplePlexObs samplePlexDB).db :=
  ⟨by decide, by decide, by decide, by decide, by decide, by decide, by decide,
   C5_dependency_ordering.1 "t" 1 [⟨7, some 1, some 2⟩] sampleSonarrSt
     ⟨"/tv/a.mkv", [7]⟩ (by decide) (by decide),
   C5_dependency_ordering.2.1 "t" sampleSonarrSt
     ⟨1, "Show", "/tv", [⟨7, some 1, some 2⟩], [⟨"/tv/a.mkv", [7]⟩]⟩ (by decide),
   C5_dependency_ordering.2.2.1 "t" sampleSonarrObs sampleSonarrDB (by decide),
   C5_dependency_ordering.2.2.2.1 "t" 1 1 samplePlexSt ⟨"a.mkv", "/tv"⟩
     (by decide) (by decide) (by decide),
   C5_dependency_ordering.2.2.2.2.1 "t" 1 (some "1") samplePlexSt
     ⟨"/ek1", some "2", [⟨"a.mkv", "/tv"⟩]⟩ (by decide) (by decide),
   C5_dependency_ordering.2.2.2.2.2.1 "t" samplePlexSt
     ⟨"/k1", "Show", [⟨some "1", [⟨"/ek1", some "2", [⟨"a.mkv", "/tv"⟩]⟩]⟩]⟩ (by decide),
   C5_dependency_ordering.2.2.2.2.2.2 "t" samplePlexObs samplePlexDB (by decide)⟩

/-- Claim C6: first-write-wins frame property — for every entity row already
present under its natural key, a later pass (with possibly different
attribute values in its observations) leaves all structural columns and
`added_date` unchanged; series and episode tables are append-only and the
only file-row column any pass may modify is `removed_date`. -/
theorem C6_first_write_wins :
    (∀ (now : String) (obs : List PlexSectionObs) (db0 : PlexDB),
      plexFrame db0.files (sync_plex now obs db0).db.files ∧
      extOf db0.series (sync_plex now obs db0).db.series ∧
      extOf db0.episodes (sync_plex now obs db0).db.episodes) ∧
    (∀ (nowS nowU : String) (obs : List FsObs) (db0 : FsDB),
      fsFrame db0.files (fsPass nowS nowU obs db0).1.files) ∧
    (∀ (now : String) (obs : List SonarrSeriesObs) (db0 : SonarrDB),
      sonarrFrame db0.files (sync_sonarr now obs db0).db.files ∧
      extOf db0.series (sync_sonarr now obs db0).db.series ∧
      extOf db0.episodes (sync_sonarr now obs db0).db.episodes) :=
  ⟨fun now obs db0 => sync_plex_frame now obs db0,
   fun nowS nowU obs db0 => fsPass_frame nowS nowU obs db0,
   fun now obs db0 => sync_sonarr_frame now obs db0⟩

theorem C6_first_write_wins_witness :
    (plexFrame samplePlexDB.files (sync_plex "t" samplePlexObs samplePlexDB).db.files ∧
      extOf samplePlexDB.series (sync_plex "t" samplePlexObs samplePlexDB).db.series ∧
      extOf samplePlexDB.episodes (sync_plex "t" samplePlexObs samplePlexDB).db.episodes) ∧
    fsFrame sampleFsDB.files (fsPass "t" "tu" sampleFsObs sampleFsDB).1.files ∧
    (sonarrFrame sampleSonarrDB.files
        (sync_sonarr "t" sampleSonarrObs sampleSonarrDB).db.files ∧
      extOf sampleSonarrDB.series
        (sync_sonarr "t" sampleSonarrObs sampleSonarrDB).db.series ∧
      extOf sampleSonarrDB.episodes
        (sync_sonarr "t" sampleSonarrObs sampleSonarrDB).db.episodes) :=
  ⟨C6_first_write_wins.1 "t" samplePlexObs samplePlexDB,
   C6_first_write_wins.2.1 "t" "tu" sampleFsObs sampleFsDB,
   C6_first_write_wins.2.2 "t" sampleSonarrObs sampleSonarrDB⟩

/-- Claim C7: an observation whose episode linkage cannot be resolved
(missing `episodeIds` or an unknown first id) increments the unresolved
counter, does not touch the episode table, still records the file with a
null episode link (so no leaf references a nonexistent parent — referential
integrity is preserved), and the pass continues: every file observation of
the stream is processed and counted. -/
theorem C7_unresolved_link :
    (∀ (now : String) (sid : Nat) (eps : List SonarrEpisodeObs) (st : SonarrPass)
      (ef : SonarrFileObs), sonarrUnresolvedObs eps ef →
      (sonarrStepFile now sid eps st ef).unresolvedFiles = st.unresolvedFiles + 1 ∧
      (sonarrStepFile now sid eps st ef).resolvedEpisodes = st.resolvedEpisodes ∧
      (sonarrStepFile now sid eps st ef).db.episodes = st.db.episodes ∧
      (¬ fileHas st.db.files ef.path →
        (sonarrStepFile now sid eps st ef).db.files
          = st.db.files ++ [⟨st.db.nextFileId, ef.path, sid, none, now, none⟩]) ∧
      (sonarrRefInv st.db → (∃ s ∈ st.db.series, s.id = sid) →
        sonarrRefInv (sonarrStepFile now sid eps st ef).db)) ∧
    (∀ (now : String) (obs : List SonarrSeriesObs) (db0 : SonarrDB),
      (sync_sonarr now obs db0).totalFiles = sonarrObsFileCount obs) := by
  constructor
  · intro now sid eps st ef h
    obtain ⟨h1, h2, h3, h4⟩ := sonarrStepFile_unresolved now sid eps st ef h
    refine ⟨h1, h2, h3, ?_, ?_⟩
    · intro hno
      show (sonarrStepFile now sid eps st ef).db.files = _
      rw [h4]
      exact sonarr_insert_clear_fresh st.db ef.path sid none now hno
    · intro hinv hsid
      exact sonarrRefInv_stepFile now eps st ef hinv hsid
  · intro now obs db0
    exact sync_sonarr_total now obs db0

theorem C7_unresolved_link_witness :
    sonarrUnresolvedObs ([] : List SonarrEpisodeObs) ⟨"/tv/x.mkv", []⟩ ∧
    ((sonarrStepFile "t" 1 [] sampleSonarrSt ⟨"/tv/x.mkv", []⟩).unresolvedFiles
        = sampleSonarrSt.unresolvedFiles + 1 ∧
      (sonarrStepFile "t" 1 [] sampleSonarrSt ⟨"/tv/x.mkv", []⟩).resolvedEpisodes
        = sampleSonarrSt.resolvedEpisodes ∧
      (sonarrStepFile "t" 1 [] sampleSonarrSt ⟨"/tv/x.mkv", []⟩).db.episodes
        = sampleSonarrSt.db.episodes ∧
      (¬ fileHas sampleSonarrSt.db.files (⟨"/tv/x.mkv", []⟩ : SonarrFileObs).path →
        (sonarrStepFile "t" 1 [] sampleSonarrSt ⟨"/tv/x.mkv", []⟩).db.files
          = sampleSonarrSt.db.files
            ++ [⟨sampleSonarrSt.db.nextFileId, (⟨"/tv/x.mkv", []⟩ : SonarrFileObs).path,
                1, none, "t", none⟩]) ∧
      (sonarrRefInv sampleSonarrSt.db → (∃ s ∈ sampleSonarrSt.db.series, s.id = 1) →
        sonarrRefInv (sonarrStepFile "t" 1 [] sampleSonarrSt ⟨"/tv/x.mkv", []⟩).db)) ∧
    (sync_sonarr "t" sampleSonarrObs sampleSonarrDB).totalFiles
      = sonarrObsFileCount sampleSonarrObs :=
  ⟨Or.inl rfl,
   C7_unresolved_link.1 "t" 1 [] sampleSonarrSt ⟨"/tv/x.mkv", []⟩ (Or.inl rfl),
   C7_unresolved_link.2 "t" sampleSonarrObs sampleSonarrDB⟩

/-- Claim C8, counterexample: the filesystem variant does NOT wrap one pass
in a single transactional scope committed once at the end.  Its run commits
four times (`record_scan`, `record_dir`, `scan_directory` and
`update_directories` each commit on their own), and already after the second
operation of the run — i.e. before a single file has been scanned — the
committed store differs from the pre-pass state, so a mid-pass failure does
not leave the store as it was before the pass. -/
theorem C8_filesystem_counterexample :
    commitCount (fsMainOps "t" "tu" "/tv" sampleFsObs []) ≠ 1 ∧
    (runOps (sampleFsDB, sampleFsDB)
        ((fsMainOps "t" "tu" "/tv" sampleFsObs []).take 2)).1 ≠ sampleFsDB := by
  constructor
  · rw [fsMainOps_count]
    decide
  · decide

/-- Claim C8, amended: the single-commit all-or-nothing discipline holds for
the Sonarr and Plex variants — each pass's operation sequence contains
exactly one commit, placed last, so interrupting the pass at any point
before the end leaves the committed store exactly at its pre-pass state, and
running the full sequence commits exactly the pass's result — but not for
the filesystem variant, whose run commits four separate times. -/
theorem C8_commit_discipline :
    (∀ (now : String) (obs : List SonarrSeriesObs),
      commitCount (sonarrSyncOps now obs) = 1) ∧
    (∀ (now : String) (obs : List SonarrSeriesObs) (db : SonarrDB) (k : Nat),
      k < (sonarrSyncOps now obs).length →
      (runOps (db, db) ((sonarrSyncOps now obs).take k)).1 = db) ∧
    (∀ (now : String) (obs : List SonarrSeriesObs) (db : SonarrDB),
      runOps (db, db) (sonarrSyncOps now obs)
        = ((sync_sonarr now obs db).db, (sync_sonarr now obs db).db)) ∧
    (∀ (now : String) (obs : List PlexSectionObs),
      commitCount (plexSyncOps now obs) = 1) ∧
    (∀ (now : String) (obs : List PlexSectionObs) (db : PlexDB) (k : Nat),
      k < (plexSyncOps now obs).length →
      (runOps (db, db) ((plexSyncOps now obs).take k)).1 = db) ∧
    (∀ (now : String) (obs : List PlexSectionObs) (db : PlexDB),
      runOps (db, db) (plexSyncOps now obs)
        = ((sync_plex now obs db).db, (sync_plex now obs db).db)) ∧
    (∀ (nowS nowU dirname : String) (obs : List FsObs)
      (existing : List (String × String)),
      commitCount (fsMainOps nowS nowU dirname obs existing) = 4) :=
  ⟨fun now obs => sonarrSyncOps_count now obs,
   fun now obs db k hk => sonarrSyncOps_prefix_safe now obs db k hk,
   fun now obs db => sonarrSyncOps_run now obs db,
   fun now obs => plexSyncOps_count now obs,
   fun now obs db k hk => plexSyncOps_prefix_safe now obs db k hk,
   fun now obs db => plexSyncOps_run now obs db,
   fun nowS nowU dirname obs existing => fsMainOps_count nowS nowU dirname obs existing⟩

theorem C8_commit_discipline_witness :
    0 < (sonarrSyncOps "t" sampleSonarrObs).length ∧
    (runOps (sampleSonarrDB, sampleSonarrDB)
        ((sonarrSyncOps "t" sampleSonarrObs).take 0)).1 = sampleSonarrDB ∧
    0 < (plexSyncOps "t" samplePlexObs).length ∧
    (runOps (samplePlexDB, samplePlexDB)
        ((plexSyncOps "t" samplePlexObs).take 0)).1 = samplePlexDB ∧
    commitCount (sonarrSyncOps "t" sampleSonarrObs) = 1 ∧
    commitCount (plexSyncOps "t" samplePlexObs) = 1 ∧
    runOps (sampleSonarrDB, sampleSonarrDB) (sonarrSyncOps "t" sampleSonarrObs)
      = ((sync_sonarr "t" sampleSonarrObs sampleSonarrDB).db,
         (sync_sonarr "t" sampleSonarrObs sampleSonarrDB).db) ∧
    runOps (samplePlexDB, samplePlexDB) (plexSyncOps "t" samplePlexObs)
      = ((sync_plex "t" samplePlexObs samplePlexDB).db,
         (sync_plex "t" samplePlexObs samplePlexDB).db) ∧
    commitCount (fsMainOps "t" "tu" "/tv" sampleFsObs []) = 4 :=
  ⟨by decide,
   C8_commit_discipline.2.1 "t" sampleSonarrObs sampleSonarrDB 0 (by decide),
   by decide,
   C8_commit_discipline.2.2.2.2.1 "t" samplePlexObs samplePlexDB 0 (by decide),
   C8_commit_discipline.1 "t" sampleSonarrObs,
   C8_commit_discipline.2.2.2.1 "t" samplePlexObs,
   C8_commit_discipline.2.2.1 "t" sampleSonarrObs sampleSonarrDB,
   C8_commit_discipline.2.2.2.2.2.1 "t" samplePlexObs samplePlexDB,
   C8_commit_discipline.2.2.2.2.2.2 "t" "tu" "/tv" sampleFsObs []⟩

/-- Claim C9: for an episode file whose `episodeIds` holds more than one id,
only the first id is resolved: it alone is (possibly) inserted as an episode
row and counted as exactly one resolved episode, a freshly inserted leaf row
links to that first episode's durable id, and no other id of the list is
inserted. -/
theorem C9_multi_episode_first_only :
    ∀ (now : String) (sid : Nat) (eps : List SonarrEpisodeObs) (st : SonarrPass)
      (ef : SonarrFileObs) (eid : Nat) (rest : List Nat) (ep : SonarrEpisodeObs),
      ef.episodeIds = eid :: rest → lookupEpisodeObs eps eid = some ep →
      (sonarrStepFile now sid eps st ef).resolvedEpisodes = st.resolvedEpisodes + 1 ∧
      (sonarrStepFile now sid eps st ef).unresolvedFiles = st.unresolvedFiles ∧
      ep.id = eid ∧
      (∀ x ∈ (sonarrStepFile now sid eps st ef).db.episodes,
        x ∈ st.db.episodes ∨ x.sonarr_id = eid) ∧
      (¬ fileHas st.db.files ef.path →
        ∃ j : Nat, (sonarrStepFile now sid eps st ef).db.files
            = st.db.files ++ [⟨st.db.nextFileId, ef.path, sid, some j, now, none⟩] ∧
          ∃ e ∈ (sonarrStepFile now sid eps st ef).db.episodes,
            e.id = j ∧ e.sonarr_id = eid) :=
  fun now sid eps st ef eid rest ep hids hlk =>
    sonarrStepFile_multi now sid eps st ef eid rest ep hids hlk

theorem C9_multi_episode_first_only_witness :
    (⟨"/tv/b.mkv", [7, 8]⟩ : SonarrFileObs).episodeIds = 7 :: [8] ∧
    lookupEpisodeObs [⟨7, some 1, some 2⟩, ⟨8, some 1, some 3⟩] 7
      = some ⟨7, some 1, some 2⟩ ∧
    ((sonarrStepFile "t" 1 [⟨7, some 1, some 2⟩, ⟨8, some 1, some 3⟩] sampleSonarrSt
        ⟨"/tv/b.mkv", [7, 8]⟩).resolvedEpisodes = sampleSonarrSt.resolvedEpisodes + 1 ∧
      (sonarrStepFile "t" 1 [⟨7, some 1, some 2⟩, ⟨8, some 1, some 3⟩] sampleSonarrSt
        ⟨"/tv/b.mkv", [7, 8]⟩).unresolvedFiles = sampleSonarrSt.unresolvedFiles ∧
      (⟨7, some 1, some 2⟩ : SonarrEpisodeObs).id = 7 ∧
      (∀ x ∈ (sonarrStepFile "t" 1 [⟨7, some 1, some 2⟩, ⟨8, some 1, some 3⟩]
          sampleSonarrSt ⟨"/tv/b.mkv", [7, 8]⟩).db.episodes,
        x ∈ sampleSonarrSt.db.episodes ∨ x.sonarr_id = 7) ∧
      (¬ fileHas sampleSonarrSt.db.files (⟨"/tv/b.mkv", [7, 8]⟩ : SonarrFileObs).path →
        ∃ j : Nat, (sonarrStepFile "t" 1 [⟨7, some 1, some 2⟩, ⟨8, some 1, some 3⟩]
            sampleSonarrSt ⟨"/tv/b.mkv", [7, 8]⟩).db.files
            = sampleSonarrSt.db.files
              ++ [⟨sampleSonarrSt.db.nextFileId,
                  (⟨"/tv/b.mkv", [7, 8]⟩ : SonarrFileObs).path, 1, some j, "t", none⟩] ∧
          ∃ e ∈ (sonarrStepFile "t" 1 [⟨7, some 1, some 2⟩, ⟨8, some 1, some 3⟩]
              sampleSonarrSt ⟨"/tv/b.mkv", [7, 8]⟩).db.episodes,
            e.id = j ∧ e.sonarr_id = 7)) :=
  ⟨rfl, by decide,
   C9_multi_episode_first_only "t" 1 [⟨7, some 1, some 2⟩, ⟨8, some 1, some 3⟩]
     sampleSonarrSt ⟨"/tv/b.mkv", [7, 8]⟩ 7 [8] ⟨7, some 1, some 2⟩ rfl (by decide)⟩

/-- Claim C10: a file whose stat call failed (modelled by a null ctime in
the walk result) is still inserted — with a null `creation_date` — or
re-observed as usual, its key still counts toward the pass (the per-file
counter sums to the full observation count), and the scan continues with the
remaining files. -/
theorem C10_stat_failure_tolerance :
    (∀ (db : FsDB) (now : String) (o : FsObs), o.ctime = none →
      (¬ fsFileHas db.files (fsKey o) →
        (insertFsFile db now o).1.files
          = db.files ++ [⟨db.nextFileId, o.filename, o.rootPath, none, now, none⟩] ∧
        (insertFsFile db now o).2 = true) ∧
      (fsFileHas db.files (fsKey o) → insertFsFile db now o = (db, false)) ∧
      fsFileHas (insertFsFile db now o).1.files (fsKey o)) ∧
    (∀ (now : String) (obs : List FsObs) (db : FsDB),
      (scan_directory now obs db).2.2 = obs.length) := by
  constructor
  · intro db now o hctime
    obtain ⟨h1, h2⟩ := insertFsFile_statFailure db now o hctime
    exact ⟨h1, h2, fsFileHas_insert_self db now o⟩
  · intro now obs db
    exact scan_directory_counts now obs db

theorem C10_stat_failure_tolerance_witness :
    (⟨"a.mkv", "/tv", none⟩ : FsObs).ctime = none ∧
    ((¬ fsFileHas sampleFsDB.files (fsKey ⟨"a.mkv", "/tv", none⟩) →
        (insertFsFile sampleFsDB "t" ⟨"a.mkv", "/tv", none⟩).1.files
          = sampleFsDB.files ++ [⟨sampleFsDB.nextFileId, "a.mkv", "/tv", none, "t", none⟩] ∧
        (insertFsFile sampleFsDB "t" ⟨"a.mkv", "/tv", none⟩).2 = true) ∧
      (fsFileHas sampleFsDB.files (fsKey ⟨"a.mkv", "/tv", none⟩) →
        insertFsFile sampleFsDB "t" ⟨"a.mkv", "/tv", none⟩ = (sampleFsDB, false)) ∧
      fsFileHas (insertFsFile sampleFsDB "t" ⟨"a.mkv", "/tv", none⟩).1.files
        (fsKey ⟨"a.mkv", "/tv", none⟩)) ∧
    (scan_directory "t" sampleFsObs sampleFsDB).2.2 = sampleFsObs.length :=
  ⟨rfl,
   C10_stat_failure_tolerance.1 sampleFsDB "t" ⟨"a.mkv", "/tv", none⟩ rfl,
   C10_stat_failure_tolerance.2 "t" sampleFsObs sampleFsDB⟩

end ShowsReorg

